import Mathlib

/-!
Verification of the vampirc-uci UCI message model, serializer (src/uci.rs) and
parser entry points (src/parser.rs).

The message data model and the `serialize` functions are shallow embeddings of
`src/uci.rs` (Rust `u8`/`u16`/`u64` become `Nat`, `i8`/`i32`/`i64` become `Int`,
`Duration` values are kept as their millisecond counts, as the parser constructs
them with `Duration::from_millis`).  The per-message builders and the entry
points `parse_strict`, `parse`, `parse_with_unknown` and `parse_one` are
embedded from `src/parser.rs`.  The PEG grammar file `res/uci.pest` that drives
tokenization is not part of the sources; the tokenization layer is therefore
modelled from the specification (each such definition carries a
`Modelled from the spec:` doc comment).  Rust panics (`unwrap` failures in the
builders, e.g. `str::parse::<u8>("999").unwrap()`) are modelled explicitly as a
`panicked` outcome.
-/

set_option maxRecDepth 10000
set_option maxHeartbeats 3200000

namespace VampircUci

/-! ## Characters and words -/

/-- Modelled from the spec: in-line whitespace of the grammar ("Whitespace
between tokens is insignificant and may repeat"); space or tab. -/
def isWS (c : Char) : Bool := c = ' ' ∨ c = '\t'

/-- Character of an in-line token: not in-line whitespace and not a line
terminator. -/
def isTokChar (c : Char) : Bool := ¬ isWS c ∧ c ≠ '\n' ∧ c ≠ '\r'

/-- Rust `str::trim_end` on the character level: drop trailing whitespace
(the protocol only ever meets space, tab, CR and LF). -/
def rustIsWhitespace (c : Char) : Bool := c = ' ' ∨ c = '\t' ∨ c = '\n' ∨ c = '\r'

/-- Rust `s.trim_end()`. -/
def trimEnd (s : String) : String :=
  ⟨(s.data.reverse.dropWhile rustIsWhitespace).reverse⟩

/-- Rust `str::trim` (used by the setoption builder on the option name). -/
def trimBoth (s : List Char) : List Char :=
  ((s.dropWhile rustIsWhitespace).reverse.dropWhile rustIsWhitespace).reverse

/-- Modelled from the spec: lines are delimited by `\n`; a trailing `\r`
before the `\n` is tolerated.  Splits on `\n` and strips one trailing `\r`
from each piece; input need not end with a newline, and a final newline does
not open an extra line. -/
def splitLinesAux (cur : List Char) : List Char → List (List Char)
  | [] => [cur.reverse]
  | c :: cs => if c = '\n' then cur.reverse :: splitLinesAux [] cs else splitLinesAux (c :: cur) cs

/-- Strip one trailing carriage return. -/
def stripCR (l : List Char) : List Char :=
  match l.reverse with
  | '\r' :: rest => rest.reverse
  | _ => l

/-- Drop one trailing empty piece (the piece opened by a final newline, or
the sole empty piece of an empty input). -/
def dropFinalEmpty : List (List Char) → List (List Char)
  | [] => []
  | [x] => if x.isEmpty then [] else [x]
  | x :: xs => x :: dropFinalEmpty xs

/-- The lines of an input text (see `splitLinesAux`); an empty input has no
lines, and a trailing newline does not produce a final empty line. -/
def splitLines (s : List Char) : List (List Char) :=
  (dropFinalEmpty (splitLinesAux [] s)).map stripCR

/-- Accumulator walk that splits a line into whitespace-separated words;
`cur` holds the characters of the word in progress, reversed. -/
def wordsAux (cur : List Char) : List Char → List (List Char)
  | [] => if cur.isEmpty then [] else [cur.reverse]
  | c :: cs =>
    if isWS c then (if cur.isEmpty then wordsAux [] cs else cur.reverse :: wordsAux [] cs)
    else wordsAux (c :: cur) cs

/-- Modelled from the spec: a line's whitespace-separated tokens. -/
def words (l : List Char) : List (List Char) := wordsAux [] l

/-- Join tokens with single spaces (canonical form of a multi-token capture;
the grammar treats repeated in-line whitespace as a single separator). -/
def joinTok : List (List Char) → List Char
  | [] => []
  | [w] => w
  | w :: ws => w ++ ' ' :: joinTok ws

/-- ASCII lowercase of a character (keyword matching is case-insensitive). -/
def lowerChar (c : Char) : Char :=
  if 'A' ≤ c ∧ c ≤ 'Z' then Char.ofNat (c.toNat + 32) else c

/-- ASCII lowercase of a token. -/
def lower (w : List Char) : List Char := w.map lowerChar

/-- Case-insensitive keyword test: `w` matches keyword `k` (given lowercase). -/
def isKw (w : List Char) (k : List Char) : Bool := lower w = k

/-! ## Decimal numbers -/

/-- Decimal digit? -/
def isDigitChar (c : Char) : Bool := '0' ≤ c ∧ c ≤ '9'

/-- Value of a decimal digit character. -/
def digitVal (c : Char) : Nat := c.toNat - 48

/-- Character of a decimal digit value below 10. -/
def digitChar (d : Nat) : Char := Char.ofNat (48 + d)

/-- Numeric value of a digit string (left fold, most significant first). -/
def digitsVal (w : List Char) : Nat := w.foldl (fun a c => 10 * a + digitVal c) 0

/-- Digit-string test: nonempty and all decimal digits. -/
def allDigits (w : List Char) : Bool := w ≠ [] ∧ w.all isDigitChar

/-- Fuel-driven decimal rendering (the fuel only needs to cover the digit
count; `showNatChars` supplies `n` itself, which always suffices). -/
def showNatTR (fuel n : Nat) : List Char :=
  match fuel with
  | 0 => [digitChar n]
  | fuel + 1 =>
    if n < 10 then [digitChar n] else showNatTR fuel (n / 10) ++ [digitChar (n % 10)]

/-- Decimal rendering of a natural number, as a character list (the embedding
of Rust's `format!("{}", n)` for unsigned integers). -/
def showNatChars (n : Nat) : List Char := showNatTR n n

/-- Decimal rendering of a natural number as a string. -/
def showNat (n : Nat) : String := ⟨showNatChars n⟩

/-- Decimal rendering of an integer (the embedding of Rust's
`format!("{}", i)` for signed integers). -/
def showIntChars (i : Int) : List Char :=
  if i < 0 then '-' :: showNatChars i.natAbs else showNatChars i.natAbs

/-- Decimal rendering of an integer as a string. -/
def showInt (i : Int) : String := ⟨showIntChars i⟩

/-- Rust `v as u16` on an unsigned value: truncation modulo `2^16`. -/
def asU16 (n : Nat) : Nat := n % 65536

/-- Rust `v as i32` on an `i64` value: two's-complement truncation. -/
def asI32 (v : Int) : Int :=
  let r := v.emod (2 ^ 32)
  if r < 2 ^ 31 then r else r - 2 ^ 32

/-- Rust `v as i8` on an `i64` value: two's-complement truncation. -/
def asI8 (v : Int) : Int :=
  let r := v.emod (2 ^ 8)
  if r < 2 ^ 7 then r else r - 2 ^ 8

/-! ## The message data model (src/uci.rs) -/

/-- `UciPiece` of src/uci.rs. -/
inductive UciPiece where
  | pawn | knight | bishop | rook | queen | king
  deriving DecidableEq, Repr

/-- `UciPiece::as_char` of src/uci.rs: promotion letter, `None` for a pawn. -/
def UciPiece.asChar : UciPiece → Option Char
  | .pawn => none
  | .knight => some 'n'
  | .bishop => some 'b'
  | .rook => some 'r'
  | .queen => some 'q'
  | .king => some 'k'

/-- `UciSquare` of src/uci.rs: a file character and a rank number. -/
structure UciSquare where
  file : Char
  rank : Nat
  deriving DecidableEq, Repr

/-- `UciMove` of src/uci.rs. -/
structure UciMove where
  from_sq : UciSquare
  to_sq : UciSquare
  promotion : Option UciPiece
  deriving DecidableEq, Repr

/-- `UciFen` of src/uci.rs: an opaque, never validated string wrapper. -/
structure UciFen where
  fen : String
  deriving DecidableEq, Repr

/-- `UciTimeControl` of src/uci.rs; all durations in milliseconds. -/
inductive UciTimeControl where
  | ponder
  | infinite
  | timeLeft (whiteTime blackTime whiteIncrement blackIncrement : Option Nat)
      (movesToGo : Option Nat)
  | moveTime (msec : Nat)
  deriving DecidableEq, Repr

/-- `UciSearchControl` of src/uci.rs. -/
structure UciSearchControl where
  searchMoves : List UciMove
  mate : Option Nat
  depth : Option Nat
  nodes : Option Nat
  deriving DecidableEq, Repr

/-- `UciSearchControl::is_empty` of src/uci.rs. -/
def UciSearchControl.isEmpty (sc : UciSearchControl) : Bool :=
  sc.searchMoves.isEmpty ∧ sc.mate.isNone ∧ sc.depth.isNone ∧ sc.nodes.isNone

/-- `ProtectionState` of src/uci.rs. -/
inductive ProtectionState where
  | checking | ok | error
  deriving DecidableEq, Repr

/-- `UciOptionConfig` of src/uci.rs. -/
inductive UciOptionConfig where
  | check (name : String) (default : Option Bool)
  | spin (name : String) (default min max : Option Int)
  | combo (name : String) (default : Option String) (var : List String)
  | button (name : String)
  | str (name : String) (default : Option String)
  deriving DecidableEq, Repr

/-- `UciInfoAttribute` of src/uci.rs. -/
inductive UciInfoAttribute where
  | depth (n : Nat)
  | selDepth (n : Nat)
  | time (msec : Nat)
  | nodes (n : Nat)
  | pv (moves : List UciMove)
  | multiPv (n : Nat)
  | score (cp : Option Int) (mate : Option Int) (lowerBound upperBound : Option Bool)
  | currMove (m : UciMove)
  | currMoveNum (n : Nat)
  | hashFull (n : Nat)
  | nps (n : Nat)
  | tbHits (n : Nat)
  | sbHits (n : Nat)
  | cpuLoad (n : Nat)
  | str (s : String)
  | refutation (moves : List UciMove)
  | currLine (cpuNr : Option Nat) (line : List UciMove)
  | any (name : String) (value : String)
  deriving DecidableEq, Repr

/-- The parse error attached to `Unknown` messages.  The pest error of the
Rust code carries a position and an expected-token set; the model keeps the
first offending line, which is all the repository's code ever constructs it
from and enough for structural equality. -/
structure PError where
  line : String
  deriving DecidableEq, Repr

/-- `UciMessage` of src/uci.rs. -/
inductive UciMessage where
  | uci
  | debug (flag : Bool)
  | isReady
  | register (later : Bool) (name : Option String) (code : Option String)
  | position (startpos : Bool) (fen : Option UciFen) (moves : List UciMove)
  | setOption (name : String) (value : Option String)
  | uciNewGame
  | stop
  | ponderHit
  | quit
  | go (timeControl : Option UciTimeControl) (searchControl : Option UciSearchControl)
  | id (name : Option String) (author : Option String)
  | uciOk
  | readyOk
  | bestMove (best : UciMove) (ponder : Option UciMove)
  | copyProtection (state : ProtectionState)
  | registration (state : ProtectionState)
  | option (config : UciOptionConfig)
  | info (attrs : List UciInfoAttribute)
  | unknown (text : String) (err : Option PError)
  deriving DecidableEq, Repr

/-- `UciMessage::register_later` of src/uci.rs. -/
def registerLater : UciMessage := .register true none none

/-- `UciMessage::register_code` of src/uci.rs (sets both fields). -/
def registerCode (name code : String) : UciMessage :=
  .register false (some name) (some code)

/-! ## The serializer (src/uci.rs, `impl Serializable`) -/

/-- `Display for UciSquare`: `write!(f, "{}{}", self.file, self.rank)`. -/
def serializeSquare (sq : UciSquare) : String :=
  ⟨[sq.file]⟩ ++ showNat sq.rank

/-- `Display for UciMove`: both squares, then the promotion letter when the
promoted-to piece has one. -/
def serializeMove (m : UciMove) : String :=
  serializeSquare m.from_sq ++ serializeSquare m.to_sq ++
    (match m.promotion with
     | some p => match p.asChar with
                 | some c => ⟨[c]⟩
                 | none => ""
     | none => "")

/-- `UciOptionConfig::get_name` of src/uci.rs. -/
def UciOptionConfig.getName : UciOptionConfig → String
  | .check n _ => n
  | .spin n _ _ _ => n
  | .combo n _ _ => n
  | .button n => n
  | .str n _ => n

/-- `UciOptionConfig::get_type_str` of src/uci.rs. -/
def UciOptionConfig.getTypeStr : UciOptionConfig → String
  | .check .. => "check"
  | .spin .. => "spin"
  | .combo .. => "combo"
  | .button .. => "button"
  | .str .. => "string"

/-- `Serializable for UciOptionConfig` of src/uci.rs. -/
def serializeOptionConfig (cfg : UciOptionConfig) : String :=
  let base := "option name " ++ cfg.getName ++ " type " ++ cfg.getTypeStr
  match cfg with
  | .check _ default =>
    base ++ (match default with
             | some d => " default " ++ (if d then "true" else "false")
             | none => "")
  | .spin _ default mn mx =>
    base ++ (match default with
             | some d => " default " ++ showInt d
             | none => "")
         ++ (match mn with
             | some m => " min " ++ showInt m
             | none => "")
         ++ (match mx with
             | some m => " max " ++ showInt m
             | none => "")
  | .combo _ default var =>
    base ++ (match default with
             | some d => " default " ++ d
             | none => "")
         ++ String.join (var.map (fun v => " var " ++ v))
  | .str _ default =>
    base ++ (match default with
             | some d => " default " ++ d
             | none => "")
  | .button _ => base

/-- `UciInfoAttribute::get_name` of src/uci.rs. -/
def UciInfoAttribute.getName : UciInfoAttribute → String
  | .depth .. => "depth"
  | .selDepth .. => "seldepth"
  | .time .. => "time"
  | .nodes .. => "nodes"
  | .pv .. => "pv"
  | .multiPv .. => "multipv"
  | .score .. => "score"
  | .currMove .. => "currmove"
  | .currMoveNum .. => "currmovenum"
  | .hashFull .. => "hashfull"
  | .nps .. => "nps"
  | .tbHits .. => "tbhits"
  | .sbHits .. => "sbhits"
  | .cpuLoad .. => "cpuload"
  | .str .. => "string"
  | .refutation .. => "refutation"
  | .currLine .. => "currline"
  | .any n _ => n

/-- `Serializable for UciInfoAttribute` of src/uci.rs. -/
def serializeInfoAttr (a : UciInfoAttribute) : String :=
  a.getName ++
  (match a with
   | .depth n => " " ++ showNat n
   | .selDepth n => " " ++ showNat n
   | .time n => " " ++ showNat n
   | .nodes n => " " ++ showNat n
   | .pv moves => String.join (moves.map (fun m => " " ++ serializeMove m))
   | .refutation moves => String.join (moves.map (fun m => " " ++ serializeMove m))
   | .multiPv n => " " ++ showNat n
   | .score cp mate lowerBound upperBound =>
     (match cp with
      | some c => " cp " ++ showInt c
      | none => "")
     ++ (match mate with
         | some m => " mate " ++ showInt m
         | none => "")
     ++ (if lowerBound.isSome then " lowerbound"
         else if upperBound.isSome then " upperbound" else "")
   | .currMove m => " " ++ serializeMove m
   | .currMoveNum n => " " ++ showNat n
   | .hashFull n => " " ++ showNat n
   | .nps n => " " ++ showNat n
   | .tbHits n => " " ++ showNat n
   | .sbHits n => " " ++ showNat n
   | .cpuLoad n => " " ++ showNat n
   | .str s => " " ++ s
   | .currLine cpuNr line =>
     (match cpuNr with
      | some c => " cpunr " ++ showNat c
      | none => "")
     ++ String.join (line.map (fun m => " " ++ serializeMove m))
   | .any _ value => " " ++ value)

/-- `Serializable for UciMessage` of src/uci.rs (the `serialize` method). -/
def serialize (msg : UciMessage) : String :=
  match msg with
  | .debug flag => if flag then "debug on" else "debug off"
  | .register later name code =>
    if later then "register later"
    else
      "register " ++
      (match name with
       | some n => "name " ++ n ++ (if code.isSome then " " else "")
       | none => "") ++
      (match code with
       | some c => "code " ++ c
       | none => "")
  | .position startpos fen moves =>
    "position " ++
    (if startpos then "startpos"
     else match fen with
          | some f => "fen " ++ f.fen
          | none => "") ++
    (if moves.length > 0 then
       " moves" ++ String.join (moves.map (fun m => " " ++ serializeMove m))
     else "")
  | .setOption name value =>
    "setoption name " ++ name ++
    (match value with
     | some v => if v.length = 0 then " value <empty>" else " value " ++ v
     | none => " value <empty>")
  | .go timeControl searchControl =>
    "go " ++
    (match timeControl with
     | some UciTimeControl.infinite => "infinite "
     | some UciTimeControl.ponder => "ponder "
     | some (.moveTime msec) => "movetime " ++ showNat msec ++ " "
     | some (.timeLeft wt bt wi bi mtg) =>
       (match wt with
        | some t => "wtime " ++ showNat t ++ " "
        | none => "") ++
       (match bt with
        | some t => "bt " ++ showNat t ++ " "
        | none => "") ++
       (match wi with
        | some t => "winc " ++ showNat t ++ " "
        | none => "") ++
       (match bi with
        | some t => "binc " ++ showNat t ++ " "
        | none => "") ++
       (match mtg with
        | some t => "movestogo " ++ showNat t ++ " "
        | none => "")
     | none => "") ++
    (match searchControl with
     | some sc =>
       (match sc.depth with
        | some d => "depth " ++ showNat d ++ " "
        | none => "") ++
       (match sc.nodes with
        | some n => "nodes " ++ showNat n ++ " "
        | none => "") ++
       (match sc.mate with
        | some m => "mate " ++ showNat m ++ " "
        | none => "") ++
       (if sc.searchMoves.isEmpty then ""
        else " searchmoves " ++ String.join (sc.searchMoves.map (fun m => serializeMove m ++ " ")))
     | none => "")
  | .uci => "uci"
  | .isReady => "isready"
  | .uciNewGame => "ucinewgame"
  | .stop => "stop"
  | .ponderHit => "ponderhit"
  | .quit => "quit"
  | .id name author =>
    "id " ++
    (match name with
     | some n => "name " ++ n
     | none => match author with
               | some a => "author " ++ a
               | none => "")
  | .uciOk => "uciok"
  | .readyOk => "readyok"
  | .bestMove best ponder =>
    "bestmove " ++ serializeMove best ++
    (match ponder with
     | some p => " ponder " ++ serializeMove p
     | none => "")
  | .copyProtection state =>
    "copyprotection " ++
    (match state with
     | .checking => "checking"
     | .ok => "ok"
     | .error => "error")
  | .registration state =>
    "registration " ++
    (match state with
     | .checking => "checking"
     | .ok => "ok"
     | .error => "error")
  | .option config => serializeOptionConfig config
  | .info attrs => "info" ++ String.join (attrs.map (fun a => " " ++ serializeInfoAttr a))
  | .unknown text _ => "UNKNOWN MESSAGE: " ++ text

end VampircUci

namespace VampircUci

/-! ## The parser (src/parser.rs builders over a spec-modelled token grammar)

The pest grammar `res/uci.pest` is not among the sources.  Tokenization is
modelled from the specification: one command keyword per line, case-insensitive
keywords, whitespace-insensitive separation, and the digit-count limits of
`digits3`/`digits12`.  Multi-token captures (option names and values, FEN
strings, id texts, info string payloads) are represented in canonical
single-space form via `joinTok`.  The builder logic on top of the token
structure is embedded from `do_parse_uci` and its helpers in src/parser.rs. -/

/-- Outcome of parsing one line: no grammar match, a builder panic, a blank
line producing no message, or a message. -/
inductive LineOut where
  | noMatch
  | panicked
  | blank
  | msg (m : UciMessage)
  deriving DecidableEq, Repr

/-- Outcome of a sub-parser that can reject (grammar) or panic (builder). -/
inductive POut (α : Type) where
  | noMatch
  | panicked
  | done (a : α)
  deriving DecidableEq, Repr

/-- File letter of a square (`a`-`h`). -/
def isFileChar (c : Char) : Bool := 'a' ≤ c ∧ c ≤ 'h'

/-- Rank digit of a square (`1`-`8`). -/
def isRankChar (c : Char) : Bool := '1' ≤ c ∧ c ≤ '8'

/-- Promotion letter to piece (the grammar's promotion characters; the
builder's `UciPiece::from_str` then cannot fail on them). -/
def promoPiece : Char → Option UciPiece
  | 'n' => some .knight
  | 'b' => some .bishop
  | 'r' => some .rook
  | 'q' => some .queen
  | 'k' => some .king
  | _ => none

/-- Modelled from the spec: the `a_move` token (square pair plus optional
promotion letter), combined with the `parse_a_move`/`parse_square` builders of
src/parser.rs (file character and numeric rank). -/
def parseMoveTok (w : List Char) : Option UciMove :=
  match w with
  | [f1, r1, f2, r2] =>
    if isFileChar f1 ∧ isRankChar r1 ∧ isFileChar f2 ∧ isRankChar r2 then
      some ⟨⟨f1, digitVal r1⟩, ⟨f2, digitVal r2⟩, none⟩
    else none
  | [f1, r1, f2, r2, p] =>
    if isFileChar f1 ∧ isRankChar r1 ∧ isFileChar f2 ∧ isRankChar r2 then
      (promoPiece p).map (fun pc => ⟨⟨f1, digitVal r1⟩, ⟨f2, digitVal r2⟩, some pc⟩)
    else none
  | _ => none

/-- Modelled from the spec: a `digitsN` numeric token — at most `k` decimal
digits (`digits3` for small counters, `digits12` for large ones); values
beyond the digit count are grammar errors. -/
def digitsTok (k : Nat) (w : List Char) : Option Nat :=
  if allDigits w ∧ w.length ≤ k then some (digitsVal w) else none

/-- Modelled from the spec: the `i64` token — an optional minus sign and at
most 18 digits (the tests exercise widths up to 11 digits; 18 keeps every
value within Rust's `i64`, so the builder's `parse_i64` unwrap never fails). -/
def i64Tok (w : List Char) : Option Int :=
  match w with
  | '-' :: ds => if allDigits ds ∧ ds.length ≤ 18 then some (-(digitsVal ds : Int)) else none
  | ds => if allDigits ds ∧ ds.length ≤ 18 then some (digitsVal ds : Int) else none

/-- Rust `str::parse::<i64>` as used on a spin default span: optional sign,
then digits only; out-of-range or malformed input yields `None` (the builder
then drops the default). -/
def rustParseI64 (w : List Char) : Option Int :=
  match w with
  | '+' :: ds =>
    if allDigits ds ∧ (digitsVal ds : Int) ≤ 2 ^ 63 - 1 then some (digitsVal ds : Int) else none
  | '-' :: ds =>
    if allDigits ds ∧ (digitsVal ds : Int) ≤ 2 ^ 63 then some (-(digitsVal ds : Int)) else none
  | ds =>
    if allDigits ds ∧ (digitsVal ds : Int) ≤ 2 ^ 63 - 1 then some (digitsVal ds : Int) else none

/-- Consume leading tokens that parse as moves (a move list in `searchmoves`,
`pv`, `refutation`, `currline`, `position ... moves`). -/
def takeMoves : List (List Char) → List UciMove × List (List Char)
  | [] => ([], [])
  | w :: rest =>
    match parseMoveTok w with
    | some m => let p := takeMoves rest; (m :: p.1, p.2)
    | none => ([], w :: rest)

/-- The remainder left by `takeMoves` is no longer than the input. -/
theorem takeMoves_snd_length_le (ts : List (List Char)) :
    (takeMoves ts).2.length ≤ ts.length := by
  induction ts with
  | nil => simp [takeMoves]
  | cons w rest ih =>
    simp only [takeMoves]
    cases parseMoveTok w with
    | some m => simpa using Nat.le_succ_of_le ih
    | none => simp

/-- State threaded through the `go` clause walk (the builder's local
variables in the `Rule::go` arm of `do_parse_uci`). -/
structure GoState where
  tc : Option UciTimeControl
  tl : Bool
  wtime : Option Nat
  btime : Option Nat
  winc : Option Nat
  binc : Option Nat
  mtg : Option Nat
  sms : List UciMove
  mate : Option Nat
  depth : Option Nat
  nodes : Option Nat
  deriving Repr

/-- Initial `go` state (all `None`, empty search control). -/
def GoState.init : GoState := ⟨none, false, none, none, none, none, none, [], none, none, none⟩

/-- Clause-keyword code of a `go` token (0: not a clause keyword). -/
def goKwCode (w : List Char) : Nat :=
  let kw := lower w
  if kw = "ponder".data then 1
  else if kw = "infinite".data then 2
  else if kw = "movetime".data then 3
  else if kw = "wtime".data then 4
  else if kw = "btime".data then 5
  else if kw = "winc".data then 6
  else if kw = "binc".data then 7
  else if kw = "movestogo".data then 8
  else if kw = "depth".data then 9
  else if kw = "mate".data then 10
  else if kw = "nodes".data then 11
  else if kw = "searchmoves".data then 12
  else 0

/-- Numeric argument of a `go` clause: `movestogo`/`depth`/`mate` use the
3-digit token and the builder's `parse_u8` unwrap (panic above 255), the
others the 12-digit token. -/
def goNumArg (c : Nat) (n : List Char) : POut Nat :=
  if c = 8 ∨ c = 9 ∨ c = 10 then
    match digitsTok 3 n with
    | some v => if v ≤ 255 then .done v else .panicked
    | none => .noMatch
  else
    match digitsTok 12 n with
    | some v => .done v
    | none => .noMatch

/-- Builder action of a numeric `go` clause on the walk state. -/
def goApplyNum (st : GoState) (c : Nat) (v : Nat) : GoState :=
  if c = 3 then { st with tc := some (.moveTime v) }
  else if c = 4 then { st with tl := true, wtime := some v }
  else if c = 5 then { st with tl := true, btime := some v }
  else if c = 6 then { st with tl := true, winc := some v }
  else if c = 7 then { st with tl := true, binc := some v }
  else if c = 8 then { st with tl := true, mtg := some v }
  else if c = 9 then { st with depth := some v }
  else if c = 10 then { st with mate := some v }
  else { st with nodes := some v }

/-- Walk of the `go` sub-clauses: grammar alternatives modelled from the
spec, builder actions from the `Rule::go` arm (including the `parse_u8`
unwrap, which panics on a three-digit value above 255).  The `sm` flag is
set inside a `searchmoves` clause, whose move list extends as long as
tokens keep parsing as moves. -/
def goLoop (st : GoState) (sm : Bool) : List (List Char) → POut GoState
  | [] => .done st
  | w :: rest =>
    match sm, parseMoveTok w with
    | true, some m => goLoop { st with sms := st.sms ++ [m] } true rest
    | _, _ =>
      let c := goKwCode w
      if c = 1 then goLoop { st with tc := some .ponder } false rest
      else if c = 2 then goLoop { st with tc := some .infinite } false rest
      else if c = 12 then goLoop st true rest
      else if c = 0 then .noMatch
      else
        match rest with
        | n :: rest2 =>
          match goNumArg c n with
          | .done v => goLoop (goApplyNum st c v) false rest2
          | .panicked => .panicked
          | .noMatch => .noMatch
        | [] => .noMatch

end VampircUci

namespace VampircUci

/-- Build the `go` message from the final clause state (tail of the
`Rule::go` arm: a seen time-left group overrides any other time control, and
an entirely empty search control becomes `None`). -/
def buildGo (st : GoState) : UciMessage :=
  let tc := if st.tl then some (.timeLeft st.wtime st.btime st.winc st.binc st.mtg) else st.tc
  let search : UciSearchControl := ⟨st.sms, st.mate, st.depth, st.nodes⟩
  .go tc (if search.isEmpty then none else some search)

/-- Modelled from the spec: the `debug` line — a single clean `on`/`off`
switch token; the builder emits `Debug(switch == "on")`. -/
def parseDebug (rest : List (List Char)) : LineOut :=
  match rest with
  | [sw] =>
    if lower sw = "on".data then .msg (.debug true)
    else if lower sw = "off".data then .msg (.debug false)
    else .noMatch
  | _ => .noMatch

/-- Modelled from the spec: `setoption name <tokens> [value <tokens>]` — the
name is every token before the `value` keyword, the value everything after
it; the builder turns an absent value clause into `None` and keeps any
captured text as `Some` (it can never produce `Some("")`, since an empty
capture is its `None` signal). -/
def parseSetOption (rest : List (List Char)) : LineOut :=
  match rest with
  | nameKw :: more =>
    if lower nameKw = "name".data then
      let nameToks := more.takeWhile (fun t => ¬ (lower t = "value".data))
      let after := more.dropWhile (fun t => ¬ (lower t = "value".data))
      if nameToks.isEmpty then .noMatch
      else
        match after with
        | [] => .msg (.setOption ⟨trimBoth (joinTok nameToks)⟩ none)
        | _ :: valToks =>
          if valToks.isEmpty then .noMatch
          else .msg (.setOption ⟨trimBoth (joinTok nameToks)⟩ (some ⟨joinTok valToks⟩))
    else .noMatch
  | [] => .noMatch

/-- Modelled from the spec and the repository's tests: `register later`, or
`register name <tokens> code <tokens>` in that order only (the code-first
order is a grammar error per test_register_invalid2, as is a lone name or a
lone code clause). -/
def parseRegister (rest : List (List Char)) : LineOut :=
  match rest with
  | [t] => if lower t = "later".data then .msg registerLater else .noMatch
  | nameKw :: more =>
    if lower nameKw = "name".data then
      let nameToks := more.takeWhile (fun t => ¬ (lower t = "code".data))
      let after := more.dropWhile (fun t => ¬ (lower t = "code".data))
      if nameToks.isEmpty then .noMatch
      else
        match after with
        | _ :: codeToks =>
          if codeToks.isEmpty then .noMatch
          else .msg (registerCode ⟨joinTok nameToks⟩ ⟨joinTok codeToks⟩)
        | [] => .noMatch
    else .noMatch
  | [] => .noMatch

/-- Character class of a FEN board rank field. -/
def isFenRankChar (c : Char) : Bool :=
  c ∈ ['p', 'n', 'b', 'r', 'q', 'k', 'P', 'N', 'B', 'R', 'Q', 'K',
       '1', '2', '3', '4', '5', '6', '7', '8']

/-- Split a character list at a separator character. -/
def splitSepAux (sep : Char) (cur : List Char) : List Char → List (List Char)
  | [] => [cur.reverse]
  | c :: cs => if c = sep then cur.reverse :: splitSepAux sep [] cs else splitSepAux sep (c :: cur) cs

/-- Split at a separator character (all pieces, in order). -/
def splitSep (sep : Char) (l : List Char) : List (List Char) := splitSepAux sep [] l

/-- Modelled from the spec: the FEN sub-pattern's character-class checks —
eight `/`-separated rank fields over piece letters and digits, a side to
move, a castling field, an en-passant field and two numeric fields (the
repository's tests accept `2k5/6PR/8/8/2b4P/8/6K1/8 w - - 0 53` and reject
the malformed rank `2k50`). -/
def fenOK (toks : List (List Char)) : Bool :=
  match toks with
  | [board, side, castle, ep, half, full] =>
    (decide ((splitSep '/' board).length = 8)) &&
    (splitSep '/' board).all (fun r => (!r.isEmpty) && r.all isFenRankChar) &&
    (decide (side = "w".data) || decide (side = "b".data)) &&
    ((!castle.isEmpty) && castle.all (fun c => decide (c ∈ ['K', 'Q', 'k', 'q', '-']))) &&
    (decide (ep = "-".data) ||
     (match ep with
      | [f, r] => isFileChar f && isRankChar r
      | _ => false)) &&
    allDigits half && allDigits full
  | _ => false

/-- Modelled from the spec: `position` with `startpos` or `fen <FEN>`,
optionally followed by `moves <move>*`; the builder collects the flag, the
verbatim FEN and the move list. -/
def parsePosition (rest : List (List Char)) : LineOut :=
  match rest with
  | kind :: more =>
    if lower kind = "startpos".data then
      match more with
      | [] => .msg (.position true none [])
      | mk :: mts =>
        if lower mk = "moves".data then
          let p := takeMoves mts
          if p.2.isEmpty then .msg (.position true none p.1) else .noMatch
        else .noMatch
    else if lower kind = "fen".data then
      let fenToks := more.takeWhile (fun t => ¬ (lower t = "moves".data))
      let after := more.dropWhile (fun t => ¬ (lower t = "moves".data))
      if fenOK fenToks then
        match after with
        | [] => .msg (.position false (some ⟨⟨joinTok fenToks⟩⟩) [])
        | _ :: mts =>
          let p := takeMoves mts
          if p.2.isEmpty then .msg (.position false (some ⟨⟨joinTok fenToks⟩⟩) p.1)
          else .noMatch
      else .noMatch
    else .noMatch
  | [] => .noMatch

/-- Modelled from the spec: `id name <text>` or `id author <text>`, the text
being the rest of the line; the builder populates exactly one field. -/
def parseId (rest : List (List Char)) : LineOut :=
  match rest with
  | kindKw :: toks =>
    if toks.isEmpty then .noMatch
    else if lower kindKw = "name".data then .msg (.id (some ⟨joinTok toks⟩) none)
    else if lower kindKw = "author".data then .msg (.id none (some ⟨joinTok toks⟩))
    else .noMatch
  | [] => .noMatch

/-- Modelled from the spec: `bestmove <move> [ponder <move>]`. -/
def parseBestMove (rest : List (List Char)) : LineOut :=
  match rest with
  | mt :: after =>
    match parseMoveTok mt with
    | some m =>
      match after with
      | [] => .msg (.bestMove m none)
      | pk :: [pt] =>
        if lower pk = "ponder".data then
          match parseMoveTok pt with
          | some p => .msg (.bestMove m (some p))
          | none => .noMatch
        else .noMatch
      | _ => .noMatch
    | none => .noMatch
  | [] => .noMatch

/-- Modelled from the spec: the single protection-state token of
`copyprotection`/`registration` (case-insensitive). -/
def parseProtection (rest : List (List Char)) : Option ProtectionState :=
  match rest with
  | [t] =>
    if lower t = "checking".data then some .checking
    else if lower t = "ok".data then some .ok
    else if lower t = "error".data then some .error
    else none
  | _ => none

/-- Clause state of the `option` command walk (the builder's local variables
in the `Rule::option` arm). -/
structure OptState where
  default : Option (List (List Char))
  min : Option Int
  max : Option Int
  var : List (List Char)
  deriving Repr

/-- Keyword starting an `option` clause. -/
def isOptClauseKw (t : List Char) : Bool :=
  lower t = "default".data ∨ lower t = "min".data ∨ lower t = "max".data ∨ lower t = "var".data

/-- Collecting mode of the `option` clause walk: inside a `default` or a
`var` clause, tokens accumulate until the next clause keyword. -/
inductive OptMode where
  | plain
  | defaultM (toks : List (List Char))
  | varM (toks : List (List Char))
  deriving Repr

/-- Close the clause being collected, rejecting an empty clause value. -/
def optFlush (st : OptState) : OptMode → Option OptState
  | .plain => some st
  | .defaultM toks => if toks.isEmpty then none else some { st with default := some toks }
  | .varM toks => if toks.isEmpty then none else some { st with var := st.var ++ [joinTok toks] }

/-- The shared `min`/`max` clause action (an unparsable number is a grammar
error). -/
def optNumStep (st2 : OptState) (kw : List Char) (v : List Char) : Option OptState :=
  match i64Tok v with
  | some i =>
    if kw = "min".data then some { st2 with min := some i } else some { st2 with max := some i }
  | none => none

/-- Walk of the optional `option` clauses (`default`, `min`, `max`, `var`),
each value running up to the next clause keyword. -/
def optLoop (st : OptState) (mode : OptMode) : List (List Char) → Option OptState
  | [] => optFlush st mode
  | w :: rest =>
    match isOptClauseKw w, optFlush st mode with
    | true, none => none
    | true, some st2 =>
      let kw := lower w
      if kw = "default".data then optLoop st2 (.defaultM []) rest
      else if kw = "var".data then optLoop st2 (.varM []) rest
      else
        match rest with
        | v :: rest2 =>
          match optNumStep st2 kw v with
          | some st3 => optLoop st3 .plain rest2
          | none => none
        | [] => none
    | false, _ =>
      match mode with
      | .plain => none
      | .defaultM toks => optLoop st (.defaultM (toks ++ [w])) rest
      | .varM toks => optLoop st (.varM (toks ++ [w])) rest

/-- The `<empty>` marker of combo/string defaults (case-insensitive). -/
def isEmptyMarker (w : List Char) : Bool := lower w = "<empty>".data

/-- Builder of the `Rule::option` arm of src/parser.rs: type-directed
interpretation of the collected clauses, with the lenient boolean/numeric
default coercion (unparsable defaults drop to `None`) and the `<empty>`
marker for combo/string defaults; a button ignores every clause. -/
def buildOption (name : String) (tkw : List Char) (st : OptState) : Option UciMessage :=
  if lower tkw = "check".data then
    some (.option (.check name
      (match st.default with
       | some toks =>
         if lower (joinTok toks) = "true".data then some true
         else if lower (joinTok toks) = "false".data then some false
         else none
       | none => none)))
  else if lower tkw = "spin".data then
    some (.option (.spin name
      (match st.default with
       | some toks => rustParseI64 (joinTok toks)
       | none => none)
      st.min st.max))
  else if lower tkw = "combo".data then
    some (.option (.combo name
      (match st.default with
       | some toks => if isEmptyMarker (joinTok toks) then some "" else some ⟨joinTok toks⟩
       | none => none)
      (st.var.map (fun v => ⟨v⟩))))
  else if lower tkw = "string".data then
    some (.option (.str name
      (match st.default with
       | some toks => if isEmptyMarker (joinTok toks) then some "" else some ⟨joinTok toks⟩
       | none => none)))
  else if lower tkw = "button".data then
    some (.option (.button name))
  else none

/-- Modelled from the spec: `option name <tokens> type <T> <clauses>`. -/
def parseOptionCmd (rest : List (List Char)) : LineOut :=
  match rest with
  | nameKw :: more =>
    if lower nameKw = "name".data then
      let nameToks := more.takeWhile (fun t => ¬ (lower t = "type".data))
      let after := more.dropWhile (fun t => ¬ (lower t = "type".data))
      if nameToks.isEmpty then .noMatch
      else
        match after with
        | _ :: tkw :: clauses =>
          match optLoop ⟨none, none, none, []⟩ .plain clauses with
          | some st =>
            match buildOption ⟨joinTok nameToks⟩ tkw st with
            | some m => .msg m
            | none => .noMatch
          | none => .noMatch
        | _ => .noMatch
    else .noMatch
  | [] => .noMatch

end VampircUci

namespace VampircUci

/-- The info attribute keywords the grammar knows (everything else falls to
the `info_any` escape hatch). -/
def infoKws : List (List Char) :=
  ["depth".data, "seldepth".data, "time".data, "nodes".data, "pv".data, "multipv".data,
   "score".data, "currmove".data, "currmovenum".data, "hashfull".data, "nps".data,
   "tbhits".data, "sbhits".data, "cpuload".data, "string".data, "refutation".data,
   "currline".data]

/-- Collecting mode of the `info` attribute walk: move-list attributes
(`pv`, `refutation`, `currline`) extend while tokens parse as moves, and a
`score` group extends while its sub-clause keywords continue; `pend` inside
a score records a `cp` (`some true`) or `mate` (`some false`) keyword whose
numeric argument is still expected. -/
inductive InfoMode where
  | plain
  | pvM (ms : List UciMove)
  | refutM (ms : List UciMove)
  | clineStart
  | clineM (cpu : Option Nat) (ms : List UciMove)
  | scoreM (cp mate : Option Int) (lb ub : Option Bool) (pend : Option Bool)
  deriving Repr

/-- Close the attribute group being collected.  A score group that bound no
sub-clause, or whose `cp`/`mate` keyword is missing its number, is a
grammar error (`none`). -/
def flushInfo (acc : List UciInfoAttribute) : InfoMode → Option (List UciInfoAttribute)
  | .plain => some acc
  | .pvM ms => some (acc ++ [.pv ms])
  | .refutM ms => some (acc ++ [.refutation ms])
  | .clineStart => some (acc ++ [.currLine none []])
  | .clineM cpu ms => some (acc ++ [.currLine cpu ms])
  | .scoreM cp mate lb ub pend =>
    match pend with
    | some _ => none
    | none =>
      match cp, mate, lb, ub with
      | none, none, none, none => none
      | _, _, _, _ => some (acc ++ [.score cp mate lb ub])

/-- One-token continuation of the current collecting mode (`none` means the
token does not extend the group and is dispatched as a new attribute). -/
def stepInfo (mode : InfoMode) (w : List Char) : Option InfoMode :=
  match mode with
  | .plain => none
  | .pvM ms => (parseMoveTok w).map (fun m => .pvM (ms ++ [m]))
  | .refutM ms => (parseMoveTok w).map (fun m => .refutM (ms ++ [m]))
  | .clineStart =>
    match digitsTok 3 w with
    | some v => some (.clineM (some (asU16 v)) [])
    | none => (parseMoveTok w).map (fun m => .clineM none [m])
  | .clineM cpu ms => (parseMoveTok w).map (fun m => .clineM cpu (ms ++ [m]))
  | .scoreM cp mate lb ub pend =>
    match pend with
    | some isCp =>
      (i64Tok w).map (fun i =>
        if isCp then .scoreM (some (asI32 i)) mate lb ub none
        else .scoreM cp (some (asI8 i)) lb ub none)
    | none =>
      if lower w = "cp".data then some (.scoreM cp mate lb ub (some true))
      else if lower w = "mate".data then some (.scoreM cp mate lb ub (some false))
      else if lower w = "lowerbound".data then some (.scoreM cp mate (some true) ub none)
      else if lower w = "upperbound".data then some (.scoreM cp mate lb (some true) none)
      else none

/-- Attribute-keyword code of an `info` token (0: not a recognized name). -/
def infoKwCode (w : List Char) : Nat :=
  let kw := lower w
  if kw = "depth".data then 1
  else if kw = "seldepth".data then 2
  else if kw = "time".data then 3
  else if kw = "nodes".data then 4
  else if kw = "multipv".data then 5
  else if kw = "currmovenum".data then 6
  else if kw = "hashfull".data then 7
  else if kw = "nps".data then 8
  else if kw = "tbhits".data then 9
  else if kw = "sbhits".data then 10
  else if kw = "cpuload".data then 11
  else if kw = "score".data then 12
  else if kw = "currmove".data then 13
  else if kw = "pv".data then 14
  else if kw = "refutation".data then 15
  else if kw = "currline".data then 16
  else if kw = "string".data then 17
  else 0

/-- Numeric argument of an `info` attribute: `depth`/`seldepth` use the
3-digit token and the builder's `parse_u8` unwrap (panic above 255), the
other numeric attributes the 12-digit token. -/
def infoNumArg (c : Nat) (n : List Char) : POut Nat :=
  if c = 1 ∨ c = 2 then
    match digitsTok 3 n with
    | some v => if v ≤ 255 then .done v else .panicked
    | none => .noMatch
  else
    match digitsTok 12 n with
    | some v => .done v
    | none => .noMatch

/-- The attribute built from a numeric `info` clause (with the builders'
`as u16` truncations). -/
def infoNumAttr (c : Nat) (v : Nat) : UciInfoAttribute :=
  if c = 1 then .depth v
  else if c = 2 then .selDepth v
  else if c = 3 then .time v
  else if c = 4 then .nodes v
  else if c = 5 then .multiPv (asU16 v)
  else if c = 6 then .currMoveNum (asU16 v)
  else if c = 7 then .hashFull (asU16 v)
  else if c = 8 then .nps v
  else if c = 9 then .tbHits v
  else if c = 10 then .sbHits v
  else .cpuLoad (asU16 v)

/-- End-of-line outcome of an `info` clause that wanted an argument (only a
bare `string` produces something: the attribute list so far). -/
def infoEndNil (c : Nat) (acc2 : List UciInfoAttribute) : POut (List UciInfoAttribute) :=
  if c = 17 then .done acc2 else .noMatch

/-- One argument-consuming `info` clause: either a final outcome (`inl`) or
the extended attribute list to continue from (`inr`). -/
def infoArgStep (acc2 : List UciInfoAttribute) (c : Nat) (w n : List Char)
    (rest2 : List (List Char)) :
    Sum (POut (List UciInfoAttribute)) (List UciInfoAttribute) :=
  if 1 ≤ c ∧ c ≤ 11 then
    match infoNumArg c n with
    | .done v => .inr (acc2 ++ [infoNumAttr c v])
    | .panicked => .inl .panicked
    | .noMatch => .inl .noMatch
  else if c = 13 then
    match parseMoveTok n with
    | some m => .inr (acc2 ++ [.currMove m])
    | none => .inl .noMatch
  else if c = 17 then .inl (.done (acc2 ++ [.str ⟨joinTok (n :: rest2)⟩]))
  else .inl (.done (acc2 ++ [.any ⟨w⟩ ⟨joinTok (n :: rest2)⟩]))

/-- Modelled from the spec: the walk of `info` attribute clauses.  Recognized
attribute names bind their grammar-checked arguments (digit-count limits as
in `digits3`/`digits12`, the builders' `as u16`/`as i32`/`as i8` truncations
and the `parse_u8` unwrap that panics above 255); `string` swallows the rest
of the line; an unlisted name becomes `Any(name, rest-of-line)` and also
ends the line; a recognized name whose argument violates its digit bounds is
a grammar error. -/
def infoLoop (acc : List UciInfoAttribute) (mode : InfoMode) :
    List (List Char) → POut (List UciInfoAttribute)
  | [] =>
    match flushInfo acc mode with
    | some acc2 => .done acc2
    | none => .noMatch
  | w :: rest =>
    match stepInfo mode w with
    | some mode2 => infoLoop acc mode2 rest
    | none =>
      match flushInfo acc mode with
      | none => .noMatch
      | some acc2 =>
        let c := infoKwCode w
        if c = 12 then infoLoop acc2 (.scoreM none none none none none) rest
        else if c = 14 then infoLoop acc2 (.pvM []) rest
        else if c = 15 then infoLoop acc2 (.refutM []) rest
        else if c = 16 then infoLoop acc2 .clineStart rest
        else
          match rest with
          | [] => infoEndNil c acc2
          | n :: rest2 =>
            match infoArgStep acc2 c w n rest2 with
            | .inl out => out
            | .inr acc3 => infoLoop acc3 .plain rest2

end VampircUci

namespace VampircUci

/-- Modelled from the spec: dispatch of one line on its (case-insensitive)
command keyword — the grammar's command alternatives, combined with the
per-command builders above.  A line of nothing but whitespace produces no
message. -/
def parseLine (l : List Char) : LineOut :=
  match words l with
  | [] => .blank
  | w :: rest =>
    let kw := lower w
    if kw = "uci".data then (if rest.isEmpty then .msg .uci else .noMatch)
    else if kw = "debug".data then parseDebug rest
    else if kw = "isready".data then (if rest.isEmpty then .msg .isReady else .noMatch)
    else if kw = "setoption".data then parseSetOption rest
    else if kw = "register".data then parseRegister rest
    else if kw = "ucinewgame".data then (if rest.isEmpty then .msg .uciNewGame else .noMatch)
    else if kw = "stop".data then (if rest.isEmpty then .msg .stop else .noMatch)
    else if kw = "ponderhit".data then (if rest.isEmpty then .msg .ponderHit else .noMatch)
    else if kw = "quit".data then (if rest.isEmpty then .msg .quit else .noMatch)
    else if kw = "position".data then parsePosition rest
    else if kw = "go".data then
      match goLoop GoState.init false rest with
      | .done st => .msg (buildGo st)
      | .noMatch => .noMatch
      | .panicked => .panicked
    else if kw = "id".data then parseId rest
    else if kw = "uciok".data then (if rest.isEmpty then .msg .uciOk else .noMatch)
    else if kw = "readyok".data then (if rest.isEmpty then .msg .readyOk else .noMatch)
    else if kw = "bestmove".data then parseBestMove rest
    else if kw = "copyprotection".data then
      match parseProtection rest with
      | some st => .msg (.copyProtection st)
      | none => .noMatch
    else if kw = "registration".data then
      match parseProtection rest with
      | some st => .msg (.registration st)
      | none => .noMatch
    else if kw = "option".data then parseOptionCmd rest
    else if kw = "info".data then
      match infoLoop [] .plain rest with
      | .done attrs => .msg (.info attrs)
      | .noMatch => .noMatch
      | .panicked => .panicked
    else .noMatch

/-! ## Entry points (src/parser.rs) -/

/-- Result of an entry point that can return a pest error; `panicked` models
a Rust panic inside a builder. -/
inductive PResult (α : Type) where
  | panicked
  | err (e : PError)
  | ok (v : α)
  deriving DecidableEq, Repr

/-- Did the call return an error? -/
def PResult.isErr {α : Type} : PResult α → Bool
  | .err _ => true
  | _ => false

/-- Did the call return a value? -/
def PResult.isOk {α : Type} : PResult α → Bool
  | .ok _ => true
  | _ => false

/-- Grammar violation on the line? -/
def LineOut.isNoMatch : LineOut → Bool
  | .noMatch => true
  | _ => false

/-- The first line of the input the grammar rejects, if any (pest matches
the entire input against the top rule before any builder runs, so a grammar
error anywhere precedes every builder effect). -/
def firstBad (ls : List (List Char)) : Option (List Char) :=
  ls.find? (fun l => (parseLine l).isNoMatch)

/-- Run the builders of the recognized lines in order, skipping blank and
(in the lenient top rule) unrecognized lines; `none` models a builder
panic. -/
def collect : List (List Char) → Option (List UciMessage)
  | [] => some []
  | l :: rest =>
    match parseLine l with
    | .panicked => none
    | .msg m => (collect rest).map (fun ms => m :: ms)
    | _ => collect rest

/-- `parse_strict` of src/parser.rs: the whole input must match the strict
top rule; any unrecognized line aborts the call with the pest error and no
messages. -/
def parse_strict (s : String) : PResult (List UciMessage) :=
  let ls := splitLines s.data
  match firstBad ls with
  | some l => .err ⟨⟨l⟩⟩
  | none =>
    match collect ls with
    | some ms => .ok ms
    | none => .panicked

/-- `parse` of src/parser.rs (the lenient entry point, top rule
`commands_ignore_unknown`): unrecognized lines are dropped, recognized lines
are built; `none` models a builder panic. -/
def parse (s : String) : Option (List UciMessage) :=
  collect (splitLines s.data)

/-- `parse_with_unknown` of src/parser.rs: strict parse of the whole input;
on error the whole (right-trimmed) input becomes one `Unknown` message. -/
def parse_with_unknown (s : String) : Option (List UciMessage) :=
  match parse_strict s with
  | .err e => some [.unknown (trimEnd s) (some e)]
  | .ok ms => some ms
  | .panicked => none

/-- `parse_one` of src/parser.rs (top rule `single_message_per_line`): the
first line is parsed, anything after its newline is ignored; a grammar error
yields `Unknown(s.trim_end(), Some(e))`, an input producing no message
yields `Unknown("", None)`; `none` models a builder panic. -/
def parse_one (s : String) : Option UciMessage :=
  match splitLines s.data with
  | [] => some (.unknown "" none)
  | l :: _ =>
    match parseLine l with
    | .noMatch => some (.unknown (trimEnd s) (some ⟨⟨l⟩⟩))
    | .panicked => none
    | .blank => some (.unknown "" none)
    | .msg m => some m

end VampircUci

namespace VampircUci

/-! ## Canonical token shapes of serialized lines

Support definitions for relating the serializer's output text to the token
lists the parser walks.  `leadTok` renders tokens each preceded by one space
(the serializer's `" {}"` joins), `trailTok` renders tokens each followed by
one space (the `"{} "` joins of the `go` arm). -/

/-- A well-behaved in-line token: nonempty and made of token characters. -/
def tokOK (w : List Char) : Bool := ¬ w.isEmpty && w.all isTokChar

/-- Characters allowed on a serialized line: spaces and token characters. -/
def lineChar (c : Char) : Bool := c = ' ' || isTokChar c

/-- A token list suitable for a multi-token capture. -/
def tokListOK (ts : List (List Char)) : Bool := ¬ ts.isEmpty && ts.all tokOK

/-- A canonical protocol text: a nonempty single-space-separated sequence of
well-formed tokens (splitting and re-joining it is the identity). -/
def canonicalStr (s : String) : Bool :=
  tokListOK (words s.data) && decide (joinTok (words s.data) = s.data)

/-- No token of the text case-folds to one of the given keywords. -/
def strAvoids (s : String) (kws : List (List Char)) : Bool :=
  (words s.data).all (fun t => !(kws.contains (lower t)))

/-- Tokens each preceded by a single space (`" a" ++ " b" ++ ...`). -/
def leadTok : List (List Char) → List Char
  | [] => []
  | t :: ts => (' ' :: t) ++ leadTok ts

/-- Tokens each followed by a single space (`"a " ++ "b " ++ ...`). -/
def trailTok : List (List Char) → List Char
  | [] => []
  | t :: ts => t ++ ' ' :: trailTok ts

/-- The serialized form of each move of a list, as token character lists. -/
def moveToks (ms : List UciMove) : List (List Char) :=
  ms.map (fun m => (serializeMove m).data)

/-! ## Well-formedness: the domain of the serialize/parse round trip

`wellFormed` carves out the messages whose serialization the (spec-modelled)
grammar accepts and whose builders reproduce the message exactly: canonical
captures, grammar digit bounds, no builder truncation or panic, and none of
the serializer's asymmetries (the `bt`/`btime` slip, the ignored-field
serializations, the `cpunr` keyword the grammar does not know). -/

/-- A square the move grammar can re-read: file `a`-`h`, rank `1`-`8`. -/
def squareOK (sq : UciSquare) : Bool :=
  isFileChar sq.file && decide (1 ≤ sq.rank) && decide (sq.rank ≤ 8)

/-- A move whose serialization is again a grammar move token (a pawn
`promotion` serializes to nothing and cannot round-trip). -/
def moveOK (m : UciMove) : Bool :=
  squareOK m.from_sq && squareOK m.to_sq && decide (m.promotion ≠ some UciPiece.pawn)

/-- An optional counter below a strict bound. -/
def optNatLt (o : Option Nat) (b : Nat) : Bool :=
  match o with
  | some v => decide (v < b)
  | none => true

/-- An optional counter within an inclusive bound. -/
def optNatLe (o : Option Nat) (b : Nat) : Bool :=
  match o with
  | some v => decide (v ≤ b)
  | none => true

/-- Time controls that survive the round trip: `digits12` bounds on the
millisecond counters, `movestogo` within `u8`, a `black_time` forced absent
(the serializer writes `bt`, which the grammar does not recognize), and at
least one populated field of a `timeLeft` group (an empty group serializes
to nothing and comes back as no time control). -/
def timeControlOK : UciTimeControl → Bool
  | .ponder => true
  | .infinite => true
  | .moveTime v => decide (v < 10 ^ 12)
  | .timeLeft wt bt wi bi mtg =>
    bt.isNone && (wt.isSome || wi.isSome || bi.isSome || mtg.isSome) &&
    optNatLt wt (10 ^ 12) && optNatLt wi (10 ^ 12) && optNatLt bi (10 ^ 12) &&
    optNatLe mtg 255

/-- Search controls that survive the round trip: nonempty (an empty one
serializes to nothing and comes back as `None`), moves re-readable, `depth`
and `mate` within `u8` (the builder's unwrap), `nodes` within `digits12`. -/
def searchControlOK (sc : UciSearchControl) : Bool :=
  !sc.isEmpty && sc.searchMoves.all moveOK && optNatLe sc.depth 255 &&
  optNatLe sc.mate 255 && optNatLt sc.nodes (10 ^ 12)

/-- A canonical capture whose tokens never open an `option` clause. -/
def optTokensOK (s : String) : Bool :=
  canonicalStr s && (words s.data).all (fun t => !(isOptClauseKw t))

/-- An optional combo/string default that survives the round trip: absent, or
a canonical clause-free text other than the `<empty>` marker (the builder
reads that marker back as `Some("")`). -/
def optValOK : Option String → Bool
  | some d => optTokensOK d && !(decide (lower d.data = "<empty>".data))
  | none => true

/-- An optional spin bound within 18 digits (the modelled `i64` token). -/
def optIntOK : Option Int → Bool
  | some v => decide (v.natAbs < 10 ^ 18)
  | none => true

/-- Option declarations that survive the round trip: canonical names that
avoid the `type` separator, clause values canonical and clause-free, spin
bounds within the numeric token. -/
def optionConfigOK : UciOptionConfig → Bool
  | .check n _ => canonicalStr n && strAvoids n ["type".data]
  | .spin n d mn mx =>
    canonicalStr n && strAvoids n ["type".data] && optIntOK d && optIntOK mn && optIntOK mx
  | .combo n d var =>
    canonicalStr n && strAvoids n ["type".data] && optValOK d &&
      var.all (fun v => optTokensOK v)
  | .button n => canonicalStr n && strAvoids n ["type".data]
  | .str n d => canonicalStr n && strAvoids n ["type".data] && optValOK d

/-- A token that ends every collecting `info` group: not a move, not a
1-3-digit number, not a `score` sub-clause keyword. -/
def exitTok (w : List Char) : Bool :=
  (parseMoveTok w).isNone && (digitsTok 3 w).isNone &&
  !(["cp".data, "mate".data, "lowerbound".data, "upperbound".data].contains (lower w))

/-- The head of a remaining token list exits a collecting group (an empty
remainder always does). -/
def headExitTok : List (List Char) → Bool
  | [] => true
  | w :: _ => exitTok w

/-- Info attributes that survive the round trip: grammar digit bounds with no
`u16`/`i32`/`i8` truncation and no `u8` panic, re-readable moves, score
bounds only as the parser can produce them (`Some(true)`, not both), a
`currline` without a CPU number (the serializer's `cpunr` keyword is not in
the grammar), and canonical `string`/`Any` payloads. -/
def infoAttrOK : UciInfoAttribute → Bool
  | .depth n => decide (n ≤ 255)
  | .selDepth n => decide (n ≤ 255)
  | .time n => decide (n < 10 ^ 12)
  | .nodes n => decide (n < 10 ^ 12)
  | .pv ms => ms.all moveOK
  | .multiPv n => decide (n < 65536)
  | .score cp mate lb ub =>
    (cp.isSome || mate.isSome) &&
    (match cp with
     | some c => decide (-(2 ^ 31) ≤ c ∧ c < 2 ^ 31)
     | none => true) &&
    (match mate with
     | some m => decide (-(2 ^ 7) ≤ m ∧ m < 2 ^ 7)
     | none => true) &&
    (match lb with
     | some b => b
     | none => true) &&
    (match ub with
     | some b => b
     | none => true) &&
    !(lb.isSome && ub.isSome)
  | .currMove m => moveOK m
  | .currMoveNum n => decide (n < 65536)
  | .hashFull n => decide (n < 65536)
  | .nps n => decide (n < 10 ^ 12)
  | .tbHits n => decide (n < 10 ^ 12)
  | .sbHits n => decide (n < 10 ^ 12)
  | .cpuLoad n => decide (n < 65536)
  | .str s => canonicalStr s
  | .refutation ms => ms.all moveOK
  | .currLine cpu ms => cpu.isNone && ms.all moveOK
  | .any n v =>
    tokOK n.data && exitTok n.data && !(infoKws.contains (lower n.data)) && canonicalStr v

/-- Attributes that swallow the rest of the line (`string` and the `Any`
escape), so they can only come last. -/
def infoTerminal : UciInfoAttribute → Bool
  | .str _ => true
  | .any _ _ => true
  | _ => false

/-- A round-trippable attribute list: every attribute well formed and only
the last one terminal. -/
def infoListOK : List UciInfoAttribute → Bool
  | [] => true
  | [a] => infoAttrOK a
  | a :: rest => infoAttrOK a && !infoTerminal a && infoListOK rest

/-- The amended domain of the serialize/`parse_one` round trip (C1): the
messages whose serialized text the grammar re-reads into exactly the same
value.  `Unknown` is excluded as in the claim; the other clauses record
where the claim's unrestricted round trip fails. -/
def wellFormed : UciMessage → Bool
  | .uci => true
  | .debug _ => true
  | .isReady => true
  | .register later name code =>
    if later then name.isNone && code.isNone
    else
      match name, code with
      | some n, some c => canonicalStr n && strAvoids n ["code".data] && canonicalStr c
      | _, _ => false
  | .position startpos fen moves =>
    moves.all moveOK &&
    (if startpos then fen.isNone
     else
       match fen with
       | some f =>
         canonicalStr f.fen && strAvoids f.fen ["moves".data] && fenOK (words f.fen.data)
       | none => false)
  | .setOption name value =>
    canonicalStr name && strAvoids name ["value".data] &&
    (match value with
     | some v => canonicalStr v
     | none => false)
  | .uciNewGame => true
  | .stop => true
  | .ponderHit => true
  | .quit => true
  | .go tc sc => tc.all timeControlOK && sc.all searchControlOK
  | .id name author =>
    (match name, author with
     | some n, none => canonicalStr n
     | none, some a => canonicalStr a
     | _, _ => false)
  | .uciOk => true
  | .readyOk => true
  | .bestMove best ponder =>
    moveOK best &&
    (match ponder with
     | some p => moveOK p
     | none => true)
  | .copyProtection _ => true
  | .registration _ => true
  | .option cfg => optionConfigOK cfg
  | .info attrs => infoListOK attrs
  | .unknown _ _ => false

end VampircUci

namespace VampircUci

/-! ## Token shapes and replayed builder states of `go` and `info` lines -/

/-- Tokens of one optional numeric clause (`kw v` or nothing). -/
def optClauseToks (kw : List Char) : Option Nat → List (List Char)
  | some v => [kw, showNatChars v]
  | none => []

/-- Tokens of one optional signed clause (`kw v` or nothing). -/
def optIntToks (kw : List Char) : Option Int → List (List Char)
  | some v => [kw, showIntChars v]
  | none => []

/-- Tokens of the serialized time-control part of a `go` line. -/
def timeControlToks : Option UciTimeControl → List (List Char)
  | none => []
  | some .ponder => ["ponder".data]
  | some .infinite => ["infinite".data]
  | some (.moveTime v) => ["movetime".data, showNatChars v]
  | some (.timeLeft wt bt wi bi mtg) =>
    optClauseToks "wtime".data wt ++ optClauseToks "bt".data bt ++
      optClauseToks "winc".data wi ++ optClauseToks "binc".data bi ++
      optClauseToks "movestogo".data mtg

/-- Tokens of the numeric search-control clauses of a `go` line. -/
def searchControlToks : Option UciSearchControl → List (List Char)
  | none => []
  | some s =>
    optClauseToks "depth".data s.depth ++ optClauseToks "nodes".data s.nodes ++
      optClauseToks "mate".data s.mate

/-- Characters of the serialized `searchmoves` tail of a `go` line. -/
def searchMovesData : Option UciSearchControl → List Char
  | none => []
  | some s =>
    if s.searchMoves.isEmpty then []
    else ' ' :: "searchmoves".data ++ ' ' :: trailTok (moveToks s.searchMoves)

/-- Builder effect of a serialized `wtime` clause. -/
def wtimeUpd (o : Option Nat) (st : GoState) : GoState :=
  match o with
  | some v => { st with tl := true, wtime := some v }
  | none => st

/-- Builder effect of a serialized `winc` clause. -/
def wincUpd (o : Option Nat) (st : GoState) : GoState :=
  match o with
  | some v => { st with tl := true, winc := some v }
  | none => st

/-- Builder effect of a serialized `binc` clause. -/
def bincUpd (o : Option Nat) (st : GoState) : GoState :=
  match o with
  | some v => { st with tl := true, binc := some v }
  | none => st

/-- Builder effect of a serialized `movestogo` clause. -/
def mtgUpd (o : Option Nat) (st : GoState) : GoState :=
  match o with
  | some v => { st with tl := true, mtg := some v }
  | none => st

/-- Builder effect of a serialized `depth` clause. -/
def depthUpd (o : Option Nat) (st : GoState) : GoState :=
  match o with
  | some v => { st with depth := some v }
  | none => st

/-- Builder effect of a serialized `nodes` clause. -/
def nodesUpd (o : Option Nat) (st : GoState) : GoState :=
  match o with
  | some v => { st with nodes := some v }
  | none => st

/-- Builder effect of a serialized `mate` clause. -/
def mateUpd (o : Option Nat) (st : GoState) : GoState :=
  match o with
  | some v => { st with mate := some v }
  | none => st

/-- Builder state after the time-control clauses of a serialized `go` line. -/
def tcStApply : Option UciTimeControl → GoState → GoState
  | none, st => st
  | some .ponder, st => { st with tc := some .ponder }
  | some .infinite, st => { st with tc := some .infinite }
  | some (.moveTime v), st => { st with tc := some (.moveTime v) }
  | some (.timeLeft wt _bt wi bi mtg), st =>
    mtgUpd mtg (bincUpd bi (wincUpd wi (wtimeUpd wt st)))

/-- Builder state after the search-control clauses of a serialized `go`
line (including a trailing `searchmoves` group). -/
def scStApply : Option UciSearchControl → GoState → GoState
  | none, st => st
  | some s, st =>
    let st1 := mateUpd s.mate (nodesUpd s.nodes (depthUpd s.depth st))
    if s.searchMoves.isEmpty then st1 else { st1 with sms := st1.sms ++ s.searchMoves }

/-- One optional numeric clause as the serializer prints it (`kw v ` or
nothing). -/
def optClauseStr (kwsp : String) : Option Nat → String
  | some t => kwsp ++ showNat t ++ " "
  | none => ""

/-- The serializer's time-control part of a `go` line. -/
def tcStr : Option UciTimeControl → String
  | some UciTimeControl.infinite => "infinite "
  | some UciTimeControl.ponder => "ponder "
  | some (.moveTime msec) => "movetime " ++ showNat msec ++ " "
  | some (.timeLeft wt bt wi bi mtg) =>
    optClauseStr "wtime " wt ++ optClauseStr "bt " bt ++ optClauseStr "winc " wi ++
      optClauseStr "binc " bi ++ optClauseStr "movestogo " mtg
  | none => ""

/-- The serializer's search-control part of a `go` line. -/
def scStr : Option UciSearchControl → String
  | some sc =>
    optClauseStr "depth " sc.depth ++ optClauseStr "nodes " sc.nodes ++
      optClauseStr "mate " sc.mate ++
      (if sc.searchMoves.isEmpty then ""
       else " searchmoves " ++ String.join (sc.searchMoves.map (fun m => serializeMove m ++ " ")))
  | none => ""

/-- Tokens of the `searchmoves` tail of a `go` line. -/
def searchMovesToks : Option UciSearchControl → List (List Char)
  | none => []
  | some s => if s.searchMoves.isEmpty then [] else "searchmoves".data :: moveToks s.searchMoves

/-- Does the token list continue with a clause keyword (or end)?  The spot
where an `option` clause value stops collecting. -/
def optExit : List (List Char) → Bool
  | [] => true
  | w :: _ => isOptClauseKw w

/-- The serializer's optional signed clause of a spin option. -/
def optIntClauseStr (kwsp : String) : Option Int → String
  | some i => kwsp ++ showInt i
  | none => ""

/-- The serializer's optional textual default clause. -/
def optStrClauseStr : Option String → String
  | some d => " default " ++ d
  | none => ""

/-- The serializer's optional boolean default clause. -/
def optCheckClauseStr : Option Bool → String
  | some d => " default " ++ (if d then "true" else "false")
  | none => ""

/-- Clause tokens of a serialized option declaration. -/
def optCfgToks : UciOptionConfig → List (List Char)
  | .check _ d =>
    (match d with
     | some b => ["default".data, (if b then "true" else "false").data]
     | none => [])
  | .spin _ d mn mx =>
    optIntToks "default".data d ++ optIntToks "min".data mn ++ optIntToks "max".data mx
  | .combo _ d var =>
    (match d with
     | some dv => "default".data :: words dv.data
     | none => []) ++
    (var.map (fun v => "var".data :: words v.data)).flatten
  | .button _ => []
  | .str _ d =>
    (match d with
     | some dv => "default".data :: words dv.data
     | none => [])

/-- The clause-walk state a serialized option declaration replays to. -/
def optStFor : UciOptionConfig → OptState
  | .check _ d =>
    ⟨(match d with
      | some b => some [(if b then "true" else "false").data]
      | none => none), none, none, []⟩
  | .spin _ d mn mx =>
    ⟨(match d with
      | some i => some [showIntChars i]
      | none => none), mn, mx, []⟩
  | .combo _ d var =>
    ⟨(match d with
      | some dv => some (words dv.data)
      | none => none), none, none, var.map (fun v => v.data)⟩
  | .button _ => ⟨none, none, none, []⟩
  | .str _ d =>
    ⟨(match d with
      | some dv => some (words dv.data)
      | none => none), none, none, []⟩

/-- Tokens of one serialized `info` attribute. -/
def attrToks : UciInfoAttribute → List (List Char)
  | .depth n => ["depth".data, showNatChars n]
  | .selDepth n => ["seldepth".data, showNatChars n]
  | .time n => ["time".data, showNatChars n]
  | .nodes n => ["nodes".data, showNatChars n]
  | .pv ms => "pv".data :: moveToks ms
  | .multiPv n => ["multipv".data, showNatChars n]
  | .score cp mate lb ub =>
    "score".data ::
      (optIntToks "cp".data cp ++ optIntToks "mate".data mate ++
        (if lb.isSome then ["lowerbound".data]
         else if ub.isSome then ["upperbound".data] else []))
  | .currMove m => ["currmove".data, (serializeMove m).data]
  | .currMoveNum n => ["currmovenum".data, showNatChars n]
  | .hashFull n => ["hashfull".data, showNatChars n]
  | .nps n => ["nps".data, showNatChars n]
  | .tbHits n => ["tbhits".data, showNatChars n]
  | .sbHits n => ["sbhits".data, showNatChars n]
  | .cpuLoad n => ["cpuload".data, showNatChars n]
  | .str s => "string".data :: words s.data
  | .refutation ms => "refutation".data :: moveToks ms
  | .currLine cpu ms =>
    "currline".data ::
      ((match cpu with
        | some c => ["cpunr".data, showNatChars c]
        | none => []) ++ moveToks ms)
  | .any n v => n.data :: words v.data

/-- Tokens of a whole serialized attribute list. -/
def attrsToks (l : List UciInfoAttribute) : List (List Char) := (l.map attrToks).flatten

end VampircUci

namespace VampircUci

/-! ## Basic inversion and support lemmas -/

/-- Rebuilding a string from its characters is the identity. -/
theorem mk_data (s : String) : (⟨s.data⟩ : String) = s := rfl

/-- Characters of a concatenation. -/
theorem data_append (s t : String) : (s ++ t).data = s.data ++ t.data := rfl

end VampircUci

namespace VampircUci

/-- `takeWhile` stops exactly at the first failing element. -/
theorem takeWhile_append_stop {α : Type} {p : α → Bool} (xs : List α)
    (y : α) (ys : List α) (hx : ∀ x ∈ xs, p x = true) (hy : p y = false) :
    (xs ++ y :: ys).takeWhile p = xs := by
  induction xs with
  | nil => simp [List.takeWhile, hy]
  | cons a as ih =>
    have ha : p a = true := hx a (by simp)
    simp only [List.cons_append, List.takeWhile_cons, ha, if_true]
    exact congrArg (a :: ·) (ih (fun x hx' => hx x (by simp [hx'])))

/-- `dropWhile` drops exactly up to the first failing element. -/
theorem dropWhile_append_stop {α : Type} {p : α → Bool} (xs : List α)
    (y : α) (ys : List α) (hx : ∀ x ∈ xs, p x = true) (hy : p y = false) :
    (xs ++ y :: ys).dropWhile p = y :: ys := by
  induction xs with
  | nil => simp [List.dropWhile, hy]
  | cons a as ih =>
    have ha : p a = true := hx a (by simp)
    simp only [List.cons_append, List.dropWhile_cons, ha, if_true]
    exact ih (fun x hx' => hx x (by simp [hx']))

/-- A token character is not in-line whitespace. -/
theorem isTokChar_not_ws {c : Char} (h : isTokChar c = true) : isWS c = false := by
  cases hws : isWS c with
  | false => rfl
  | true => exact absurd h (by simp [isTokChar, hws])

/-- Word-accumulator walk over a token followed by a space: the pending
characters and the token come off as one word. -/
theorem wordsAux_token (w : List Char) : ∀ (cur l : List Char),
    (∀ c ∈ w, isTokChar c = true) → ¬ (cur = [] ∧ w = []) →
    wordsAux cur (w ++ ' ' :: l) = (cur.reverse ++ w) :: wordsAux [] l := by
  induction w with
  | nil =>
    intro cur l _ hne
    have hcur : ¬ cur.isEmpty = true := by
      simp only [List.isEmpty_iff]
      intro hc
      exact hne ⟨hc, rfl⟩
    simp [wordsAux, isWS, hcur]
  | cons c w' ih =>
    intro cur l hw hne
    have hc : isWS c = false := isTokChar_not_ws (hw c (by simp))
    simp only [List.cons_append, wordsAux, hc, Bool.false_eq_true, if_false, List.append_eq]
    rw [ih (c :: cur) l (fun x hx => hw x (by simp [hx])) (by simp)]
    simp

/-- Word-accumulator walk over a final token. -/
theorem wordsAux_token_end (w : List Char) : ∀ (cur : List Char),
    (∀ c ∈ w, isTokChar c = true) → ¬ (cur = [] ∧ w = []) →
    wordsAux cur w = [cur.reverse ++ w] := by
  induction w with
  | nil =>
    intro cur _ hne
    have hcur : ¬ cur.isEmpty = true := by
      simp only [List.isEmpty_iff]
      intro hc
      exact hne ⟨hc, rfl⟩
    simp [wordsAux, hcur]
  | cons c w' ih =>
    intro cur hw hne
    have hc : isWS c = false := isTokChar_not_ws (hw c (by simp))
    simp only [wordsAux, hc, Bool.false_eq_true, if_false, List.append_eq]
    rw [ih (c :: cur) (fun x hx => hw x (by simp [hx])) (by simp)]
    simp

/-- Splitting a token followed by a space: the token comes off whole. -/
theorem words_token_space (w l : List Char) (hw : tokOK w = true) :
    words (w ++ ' ' :: l) = w :: words l := by
  simp only [tokOK, Bool.and_eq_true, List.all_eq_true] at hw
  have hne : ¬ w = [] := by
    intro hnil
    subst hnil
    simp at hw
  unfold words
  rw [wordsAux_token w [] l hw.2 (by simp [hne])]
  simp

/-- Splitting a lone token. -/
theorem words_token_nil (w : List Char) (hw : tokOK w = true) : words w = [w] := by
  simp only [tokOK, Bool.and_eq_true, List.all_eq_true] at hw
  have hne : ¬ w = [] := by
    intro hnil
    subst hnil
    simp at hw
  unfold words
  rw [wordsAux_token_end w [] hw.2 (by simp [hne])]
  simp

end VampircUci

namespace VampircUci

/-- A newline-free text is one whole piece. -/
theorem splitLinesAux_no_newline (cur l : List Char) (h : '\n' ∉ l) :
    splitLinesAux cur l = [cur.reverse ++ l] := by
  induction l generalizing cur with
  | nil => simp [splitLinesAux]
  | cons c cs ih =>
    have hc : ¬ c = '\n' := fun hc => h (by simp [hc])
    simp only [splitLinesAux, hc, if_false]
    rw [ih (c :: cur) (fun hm => h (by simp [hm]))]
    simp

/-- Splitting across the first newline. -/
theorem splitLinesAux_append (cur l r : List Char) (h : '\n' ∉ l) :
    splitLinesAux cur (l ++ '\n' :: r) = (cur.reverse ++ l) :: splitLinesAux [] r := by
  induction l generalizing cur with
  | nil => simp [splitLinesAux]
  | cons c cs ih =>
    have hc : ¬ c = '\n' := fun hc => h (by simp [hc])
    simp only [List.cons_append, splitLinesAux, hc, if_false, List.append_eq]
    rw [ih (c :: cur) (fun hm => h (by simp [hm]))]
    simp

/-- The split always produces at least one piece. -/
theorem splitLinesAux_ne_nil (cur l : List Char) : splitLinesAux cur l ≠ [] := by
  induction l generalizing cur with
  | nil => simp [splitLinesAux]
  | cons c cs ih =>
    simp only [splitLinesAux]
    split
    · simp
    · exact ih (c :: cur)

/-- `dropFinalEmpty` only looks at the last piece. -/
theorem dropFinalEmpty_cons (x : List Char) (xs : List (List Char)) (h : xs ≠ []) :
    dropFinalEmpty (x :: xs) = x :: dropFinalEmpty xs := by
  cases xs with
  | nil => exact absurd rfl h
  | cons y ys => rfl

/-- A crlf-free nonempty text is a single line. -/
theorem splitLines_single (l : List Char) (hnl : '\n' ∉ l) (hne : l ≠ []) :
    splitLines l = [stripCR l] := by
  simp only [splitLines, splitLinesAux_no_newline [] l hnl, List.nil_append]
  simp [dropFinalEmpty, List.isEmpty_iff, hne]

/-- The first line comes off a newline. -/
theorem splitLines_append_newline (l r : List Char) (h : '\n' ∉ l) :
    splitLines (l ++ '\n' :: r) = stripCR l :: splitLines r := by
  simp only [splitLines, splitLinesAux_append [] l r h, List.nil_append, List.reverse_nil]
  rw [dropFinalEmpty_cons l _ (splitLinesAux_ne_nil [] r)]
  simp

/-- Stripping a carriage return from a text that has none. -/
theorem stripCR_eq_self (l : List Char) (h : '\x0d' ∉ l) : stripCR l = l := by
  unfold stripCR
  split
  · next heq =>
      exfalso
      apply h
      have : '\x0d' ∈ l.reverse := by rw [heq]; simp
      simpa using this
  · rfl

end VampircUci

namespace VampircUci

/-- A well-formed token is nonempty. -/
theorem tokOK_ne_nil {w : List Char} (h : tokOK w = true) : w ≠ [] := by
  intro hnil
  subst hnil
  simp [tokOK] at h

/-- A well-formed token is all token characters. -/
theorem tokOK_mem {w : List Char} (h : tokOK w = true) : ∀ c ∈ w, isTokChar c = true := by
  intro c hc
  simp only [tokOK, Bool.and_eq_true, List.all_eq_true] at h
  exact h.2 c hc

/-- Each token of a well-formed token list is well formed. -/
theorem tokListOK_mem {ts : List (List Char)} (h : tokListOK ts = true) :
    ∀ w ∈ ts, tokOK w = true := by
  intro w hw
  simp only [tokListOK, Bool.and_eq_true, List.all_eq_true] at h
  exact h.2 w hw

/-- The tail of a well-formed token list with two entries is well formed. -/
theorem tokListOK_tail {w w2 : List Char} {ws : List (List Char)}
    (h : tokListOK (w :: w2 :: ws) = true) : tokListOK (w2 :: ws) = true := by
  simp only [tokListOK, Bool.and_eq_true, List.all_eq_true] at h ⊢
  exact ⟨by simp, fun x hx => h.2 x (by simp [hx])⟩

/-- Splitting a canonical multi-token capture followed by a space. -/
theorem words_joinTok_space (ts : List (List Char)) (l : List Char)
    (h : tokListOK ts = true) : words (joinTok ts ++ ' ' :: l) = ts ++ words l := by
  induction ts with
  | nil => simp [tokListOK] at h
  | cons w ws ih =>
    cases ws with
    | nil => simpa using words_token_space w l (tokListOK_mem h w (by simp))
    | cons w2 ws2 =>
      have hjoin : joinTok (w :: w2 :: ws2) = w ++ ' ' :: joinTok (w2 :: ws2) := rfl
      rw [hjoin, List.append_assoc, List.cons_append,
        words_token_space w _ (tokListOK_mem h w (by simp)), ih (tokListOK_tail h)]
      simp

/-- Splitting a lone canonical multi-token capture. -/
theorem words_joinTok_nil (ts : List (List Char)) (h : tokListOK ts = true) :
    words (joinTok ts) = ts := by
  induction ts with
  | nil => simp [tokListOK] at h
  | cons w ws ih =>
    cases ws with
    | nil => simpa using words_token_nil w (tokListOK_mem h w (by simp))
    | cons w2 ws2 =>
      have hjoin : joinTok (w :: w2 :: ws2) = w ++ ' ' :: joinTok (w2 :: ws2) := rfl
      rw [hjoin, words_token_space w _ (tokListOK_mem h w (by simp)), ih (tokListOK_tail h)]

/-- A token character is not trimmed by `trim`. -/
theorem isTokChar_not_rustWS {c : Char} (h : isTokChar c = true) :
    rustIsWhitespace c = false := by
  cases hr : rustIsWhitespace c with
  | false => rfl
  | true =>
    exfalso
    have := of_decide_eq_true hr
    rcases this with h1 | h1 | h1 | h1 <;> subst h1 <;> simp [isTokChar, isWS] at h

/-- All characters of a canonical capture are line characters. -/
theorem joinTok_all_lineChar (ts : List (List Char)) (h : ts.all tokOK = true) :
    (joinTok ts).all lineChar = true := by
  induction ts with
  | nil => simp [joinTok]
  | cons w ws ih =>
    simp only [List.all_eq_true] at h ih ⊢
    intro c hc
    cases ws with
    | nil =>
      simp only [joinTok] at hc
      simp [lineChar, tokOK_mem (h w (by simp)) c hc]
    | cons w2 ws2 =>
      have hjoin : joinTok (w :: w2 :: ws2) = w ++ ' ' :: joinTok (w2 :: ws2) := rfl
      rw [hjoin] at hc
      rcases List.mem_append.mp hc with hc1 | hc2
      · simp [lineChar, tokOK_mem (h w (by simp)) c hc1]
      · rcases List.mem_cons.mp hc2 with hsp | hc3
        · simp [lineChar, hsp]
        · exact ih (fun x hx => h x (by simp [hx])) c hc3

/-- The reversed canonical capture starts with a token character. -/
theorem joinTok_reverse_head (ts : List (List Char)) (h : tokListOK ts = true) :
    ∃ c cs, (joinTok ts).reverse = c :: cs ∧ isTokChar c = true := by
  induction ts with
  | nil => simp [tokListOK] at h
  | cons w ws ih =>
    cases ws with
    | nil =>
      have hw := tokListOK_mem h w (by simp)
      obtain ⟨c, cs, hrev⟩ :=
        List.exists_cons_of_ne_nil (l := w.reverse) (by simpa using tokOK_ne_nil hw)
      refine ⟨c, cs, by simpa [joinTok] using hrev, ?_⟩
      exact tokOK_mem hw c (by
        have : c ∈ w.reverse := by simp [hrev]
        simpa using this)
    | cons w2 ws2 =>
      have hjoin : joinTok (w :: w2 :: ws2) = w ++ ' ' :: joinTok (w2 :: ws2) := rfl
      obtain ⟨c, cs, hrev, hc⟩ := ih (tokListOK_tail h)
      refine ⟨c, cs ++ ' ' :: w.reverse, ?_, hc⟩
      rw [hjoin, List.reverse_append, List.reverse_cons, hrev]
      simp

/-- The canonical capture starts with a token character. -/
theorem joinTok_head (ts : List (List Char)) (h : tokListOK ts = true) :
    ∃ c cs, joinTok ts = c :: cs ∧ isTokChar c = true := by
  cases ts with
  | nil => simp [tokListOK] at h
  | cons w ws =>
    have hw := tokListOK_mem h w (by simp)
    obtain ⟨c, cs, hcons⟩ := List.exists_cons_of_ne_nil (tokOK_ne_nil hw)
    cases ws with
    | nil => exact ⟨c, cs, by simp [joinTok, hcons], tokOK_mem hw c (by simp [hcons])⟩
    | cons w2 ws2 =>
      refine ⟨c, cs ++ ' ' :: joinTok (w2 :: ws2), ?_, tokOK_mem hw c (by simp [hcons])⟩
      have hjoin : joinTok (w :: w2 :: ws2) = w ++ ' ' :: joinTok (w2 :: ws2) := rfl
      rw [hjoin, hcons]
      simp

/-- The setoption builder's `trim` is the identity on a canonical capture. -/
theorem trimBoth_joinTok (ts : List (List Char)) (h : tokListOK ts = true) :
    trimBoth (joinTok ts) = joinTok ts := by
  obtain ⟨c, cs, hcons, hc⟩ := joinTok_head ts h
  obtain ⟨d, ds, hrev, hd⟩ := joinTok_reverse_head ts h
  unfold trimBoth
  rw [hcons, List.dropWhile_cons, isTokChar_not_rustWS hc]
  simp only [Bool.false_eq_true, if_false]
  rw [← hcons, hrev, List.dropWhile_cons, isTokChar_not_rustWS hd]
  simp only [Bool.false_eq_true, if_false]
  rw [← hrev]
  simp

end VampircUci

namespace VampircUci

/-- The fuel of the decimal rendering is irrelevant once it covers the
number. -/
theorem showNatTR_congr (f1 : Nat) : ∀ (f2 n : Nat), n ≤ f1 → n ≤ f2 →
    showNatTR f1 n = showNatTR f2 n := by
  induction f1 with
  | zero =>
    intro f2 n h1 _
    have : n = 0 := by omega
    subst this
    cases f2 with
    | zero => rfl
    | succ k => simp [showNatTR]
  | succ f ih =>
    intro f2 n h1 h2
    by_cases hn : n < 10
    · cases f2 with
      | zero =>
        have : n = 0 := by omega
        subst this
        simp [showNatTR]
      | succ k => simp [showNatTR, hn]
    · have hf2 : ∃ k, f2 = k + 1 := ⟨f2 - 1, by omega⟩
      obtain ⟨k, rfl⟩ := hf2
      simp only [showNatTR, hn, if_false]
      rw [ih k (n / 10) (by omega) (by omega)]

/-- Unfolding rule of the decimal rendering. -/
theorem showNatChars_eq (n : Nat) :
    showNatChars n =
      if n < 10 then [digitChar n] else showNatChars (n / 10) ++ [digitChar (n % 10)] := by
  unfold showNatChars
  by_cases hn : n < 10
  · cases n with
    | zero => simp [showNatTR]
    | succ k => simp [showNatTR, hn]
  · have : ∃ k, n = k + 1 := ⟨n - 1, by omega⟩
    obtain ⟨k, rfl⟩ := this
    simp only [showNatTR, hn, if_false]
    rw [showNatTR_congr k ((k + 1) / 10) ((k + 1) / 10) (by omega) (by omega)]

/-- The decimal rendering is made of digits. -/
theorem showNatChars_all_digits (n : Nat) : ∀ c ∈ showNatChars n, isDigitChar c = true := by
  induction n using Nat.strong_induction_on with
  | _ n ih =>
    intro c hc
    rw [showNatChars_eq] at hc
    by_cases h : n < 10
    · rw [if_pos h] at hc
      simp only [List.mem_singleton] at hc
      subst hc
      interval_cases n <;> decide
    · rw [if_neg h] at hc
      rcases List.mem_append.mp hc with hc1 | hc2
      · exact ih (n / 10) (by omega) c hc1
      · simp only [List.mem_singleton] at hc2
        subst hc2
        have hm : n % 10 < 10 := Nat.mod_lt _ (by omega)
        interval_cases hx : n % 10 <;> simp_all <;> decide

/-- The decimal rendering is nonempty. -/
theorem showNatChars_ne_nil (n : Nat) : showNatChars n ≠ [] := by
  rw [showNatChars_eq]
  split <;> simp

/-- The value of a digit character made from a digit. -/
theorem digitVal_digitChar {d : Nat} (h : d < 10) : digitVal (digitChar d) = d := by
  interval_cases d <;> decide

/-- The decimal rendering evaluates back to its number. -/
theorem digitsVal_showNatChars (n : Nat) : digitsVal (showNatChars n) = n := by
  induction n using Nat.strong_induction_on with
  | _ n ih =>
    rw [showNatChars_eq]
    by_cases h : n < 10
    · rw [if_pos h]
      simp [digitsVal, digitVal_digitChar h]
    · rw [if_neg h]
      unfold digitsVal at ih ⊢
      rw [List.foldl_append]
      simp only [List.foldl_cons, List.foldl_nil, ih (n / 10) (by omega)]
      rw [digitVal_digitChar (Nat.mod_lt _ (by omega))]
      omega

/-- Digit-count bound of the decimal rendering. -/
theorem showNatChars_length_le (k n : Nat) (hk : 1 ≤ k) (h : n < 10 ^ k) :
    (showNatChars n).length ≤ k := by
  induction n using Nat.strong_induction_on generalizing k with
  | _ n ih =>
    rw [showNatChars_eq]
    by_cases hn : n < 10
    · rw [if_pos hn]
      simpa using hk
    · rw [if_neg hn]
      have hk2 : 2 ≤ k := by
        by_contra hlt
        have : k = 1 := by omega
        subst this
        simp at h
        omega
      have hdiv : n / 10 < 10 ^ (k - 1) := by
        have h10 : (10 : Nat) ^ k = 10 ^ (k - 1) * 10 := by
          conv_lhs => rw [show k = (k - 1) + 1 by omega]
          ring
        rw [h10] at h
        omega
      have := ih (n / 10) (by omega) (k - 1) (by omega) hdiv
      simp only [List.length_append, List.length_singleton]
      omega

/-- A digit is a token character. -/
theorem isDigitChar_tokChar {c : Char} (h : isDigitChar c = true) : isTokChar c = true := by
  cases ht : isTokChar c with
  | true => rfl
  | false =>
    exfalso
    have h2 := of_decide_eq_false ht
    simp only [not_and_or, not_not] at h2
    rcases h2 with h1 | h1 | h1
    · rcases of_decide_eq_true (show decide (c = ' ' ∨ c = '\t') = true from h1) with h4 | h4 <;>
        subst h4 <;> simp [isDigitChar] at h
    · subst h1
      simp [isDigitChar] at h
    · subst h1
      simp [isDigitChar] at h

/-- The decimal rendering is a well-formed token. -/
theorem tokOK_showNatChars (n : Nat) : tokOK (showNatChars n) = true := by
  simp only [tokOK, Bool.and_eq_true, List.all_eq_true]
  constructor
  · simpa using showNatChars_ne_nil n
  · exact fun c hc => isDigitChar_tokChar (showNatChars_all_digits n c hc)

/-- The digit-string test holds of a decimal rendering. -/
theorem allDigits_showNatChars (n : Nat) : allDigits (showNatChars n) = true := by
  simp only [allDigits, decide_eq_true_eq, List.all_eq_true]
  exact ⟨showNatChars_ne_nil n, showNatChars_all_digits n⟩

/-- The decimal rendering is accepted by the digit-count-bounded token rule
and evaluates back to its number. -/
theorem digitsTok_showNatChars (k n : Nat) (hk : 1 ≤ k) (h : n < 10 ^ k) :
    digitsTok k (showNatChars n) = some n := by
  have hcond : (allDigits (showNatChars n) = true) ∧ ((showNatChars n).length ≤ k) :=
    ⟨allDigits_showNatChars n, showNatChars_length_le k n hk h⟩
  unfold digitsTok
  rw [if_pos hcond]
  exact congrArg some (digitsVal_showNatChars n)

end VampircUci

namespace VampircUci

/-- A digit-string token is accepted by the signed-integer token rule. -/
theorem i64Tok_digits (w : List Char) (hw : allDigits w = true) (hlen : w.length ≤ 18) :
    i64Tok w = some (digitsVal w : Int) := by
  have hw' := of_decide_eq_true hw
  obtain ⟨c, cs, hcons⟩ := List.exists_cons_of_ne_nil hw'.1
  have hc : isDigitChar c = true := by
    rw [List.all_eq_true] at hw'
    exact hw'.2 c (by simp [hcons])
  have hcm : ¬ c = '-' := by
    intro hh
    subst hh
    simp [isDigitChar] at hc
  subst hcons
  unfold i64Tok
  split
  · next ds heq =>
      injection heq with h1 h2
      exact absurd h1 hcm
  · rw [if_pos ⟨hw, hlen⟩]

/-- The signed decimal rendering parses back through the `i64` token rule. -/
theorem i64Tok_showIntChars (i : Int) (h : i.natAbs < 10 ^ 18) :
    i64Tok (showIntChars i) = some i := by
  by_cases hneg : i < 0
  · unfold showIntChars
    rw [if_pos hneg]
    have hred : i64Tok ('-' :: showNatChars i.natAbs) =
        if allDigits (showNatChars i.natAbs) ∧ (showNatChars i.natAbs).length ≤ 18 then
          some (-(digitsVal (showNatChars i.natAbs) : Int)) else none := rfl
    rw [hred, if_pos ⟨allDigits_showNatChars _, showNatChars_length_le 18 _ (by omega) h⟩,
      digitsVal_showNatChars]
    congr 1
    omega
  · unfold showIntChars
    rw [if_neg hneg,
      i64Tok_digits _ (allDigits_showNatChars _) (showNatChars_length_le 18 _ (by omega) h),
      digitsVal_showNatChars]
    congr 1
    omega

/-- A digit-string token is accepted by Rust's `str::parse::<i64>`. -/
theorem rustParseI64_digits (w : List Char) (hw : allDigits w = true)
    (hval : (digitsVal w : Int) ≤ 2 ^ 63 - 1) :
    rustParseI64 w = some (digitsVal w : Int) := by
  have hw' := of_decide_eq_true hw
  obtain ⟨c, cs, hcons⟩ := List.exists_cons_of_ne_nil hw'.1
  have hc : isDigitChar c = true := by
    rw [List.all_eq_true] at hw'
    exact hw'.2 c (by simp [hcons])
  have hcm : ¬ c = '-' := by
    intro hh; subst hh; simp [isDigitChar] at hc
  have hcp : ¬ c = '+' := by
    intro hh; subst hh; simp [isDigitChar] at hc
  subst hcons
  unfold rustParseI64
  split
  · next ds heq =>
      injection heq with h1 h2
      exact absurd h1 hcp
  · next ds heq =>
      injection heq with h1 h2
      exact absurd h1 hcm
  · rw [if_pos ⟨hw, hval⟩]

/-- The signed decimal rendering parses back through Rust's
`str::parse::<i64>`. -/
theorem rustParseI64_showIntChars (i : Int) (hlo : -(2 ^ 63) ≤ i) (hhi : i ≤ 2 ^ 63 - 1) :
    rustParseI64 (showIntChars i) = some i := by
  by_cases hneg : i < 0
  · unfold showIntChars
    rw [if_pos hneg]
    have hred : rustParseI64 ('-' :: showNatChars i.natAbs) =
        if allDigits (showNatChars i.natAbs) ∧ ((digitsVal (showNatChars i.natAbs) : Int) ≤ 2 ^ 63)
        then some (-(digitsVal (showNatChars i.natAbs) : Int)) else none := rfl
    rw [hred, if_pos ⟨allDigits_showNatChars _, by rw [digitsVal_showNatChars]; omega⟩,
      digitsVal_showNatChars]
    congr 1
    omega
  · unfold showIntChars
    rw [if_neg hneg,
      rustParseI64_digits _ (allDigits_showNatChars _) (by rw [digitsVal_showNatChars]; omega),
      digitsVal_showNatChars]
    congr 1
    omega

/-- The `as i32` truncation is the identity inside `i32` range. -/
theorem asI32_id (v : Int) (hlo : -(2 ^ 31) ≤ v) (hhi : v < 2 ^ 31) : asI32 v = v := by
  have h32 : (2 : Int) ^ 32 = 4294967296 := by norm_num
  have h31 : (2 : Int) ^ 31 = 2147483648 := by norm_num
  have hb : 0 ≤ v.emod 4294967296 := Int.emod_nonneg v (by norm_num)
  have hb2 : v.emod 4294967296 < 4294967296 := Int.emod_lt_of_pos v (by norm_num)
  have hdef : v.emod 4294967296 = v - 4294967296 * (v.ediv 4294967296) := Int.emod_def v _
  simp only [asI32, h32, h31] at *
  split <;> omega

/-- The `as i8` truncation is the identity inside `i8` range. -/
theorem asI8_id (v : Int) (hlo : -(2 ^ 7) ≤ v) (hhi : v < 2 ^ 7) : asI8 v = v := by
  have h8 : (2 : Int) ^ 8 = 256 := by norm_num
  have h7 : (2 : Int) ^ 7 = 128 := by norm_num
  have hb : 0 ≤ v.emod 256 := Int.emod_nonneg v (by norm_num)
  have hb2 : v.emod 256 < 256 := Int.emod_lt_of_pos v (by norm_num)
  have hdef : v.emod 256 = v - 256 * (v.ediv 256) := Int.emod_def v _
  simp only [asI8, h8, h7] at *
  split <;> omega

/-- The `as u16` truncation is the identity below `2^16`. -/
theorem asU16_id (n : Nat) (h : n < 65536) : asU16 n = n := Nat.mod_eq_of_lt h

/-- The signed decimal rendering is a well-formed token. -/
theorem tokOK_showIntChars (i : Int) : tokOK (showIntChars i) = true := by
  unfold showIntChars
  split
  · simp only [tokOK, Bool.and_eq_true, List.all_eq_true]
    refine ⟨by simp, ?_⟩
    intro c hc
    rcases List.mem_cons.mp hc with h1 | h2
    · subst h1; decide
    · exact isDigitChar_tokChar (showNatChars_all_digits _ c h2)
  · exact tokOK_showNatChars _

end VampircUci

namespace VampircUci

/-! ## Claim theorems -/

/-- C2: any line that matches no recognized command makes `parse_strict`
return an error and no messages at all — the whole input is atomic.  (The
hypothesis states that some line of the input is a grammar violation.) -/
theorem parse_strict_rejects_whole_input (s : String)
    (h : ∃ l ∈ splitLines s.data, (parseLine l).isNoMatch = true) :
    ∃ e, parse_strict s = .err e ∧ ∀ ms, parse_strict s ≠ .ok ms := by
  have hsome : (firstBad (splitLines s.data)).isSome = true := by
    rw [firstBad, List.find?_isSome]
    obtain ⟨l, hl, hp⟩ := h
    exact ⟨l, hl, hp⟩
  obtain ⟨l₀, hl₀⟩ := Option.isSome_iff_exists.mp hsome
  refine ⟨⟨⟨l₀⟩⟩, ?_, ?_⟩
  · simp only [parse_strict, firstBad] at hl₀ ⊢
    rw [hl₀]
  · intro ms hcontra
    simp only [parse_strict, firstBad] at hl₀ hcontra
    rw [hl₀] at hcontra
    exact PResult.noConfusion hcontra

/-- Witness for C2 at the concrete input `"uci\nfoo\n"`. -/
theorem parse_strict_rejects_whole_input_witness :
    ∃ e, parse_strict "uci\nfoo\n" = .err e ∧ ∀ ms, parse_strict "uci\nfoo\n" ≠ .ok ms :=
  parse_strict_rejects_whole_input "uci\nfoo\n" (by decide)

/-- C3 (amended): when strict parsing fails, `parse_with_unknown` returns
exactly one `Unknown` message carrying the right-trimmed input text and the
error; when strict parsing succeeds it returns the same list. -/
theorem parse_with_unknown_wraps (s : String) :
    (∀ e, parse_strict s = .err e →
      parse_with_unknown s = some [.unknown (trimEnd s) (some e)]) ∧
    (∀ ms, parse_strict s = .ok ms → parse_with_unknown s = some ms) := by
  constructor <;> intro x hx <;> simp [parse_with_unknown, hx]

/-- Witness for C3 at the concrete input `"foo\n"`. -/
theorem parse_with_unknown_wraps_witness :
    parse_with_unknown "foo\n" = some [.unknown (trimEnd "foo\n") (some ⟨"foo"⟩)] :=
  (parse_with_unknown_wraps "foo\n").1 ⟨"foo"⟩ (by decide)

/-- C3 counterexample: the wrapped `Unknown` carries the trimmed text
`"foo"`, not the original input `"foo\n"`. -/
theorem parse_with_unknown_trims_cex :
    parse_with_unknown "foo\n" = some [.unknown "foo" (some ⟨"foo"⟩)] ∧
    "foo" ≠ "foo\n" := by
  constructor
  · decide
  · decide

/-- C5 counterexample: re-parsing the serialization of a `SetOption` with
value `None` yields value `Some("<empty>")`, not `Some("")`. -/
theorem setoption_reparse_cex :
    parse_one (serialize (.setOption "Hash" none)) =
      some (.setOption "Hash" (some "<empty>")) ∧
    (some "<empty>" : Option String) ≠ some "" := by
  constructor
  · decide
  · decide

/-- C6 counterexample: the code-first registration order is a grammar error,
not an order-independent parse. -/
theorem register_order_cex :
    parse_strict "register code 4359874324 name Matija\n" =
      .err ⟨"register code 4359874324 name Matija"⟩ := by decide

/-- C7: `go depth 999` passes the three-digit grammar but panics in the
builder's `u8` conversion, while `go depth 1000` is a grammar error. -/
theorem go_depth_999_panics :
    parse_one "go depth 999" = none ∧ (parse_strict "go depth 1000\n").isErr = true := by
  constructor
  · decide
  · decide

/-- C8: unrecognized check/spin defaults are silently dropped to `None`
while valid numeric bounds are kept. -/
theorem option_default_coercion :
    parse_strict "option name X type check default banana\n" =
      .ok [.option (.check "X" none)] ∧
    parse_strict "option name Y type spin default abc min 0 max 4\n" =
      .ok [.option (.spin "Y" none (some 0) (some 4))] := by
  constructor
  · decide
  · decide

/-- C9 counterexample: the empty `Go` serializes with a trailing space. -/
theorem go_empty_serialize_cex : serialize (.go none none) ≠ "go" := by decide

/-- C9 (amended): the empty `Go` serializes to exactly `"go "`. -/
theorem go_empty_serialize : serialize (.go none none) = "go " := rfl

/-- C4: the lenient entry point drops the unrecognized middle line of the
documented three-line example, but panics (instead of never failing) on
`go depth 999`, whose three-digit depth overflows the builder's `u8`. -/
theorem parse_lenient_drop_and_panic :
    parse "position startpos\nunknown command\ngo infinite\n" =
      some [.position true none [], .go (some .infinite) none] ∧
    parse "go depth 999\n" = none := by
  constructor
  · decide
  · decide

/-- C10: `parse_one` parses the first line only; everything after the first
newline is ignored, whatever it contains. -/
theorem parse_one_first_line_only (l rest : String) (m : UciMessage)
    (hnl : '\n' ∉ l.data) (hcr : '\x0d' ∉ l.data) (hm : parseLine l.data = .msg m) :
    parse_one (l ++ "\n" ++ rest) = some m := by
  have hdata : (l ++ "\n" ++ rest).data = l.data ++ '\n' :: rest.data := by
    simp [data_append]
  unfold parse_one
  rw [hdata, splitLines_append_newline l.data rest.data hnl, stripCR_eq_self l.data hcr]
  simp only [hm]

/-- Witness for C10: the documented two-command input returns only `uci`. -/
theorem parse_one_first_line_only_witness :
    parse_one ("uci" ++ "\n" ++ "uciok\n") = some .uci :=
  parse_one_first_line_only "uci" "uciok\n" .uci (by decide) (by decide) (by decide)

end VampircUci

namespace VampircUci

/-! ## Canonical strings and the line-level glue -/

/-- A newline never occurs among line characters. -/
theorem all_lineChar_no_nl {l : List Char} (h : l.all lineChar = true) :
    '\n' ∉ l ∧ '\x0d' ∉ l := by
  rw [List.all_eq_true] at h
  constructor <;> intro hmem <;> exact absurd (h _ hmem) (by decide)

/-- A line of line characters whose parse yields a message is what
`parse_one` returns on it. -/
theorem parse_one_of_parseLine (s : String) (m : UciMessage)
    (hchars : s.data.all lineChar = true) (hne : s.data ≠ [])
    (hm : parseLine s.data = .msg m) : parse_one s = some m := by
  obtain ⟨hnl, hcr⟩ := all_lineChar_no_nl hchars
  unfold parse_one
  rw [splitLines_single s.data hnl hne, stripCR_eq_self s.data hcr]
  simp only [hm]

/-- A line of line characters that the grammar rejects makes `parse_strict`
of the bare line plus newline fail. -/
theorem parse_strict_line_err (s : String)
    (hchars : s.data.all lineChar = true) (_hne : s.data ≠ [])
    (hm : (parseLine s.data).isNoMatch = true) :
    parse_strict (s ++ "\n") = .err ⟨s⟩ := by
  obtain ⟨hnl, hcr⟩ := all_lineChar_no_nl hchars
  have hdata : (s ++ "\n").data = s.data ++ '\n' :: [] := rfl
  simp only [parse_strict, firstBad, hdata,
    splitLines_append_newline s.data [] hnl, stripCR_eq_self s.data hcr]
  have : splitLines [] = [] := rfl
  rw [this]
  simp only [List.find?_cons, hm, mk_data]

/-- Unpack `canonicalStr`. -/
theorem canonicalStr_iff {s : String} (h : canonicalStr s = true) :
    tokListOK (words s.data) = true ∧ joinTok (words s.data) = s.data := by
  simp only [canonicalStr, Bool.and_eq_true, decide_eq_true_eq] at h
  exact h

/-- Unpack `strAvoids`. -/
theorem strAvoids_iff {s : String} {kws : List (List Char)} (h : strAvoids s kws = true) :
    ∀ t ∈ words s.data, ¬ kws.contains (lower t) = true := by
  simp only [strAvoids, List.all_eq_true, Bool.not_eq_eq_eq_not, Bool.not_true] at h
  intro t ht
  rw [h t ht]
  simp

end VampircUci

namespace VampircUci

/-- Dispatch of a recognized first token (helper for inversion proofs). -/
theorem parseLine_setoption {l : List Char} {toks : List (List Char)}
    (h : words l = "setoption".data :: toks) : parseLine l = parseSetOption toks := by
  simp only [parseLine, h]
  rfl

/-- The setoption builder on a `name ... value ...` token split. -/
theorem parseSetOption_name_value (N V : List (List Char))
    (hN : tokListOK N = true) (hNol : ∀ t ∈ N, ¬ (lower t = "value".data))
    (hV : V ≠ []) :
    parseSetOption ("name".data :: (N ++ "value".data :: V)) =
      .msg (.setOption ⟨trimBoth (joinTok N)⟩ (some ⟨joinTok V⟩)) := by
  have hx : ∀ t ∈ N, (fun t => decide ¬(lower t = "value".data)) t = true :=
    fun t ht => decide_eq_true (hNol t ht)
  have hy : (fun t => decide ¬(lower t = "value".data)) "value".data = false := by decide
  have hnN : N ≠ [] := by
    cases N with
    | nil => simp [tokListOK] at hN
    | cons a as => simp
  simp only [parseSetOption]
  rw [if_pos (by decide : lower "name".data = "name".data)]
  rw [takeWhile_append_stop N _ V hx hy, dropWhile_append_stop N _ V hx hy]
  have hnem : N.isEmpty = false := by simpa using hnN
  simp only [hnem, Bool.false_eq_true, if_false]
  cases V with
  | nil => exact absurd rfl hV
  | cons v vs => simp

end VampircUci

namespace VampircUci

/-- Token split of the serialized `setoption ... value <empty>` line. -/
theorem words_setoption_empty_line (n : String) (hn : canonicalStr n = true) :
    words ("setoption name " ++ n ++ " value <empty>").data =
      "setoption".data :: "name".data ::
        (words n.data ++ "value".data :: ["<empty>".data]) := by
  obtain ⟨htoks, hjoin⟩ := canonicalStr_iff hn
  have hd : ("setoption name " ++ n ++ " value <empty>").data =
      "setoption".data ++ ' ' :: ("name".data ++ ' ' ::
        (joinTok (words n.data) ++ ' ' :: ("value".data ++ ' ' :: "<empty>".data))) := by
    rw [data_append, data_append, hjoin]
    rfl
  rw [hd, words_token_space "setoption".data _ (by decide),
    words_token_space "name".data _ (by decide),
    words_joinTok_space (words n.data) _ htoks,
    words_token_space "value".data _ (by decide),
    words_token_nil "<empty>".data (by decide)]

/-- C5 (amended): `SetOption` with value `None` and with value `Some("")`
serialize to the same `"... value <empty>"` text, and re-parsing that text
yields `SetOption` with value `Some("<empty>")` in both cases — never the
original `None` and never `Some("")` (the builder's empty-capture test makes
`Some("")` unreachable). -/
theorem setoption_normalization (n : String)
    (hn : canonicalStr n = true) (hkw : strAvoids n ["value".data] = true) :
    serialize (.setOption n none) = "setoption name " ++ n ++ " value <empty>" ∧
    serialize (.setOption n (some "")) = "setoption name " ++ n ++ " value <empty>" ∧
    parse_one ("setoption name " ++ n ++ " value <empty>") =
      some (.setOption n (some "<empty>")) := by
  obtain ⟨htoks, hjoin⟩ := canonicalStr_iff hn
  refine ⟨rfl, rfl, ?_⟩
  have havoid := strAvoids_iff hkw
  have hNol : ∀ t ∈ words n.data, ¬ (lower t = "value".data) := by
    intro t ht hcontra
    have := havoid t ht
    simp [hcontra] at this
  have hchars : ("setoption name " ++ n ++ " value <empty>").data.all lineChar = true := by
    have hd : ("setoption name " ++ n ++ " value <empty>").data =
        "setoption name ".data ++ (n.data ++ " value <empty>".data) := by
      rw [data_append, data_append, List.append_assoc]
    rw [hd, List.all_append, List.all_append]
    refine Bool.and_eq_true_iff.mpr ⟨by decide, Bool.and_eq_true_iff.mpr ⟨?_, by decide⟩⟩
    rw [← hjoin]
    exact joinTok_all_lineChar _ (by
      simp only [tokListOK, Bool.and_eq_true] at htoks
      exact htoks.2)
  have hnnil : ("setoption name " ++ n ++ " value <empty>").data ≠ [] := by
    rw [data_append, data_append]
    simp
  refine parse_one_of_parseLine _ _ hchars hnnil ?_
  rw [parseLine_setoption (words_setoption_empty_line n hn),
    parseSetOption_name_value _ _ htoks hNol (by simp),
    trimBoth_joinTok _ htoks, hjoin, mk_data]
  rfl

/-- Witness for C5 at the name `"Hash"`. -/
theorem setoption_normalization_witness :
    serialize (.setOption "Hash" none) = "setoption name " ++ "Hash" ++ " value <empty>" ∧
    serialize (.setOption "Hash" (some "")) = "setoption name " ++ "Hash" ++ " value <empty>" ∧
    parse_one ("setoption name " ++ "Hash" ++ " value <empty>") =
      some (.setOption "Hash" (some "<empty>")) :=
  setoption_normalization "Hash" (by decide) (by decide)

end VampircUci

namespace VampircUci

/-- Dispatch of a `register` line to the register builder. -/
theorem parseLine_register {l : List Char} {toks : List (List Char)}
    (h : words l = "register".data :: toks) : parseLine l = parseRegister toks := by
  simp only [parseLine, h]
  rfl

/-- The register builder accepts exactly the name-then-code clause order. -/
theorem parseRegister_name_code (N C : List (List Char))
    (hN : tokListOK N = true) (hNol : ∀ t ∈ N, ¬ (lower t = "code".data))
    (hC : tokListOK C = true) :
    parseRegister ("name".data :: (N ++ "code".data :: C)) =
      .msg (registerCode ⟨joinTok N⟩ ⟨joinTok C⟩) := by
  have hx : ∀ t ∈ N, (fun t => decide ¬(lower t = "code".data)) t = true :=
    fun t ht => decide_eq_true (hNol t ht)
  have hy : (fun t => decide ¬(lower t = "code".data)) "code".data = false := by decide
  obtain ⟨a, as, rfl⟩ : ∃ a as, N = a :: as := by
    cases N with
    | nil => simp [tokListOK] at hN
    | cons a as => exact ⟨a, as, rfl⟩
  obtain ⟨b, bs, rfl⟩ : ∃ b bs, C = b :: bs := by
    cases C with
    | nil => simp [tokListOK] at hC
    | cons b bs => exact ⟨b, bs, rfl⟩
  have htw : List.takeWhile (fun t => decide ¬(lower t = "code".data))
      (a :: (as ++ "code".data :: b :: bs)) = a :: as := by
    have := takeWhile_append_stop (a :: as) "code".data (b :: bs) hx hy
    simpa using this
  have hdw : List.dropWhile (fun t => decide ¬(lower t = "code".data))
      (a :: (as ++ "code".data :: b :: bs)) = "code".data :: b :: bs := by
    have := dropWhile_append_stop (a :: as) "code".data (b :: bs) hx hy
    simpa using this
  simp only [List.cons_append, parseRegister]
  rw [if_pos (by decide : lower "name".data = "name".data)]
  rw [htw, hdw]
  simp

/-- A register line whose clause list stops after the name is rejected. -/
theorem parseRegister_name_only (N : List (List Char))
    (hN : tokListOK N = true) (hNol : ∀ t ∈ N, ¬ (lower t = "code".data)) :
    parseRegister ("name".data :: N) = .noMatch := by
  have hx : ∀ t ∈ N, (fun t => decide ¬(lower t = "code".data)) t = true :=
    fun t ht => decide_eq_true (hNol t ht)
  obtain ⟨a, as, rfl⟩ : ∃ a as, N = a :: as := by
    cases N with
    | nil => simp [tokListOK] at hN
    | cons a as => exact ⟨a, as, rfl⟩
  simp only [parseRegister]
  rw [if_pos (by decide : lower "name".data = "name".data)]
  rw [List.takeWhile_eq_self_iff.mpr hx, List.dropWhile_eq_nil_iff.mpr hx]
  simp

/-- A register line that opens with the code clause is rejected. -/
theorem parseRegister_code_first (C : List (List Char)) (hC : C ≠ []) :
    parseRegister ("code".data :: C) = .noMatch := by
  obtain ⟨b, bs, rfl⟩ : ∃ b bs, C = b :: bs := by
    cases C with
    | nil => exact absurd rfl hC
    | cons b bs => exact ⟨b, bs, rfl⟩
  simp only [parseRegister]
  rw [if_neg (by decide : ¬ lower "code".data = "name".data)]

end VampircUci

namespace VampircUci

/-- Line characters of a one-capture command line `pre ++ s`. -/
theorem all_lineChar_append_str (pre : String) (s : String)
    (hpre : pre.data.all lineChar = true) (hs : canonicalStr s = true) :
    (pre ++ s).data.all lineChar = true := by
  obtain ⟨htoks, hjoin⟩ := canonicalStr_iff hs
  rw [data_append, List.all_append, hpre, Bool.true_and, ← hjoin]
  exact joinTok_all_lineChar _ (by
    simp only [tokListOK, Bool.and_eq_true] at htoks
    exact htoks.2)

/-- C6 (amended): `register later` yields `later = true` with both fields
`None`; only the name-first form `register name <N> code <C>` parses into a
`Register` with both fields populated; the code-first order, a lone name
clause and a lone code clause are all grammar errors. -/
theorem register_forms (n c : String)
    (hn : canonicalStr n = true) (hnkw : strAvoids n ["code".data] = true)
    (hc : canonicalStr c = true) :
    parse_one "register later" = some registerLater ∧
    parse_one ("register name " ++ n ++ " code " ++ c) = some (registerCode n c) ∧
    parse_strict ("register name " ++ n ++ "\n") = .err ⟨"register name " ++ n⟩ ∧
    parse_strict ("register code " ++ c ++ "\n") = .err ⟨"register code " ++ c⟩ := by
  obtain ⟨hntoks, hnjoin⟩ := canonicalStr_iff hn
  obtain ⟨hctoks, hcjoin⟩ := canonicalStr_iff hc
  have hNol : ∀ t ∈ words n.data, ¬ (lower t = "code".data) := by
    intro t ht hcontra
    have := strAvoids_iff hnkw t ht
    simp [hcontra] at this
  have hnall : (words n.data).all tokOK = true := by
    simp only [tokListOK, Bool.and_eq_true] at hntoks
    exact hntoks.2
  have hcall : (words c.data).all tokOK = true := by
    simp only [tokListOK, Bool.and_eq_true] at hctoks
    exact hctoks.2
  set N := words n.data with hNdef
  set C := words c.data with hCdef
  refine ⟨by decide, ?_, ?_, ?_⟩
  · have hd : ("register name " ++ n ++ " code " ++ c).data =
        "register".data ++ ' ' :: ("name".data ++ ' ' ::
          (n.data ++ ' ' :: ("code".data ++ ' ' :: c.data))) := by
      rw [data_append, data_append, data_append]
      simp only [List.append_assoc]
      rfl
    have hwords : words ("register name " ++ n ++ " code " ++ c).data =
        "register".data :: "name".data :: (N ++ "code".data :: C) := by
      rw [hd, ← hnjoin, ← hcjoin,
        words_token_space "register".data _ (by decide),
        words_token_space "name".data _ (by decide),
        words_joinTok_space N _ hntoks,
        words_token_space "code".data _ (by decide),
        words_joinTok_nil C hctoks]
    have hchars : ("register name " ++ n ++ " code " ++ c).data.all lineChar = true := by
      rw [hd, ← hnjoin, ← hcjoin]
      simp only [List.all_append, List.all_cons, Bool.and_eq_true]
      and_intros
      all_goals first
        | decide
        | exact joinTok_all_lineChar N hnall
        | exact joinTok_all_lineChar C hcall
    refine parse_one_of_parseLine _ _ hchars (by rw [hd]; simp) ?_
    rw [parseLine_register hwords,
      parseRegister_name_code _ _ hntoks hNol hctoks, hnjoin, hcjoin, mk_data, mk_data]
  · have hd : ("register name " ++ n).data =
        "register".data ++ ' ' :: ("name".data ++ ' ' :: n.data) := by
      rw [data_append]
      rfl
    have hwords : words ("register name " ++ n).data =
        "register".data :: "name".data :: N := by
      rw [hd, ← hnjoin,
        words_token_space "register".data _ (by decide),
        words_token_space "name".data _ (by decide),
        words_joinTok_nil N hntoks]
    have hchars : ("register name " ++ n).data.all lineChar = true := by
      rw [hd, ← hnjoin]
      simp only [List.all_append, List.all_cons, Bool.and_eq_true]
      and_intros
      all_goals first
        | decide
        | exact joinTok_all_lineChar N hnall
    refine parse_strict_line_err _ hchars (by rw [hd]; simp) ?_
    rw [parseLine_register hwords, parseRegister_name_only _ hntoks hNol]
    rfl
  · have hd : ("register code " ++ c).data =
        "register".data ++ ' ' :: ("code".data ++ ' ' :: c.data) := by
      rw [data_append]
      rfl
    have hwords : words ("register code " ++ c).data =
        "register".data :: "code".data :: C := by
      rw [hd, ← hcjoin,
        words_token_space "register".data _ (by decide),
        words_token_space "code".data _ (by decide),
        words_joinTok_nil C hctoks]
    have hchars : ("register code " ++ c).data.all lineChar = true := by
      rw [hd, ← hcjoin]
      simp only [List.all_append, List.all_cons, Bool.and_eq_true]
      and_intros
      all_goals first
        | decide
        | exact joinTok_all_lineChar C hcall
    refine parse_strict_line_err _ hchars (by rw [hd]; simp) ?_
    rw [parseLine_register hwords, parseRegister_code_first _ (by
      intro hnil
      have hCne : C ≠ [] := by
        simp only [tokListOK, Bool.and_eq_true] at hctoks
        simpa using hctoks.1
      exact hCne hnil)]
    rfl

/-- Witness for C6 at the repository's own test values. -/
theorem register_forms_witness :
    parse_one "register later" = some registerLater ∧
    parse_one ("register name " ++ "Matija Kejzar" ++ " code " ++ "4359874324") =
      some (registerCode "Matija Kejzar" "4359874324") ∧
    parse_strict ("register name " ++ "Matija Kejzar" ++ "\n") =
      .err ⟨"register name " ++ "Matija Kejzar"⟩ ∧
    parse_strict ("register code " ++ "4359874324" ++ "\n") =
      .err ⟨"register code " ++ "4359874324"⟩ :=
  register_forms "Matija Kejzar" "4359874324" (by decide) (by decide) (by decide)

end VampircUci

namespace VampircUci

/-! ## Shape lemmas for serialized token runs -/

/-- A leading space is skipped by the word split. -/
theorem words_space_cons (l : List Char) : words (' ' :: l) = words l := by
  simp [words, wordsAux, isWS]

/-- `leadTok` distributes over appended token lists. -/
theorem leadTok_append (T1 T2 : List (List Char)) :
    leadTok (T1 ++ T2) = leadTok T1 ++ leadTok T2 := by
  induction T1 with
  | nil => simp [leadTok]
  | cons t ts ih => simp [leadTok, ih]

/-- `trailTok` distributes over appended token lists. -/
theorem trailTok_append (T1 T2 : List (List Char)) :
    trailTok (T1 ++ T2) = trailTok T1 ++ trailTok T2 := by
  induction T1 with
  | nil => simp [trailTok]
  | cons t ts ih => simp [trailTok, ih]

/-- A canonical join is its head token followed by space-led tokens. -/
theorem joinTok_cons_leadTok (w : List Char) (T : List (List Char)) :
    joinTok (w :: T) = w ++ leadTok T := by
  induction T generalizing w with
  | nil => simp [joinTok, leadTok]
  | cons t ts ih =>
    rw [show joinTok (w :: t :: ts) = w ++ ' ' :: joinTok (t :: ts) from rfl, ih]
    simp [leadTok]

/-- Splitting a token followed by space-led tokens. -/
theorem words_tok_leadTok (w : List Char) (T : List (List Char))
    (hw : tokOK w = true) (hT : T.all tokOK = true) :
    words (w ++ leadTok T) = w :: T := by
  induction T generalizing w with
  | nil => simpa [leadTok] using words_token_nil w hw
  | cons t ts ih =>
    simp only [List.all_cons, Bool.and_eq_true] at hT
    have hsh : w ++ leadTok (t :: ts) = w ++ ' ' :: (t ++ leadTok ts) := by simp [leadTok]
    rw [hsh, words_token_space w _ hw, ih t hT.1 hT.2]

/-- Splitting space-trailed tokens before any continuation. -/
theorem words_trailTok (T : List (List Char)) (l : List Char)
    (hT : T.all tokOK = true) : words (trailTok T ++ l) = T ++ words l := by
  induction T with
  | nil => simp [trailTok]
  | cons t ts ih =>
    simp only [List.all_cons, Bool.and_eq_true] at hT
    have hsh : trailTok (t :: ts) ++ l = t ++ ' ' :: (trailTok ts ++ l) := by simp [trailTok]
    rw [hsh, words_token_space t _ hT.1, ih hT.2]
    simp

/-- A well-formed token is made of line characters. -/
theorem tokOK_all_lineChar {w : List Char} (h : tokOK w = true) :
    w.all lineChar = true := by
  rw [List.all_eq_true]
  intro c hc
  simp [lineChar, tokOK_mem h c hc]

/-- Space-led tokens are made of line characters. -/
theorem leadTok_all_lineChar (T : List (List Char)) (h : T.all tokOK = true) :
    (leadTok T).all lineChar = true := by
  induction T with
  | nil => simp [leadTok]
  | cons t ts ih =>
    simp only [List.all_cons, Bool.and_eq_true] at h
    simp only [leadTok, List.cons_append, List.all_cons, List.all_append, Bool.and_eq_true]
    exact ⟨by decide, tokOK_all_lineChar h.1, ih h.2⟩

/-- Space-trailed tokens are made of line characters. -/
theorem trailTok_all_lineChar (T : List (List Char)) (h : T.all tokOK = true) :
    (trailTok T).all lineChar = true := by
  induction T with
  | nil => simp [trailTok]
  | cons t ts ih =>
    simp only [List.all_cons, Bool.and_eq_true] at h
    simp only [trailTok, List.all_append, List.all_cons, Bool.and_eq_true]
    exact ⟨tokOK_all_lineChar h.1, by decide, ih h.2⟩

/-- Characters of a string fold-append. -/
theorem foldl_append_data (ls : List String) : ∀ (init : String),
    (ls.foldl (fun r s => r ++ s) init).data = init.data ++ (ls.map String.data).flatten := by
  induction ls with
  | nil => intro init; simp
  | cons x xs ih =>
    intro init
    rw [List.foldl_cons, ih (init ++ x), data_append]
    simp

/-- Characters of `String.join`. -/
theorem join_data (ls : List String) :
    (String.join ls).data = (ls.map String.data).flatten := by
  simpa [String.join] using foldl_append_data ls ""

/-- Characters of a serialized space-led move list. -/
theorem movesLead_data (ms : List UciMove) :
    (String.join (ms.map (fun m => " " ++ serializeMove m))).data =
      leadTok (moveToks ms) := by
  rw [join_data]
  induction ms with
  | nil => simp [leadTok, moveToks]
  | cons m rest ih =>
    simp only [List.map_cons, List.map_map, List.flatten_cons] at ih ⊢
    rw [ih]
    simp [leadTok, moveToks, data_append]

/-- Characters of a serialized space-trailed move list. -/
theorem movesTrail_data (ms : List UciMove) :
    (String.join (ms.map (fun m => serializeMove m ++ " "))).data =
      trailTok (moveToks ms) := by
  rw [join_data]
  induction ms with
  | nil => simp [trailTok, moveToks]
  | cons m rest ih =>
    simp only [List.map_cons, List.map_map, List.flatten_cons] at ih ⊢
    rw [ih]
    simp [trailTok, moveToks, data_append]

end VampircUci

namespace VampircUci

/-! ## The move round trip -/

/-- A file letter is a clean token character. -/
theorem isTokChar_of_fileChar {c : Char} (h : isFileChar c = true) :
    isTokChar c = true := by
  simp only [isFileChar, decide_eq_true_eq] at h
  simp only [isTokChar, isWS, decide_eq_true_eq]
  refine ⟨?_, ?_, ?_⟩
  · intro hws
    rcases hws with rfl | rfl
    · exact absurd h.1 (by decide)
    · exact absurd h.1 (by decide)
  · rintro rfl
    exact absurd h.1 (by decide)
  · rintro rfl
    exact absurd h.1 (by decide)

/-- A digit value below ten renders to a digit character. -/
theorem isDigitChar_digitChar {d : Nat} (h : d < 10) :
    isDigitChar (digitChar d) = true := by
  interval_cases d <;> decide

/-- A rank between 1 and 8 renders to a rank character. -/
theorem isRankChar_digitChar {r : Nat} (h1 : 1 ≤ r) (h2 : r ≤ 8) :
    isRankChar (digitChar r) = true := by
  interval_cases r <;> decide

/-- A one-digit value renders to its digit character. -/
theorem showNatChars_digit {r : Nat} (h : r < 10) :
    showNatChars r = [digitChar r] := by
  rw [showNatChars_eq, if_pos h]

/-- The serialized move of a re-readable move is a clean token. -/
theorem serializeMove_tokOK (m : UciMove) (h : moveOK m = true) :
    tokOK (serializeMove m).data = true := by
  obtain ⟨⟨f1, r1⟩, ⟨f2, r2⟩, promo⟩ := m
  simp only [moveOK, squareOK, Bool.and_eq_true, decide_eq_true_eq] at h
  obtain ⟨⟨⟨⟨hf1, h1a⟩, h1b⟩, ⟨⟨hf2, h2a⟩, h2b⟩⟩, hpr⟩ := h
  have hd1 : showNatChars r1 = [digitChar r1] := showNatChars_digit (by omega)
  have hd2 : showNatChars r2 = [digitChar r2] := showNatChars_digit (by omega)
  have ht1 : isTokChar (digitChar r1) = true :=
    isDigitChar_tokChar (isDigitChar_digitChar (by omega))
  have ht2 : isTokChar (digitChar r2) = true :=
    isDigitChar_tokChar (isDigitChar_digitChar (by omega))
  cases promo with
  | none =>
    simp only [serializeMove, serializeSquare, showNat, data_append, hd1, hd2]
    simp [tokOK, isTokChar_of_fileChar hf1, isTokChar_of_fileChar hf2, ht1, ht2]
  | some p =>
    cases p with
    | pawn => exact absurd rfl hpr
    | knight =>
      simp only [serializeMove, serializeSquare, showNat, data_append, hd1, hd2]
      simp [tokOK, UciPiece.asChar, isTokChar_of_fileChar hf1, isTokChar_of_fileChar hf2,
        ht1, ht2]
      decide
    | bishop =>
      simp only [serializeMove, serializeSquare, showNat, data_append, hd1, hd2]
      simp [tokOK, UciPiece.asChar, isTokChar_of_fileChar hf1, isTokChar_of_fileChar hf2,
        ht1, ht2]
      decide
    | rook =>
      simp only [serializeMove, serializeSquare, showNat, data_append, hd1, hd2]
      simp [tokOK, UciPiece.asChar, isTokChar_of_fileChar hf1, isTokChar_of_fileChar hf2,
        ht1, ht2]
      decide
    | queen =>
      simp only [serializeMove, serializeSquare, showNat, data_append, hd1, hd2]
      simp [tokOK, UciPiece.asChar, isTokChar_of_fileChar hf1, isTokChar_of_fileChar hf2,
        ht1, ht2]
      decide
    | king =>
      simp only [serializeMove, serializeSquare, showNat, data_append, hd1, hd2]
      simp [tokOK, UciPiece.asChar, isTokChar_of_fileChar hf1, isTokChar_of_fileChar hf2,
        ht1, ht2]
      decide

/-- The grammar re-reads a serialized re-readable move exactly. -/
theorem parseMoveTok_serializeMove (m : UciMove) (h : moveOK m = true) :
    parseMoveTok (serializeMove m).data = some m := by
  obtain ⟨⟨f1, r1⟩, ⟨f2, r2⟩, promo⟩ := m
  simp only [moveOK, squareOK, Bool.and_eq_true, decide_eq_true_eq] at h
  obtain ⟨⟨⟨⟨hf1, h1a⟩, h1b⟩, ⟨⟨hf2, h2a⟩, h2b⟩⟩, hpr⟩ := h
  have hd1 : showNatChars r1 = [digitChar r1] := showNatChars_digit (by omega)
  have hd2 : showNatChars r2 = [digitChar r2] := showNatChars_digit (by omega)
  have hr1 : isRankChar (digitChar r1) = true := isRankChar_digitChar h1a h1b
  have hr2 : isRankChar (digitChar r2) = true := isRankChar_digitChar h2a h2b
  have hv1 : digitVal (digitChar r1) = r1 := digitVal_digitChar (by omega)
  have hv2 : digitVal (digitChar r2) = r2 := digitVal_digitChar (by omega)
  cases promo with
  | none =>
    have hdata : (serializeMove ⟨⟨f1, r1⟩, ⟨f2, r2⟩, none⟩).data =
        [f1, digitChar r1, f2, digitChar r2] := by
      simp [serializeMove, serializeSquare, showNat, data_append, hd1, hd2]
    rw [hdata]
    simp only [parseMoveTok]
    rw [if_pos ⟨hf1, hr1, hf2, hr2⟩, hv1, hv2]
  | some p =>
    cases p with
    | pawn => exact absurd rfl hpr
    | knight =>
      have hdata : (serializeMove ⟨⟨f1, r1⟩, ⟨f2, r2⟩, some .knight⟩).data =
          [f1, digitChar r1, f2, digitChar r2, 'n'] := by
        simp [serializeMove, serializeSquare, showNat, UciPiece.asChar, data_append, hd1, hd2]
      rw [hdata]
      simp only [parseMoveTok]
      rw [if_pos ⟨hf1, hr1, hf2, hr2⟩, hv1, hv2]
      rfl
    | bishop =>
      have hdata : (serializeMove ⟨⟨f1, r1⟩, ⟨f2, r2⟩, some .bishop⟩).data =
          [f1, digitChar r1, f2, digitChar r2, 'b'] := by
        simp [serializeMove, serializeSquare, showNat, UciPiece.asChar, data_append, hd1, hd2]
      rw [hdata]
      simp only [parseMoveTok]
      rw [if_pos ⟨hf1, hr1, hf2, hr2⟩, hv1, hv2]
      rfl
    | rook =>
      have hdata : (serializeMove ⟨⟨f1, r1⟩, ⟨f2, r2⟩, some .rook⟩).data =
          [f1, digitChar r1, f2, digitChar r2, 'r'] := by
        simp [serializeMove, serializeSquare, showNat, UciPiece.asChar, data_append, hd1, hd2]
      rw [hdata]
      simp only [parseMoveTok]
      rw [if_pos ⟨hf1, hr1, hf2, hr2⟩, hv1, hv2]
      rfl
    | queen =>
      have hdata : (serializeMove ⟨⟨f1, r1⟩, ⟨f2, r2⟩, some .queen⟩).data =
          [f1, digitChar r1, f2, digitChar r2, 'q'] := by
        simp [serializeMove, serializeSquare, showNat, UciPiece.asChar, data_append, hd1, hd2]
      rw [hdata]
      simp only [parseMoveTok]
      rw [if_pos ⟨hf1, hr1, hf2, hr2⟩, hv1, hv2]
      rfl
    | king =>
      have hdata : (serializeMove ⟨⟨f1, r1⟩, ⟨f2, r2⟩, some .king⟩).data =
          [f1, digitChar r1, f2, digitChar r2, 'k'] := by
        simp [serializeMove, serializeSquare, showNat, UciPiece.asChar, data_append, hd1, hd2]
      rw [hdata]
      simp only [parseMoveTok]
      rw [if_pos ⟨hf1, hr1, hf2, hr2⟩, hv1, hv2]
      rfl

/-- Serialized moves of a re-readable list are all clean tokens. -/
theorem moveToks_all_tokOK (ms : List UciMove) (h : ms.all moveOK = true) :
    (moveToks ms).all tokOK = true := by
  rw [List.all_eq_true] at h ⊢
  intro w hw
  simp only [moveToks, List.mem_map] at hw
  obtain ⟨m, hm, rfl⟩ := hw
  exact serializeMove_tokOK m (h m hm)

/-- The move walk consumes a whole serialized re-readable move list. -/
theorem takeMoves_moveToks (ms : List UciMove) (h : ms.all moveOK = true) :
    takeMoves (moveToks ms) = (ms, []) := by
  induction ms with
  | nil => simp [takeMoves, moveToks]
  | cons m rest ih =>
    simp only [List.all_cons, Bool.and_eq_true] at h
    simp only [moveToks, List.map_cons, takeMoves, parseMoveTok_serializeMove m h.1]
    simp only [moveToks] at ih
    rw [ih h.2]

end VampircUci


namespace VampircUci

/-! ## Line glue for the round trip -/

/-- One step of `leadTok`. -/
theorem leadTok_cons (t : List Char) (ts : List (List Char)) :
    leadTok (t :: ts) = ' ' :: (t ++ leadTok ts) := rfl

/-- Space-led tokens are a space and their canonical join. -/
theorem leadTok_cons_joinTok (t : List Char) (ts : List (List Char)) :
    leadTok (t :: ts) = ' ' :: joinTok (t :: ts) := by
  rw [joinTok_cons_leadTok]
  simp [leadTok]

/-- A canonical text is nonempty. -/
theorem canonicalStr_data_ne_nil {s : String} (h : canonicalStr s = true) :
    s.data ≠ [] := by
  obtain ⟨ht, hj⟩ := canonicalStr_iff h
  cases hw : words s.data with
  | nil => rw [hw] at ht; simp [tokListOK] at ht
  | cons t ts =>
    rw [hw] at ht hj
    have htok : tokOK t = true := tokListOK_mem ht t (by simp)
    rw [joinTok_cons_leadTok] at hj
    intro hnil
    rw [hnil] at hj
    exact tokOK_ne_nil htok (List.append_eq_nil.mp hj).1

/-- The word list of a canonical text is a cons. -/
theorem canonicalStr_words_cons {s : String} (h : canonicalStr s = true) :
    ∃ t ts, words s.data = t :: ts := by
  obtain ⟨ht, _⟩ := canonicalStr_iff h
  cases hw : words s.data with
  | nil => rw [hw] at ht; simp [tokListOK] at ht
  | cons t ts => exact ⟨t, ts, rfl⟩

/-- The `all tokOK` part of a canonical text's token list. -/
theorem canonicalStr_all_tokOK {s : String} (h : canonicalStr s = true) :
    (words s.data).all tokOK = true := by
  obtain ⟨ht, _⟩ := canonicalStr_iff h
  simp only [tokListOK, Bool.and_eq_true] at ht
  exact ht.2

/-- Space-led canonical tokens are a space and the original text. -/
theorem leadTok_words {s : String} (h : canonicalStr s = true) :
    leadTok (words s.data) = ' ' :: s.data := by
  obtain ⟨t, ts, hw⟩ := canonicalStr_words_cons h
  obtain ⟨_, hj⟩ := canonicalStr_iff h
  rw [hw, leadTok_cons_joinTok, ← hw, hj]

/-- `parse_one` on a line given as a command token plus space-led tokens. -/
theorem parse_one_words (s : String) (w : List Char) (T : List (List Char)) (m : UciMessage)
    (hdata : s.data = w ++ leadTok T) (hw : tokOK w = true) (hT : T.all tokOK = true)
    (hm : parseLine s.data = .msg m) : parse_one s = some m := by
  refine parse_one_of_parseLine s m ?_ ?_ hm
  · rw [hdata, List.all_append]
    simp [tokOK_all_lineChar hw, leadTok_all_lineChar T hT]
  · rw [hdata]
    intro hnil
    exact tokOK_ne_nil hw (List.append_eq_nil.mp hnil).1

/-- The word split of such a line. -/
theorem words_of_lead {s : String} {w : List Char} {T : List (List Char)}
    (hdata : s.data = w ++ leadTok T) (hw : tokOK w = true) (hT : T.all tokOK = true) :
    words s.data = w :: T := by
  rw [hdata]
  exact words_tok_leadTok w T hw hT

/-- Dispatch of a `position` line. -/
theorem parseLine_position {l : List Char} {toks : List (List Char)}
    (h : words l = "position".data :: toks) : parseLine l = parsePosition toks := by
  simp only [parseLine, h]
  rfl

/-- Dispatch of an `id` line. -/
theorem parseLine_id {l : List Char} {toks : List (List Char)}
    (h : words l = "id".data :: toks) : parseLine l = parseId toks := by
  simp only [parseLine, h]
  rfl

/-- Dispatch of a `bestmove` line. -/
theorem parseLine_bestmove {l : List Char} {toks : List (List Char)}
    (h : words l = "bestmove".data :: toks) : parseLine l = parseBestMove toks := by
  simp only [parseLine, h]
  rfl

/-- Dispatch of an `option` line. -/
theorem parseLine_option {l : List Char} {toks : List (List Char)}
    (h : words l = "option".data :: toks) : parseLine l = parseOptionCmd toks := by
  simp only [parseLine, h]
  rfl

/-- Dispatch of a `go` line. -/
theorem parseLine_go {l : List Char} {toks : List (List Char)}
    (h : words l = "go".data :: toks) :
    parseLine l =
      (match goLoop GoState.init false toks with
       | .done st => .msg (buildGo st)
       | .noMatch => .noMatch
       | .panicked => .panicked) := by
  simp only [parseLine, h]
  rfl

/-- Dispatch of an `info` line. -/
theorem parseLine_info {l : List Char} {toks : List (List Char)}
    (h : words l = "info".data :: toks) :
    parseLine l =
      (match infoLoop [] .plain toks with
       | .done attrs => .msg (.info attrs)
       | .noMatch => .noMatch
       | .panicked => .panicked) := by
  simp only [parseLine, h]
  rfl

end VampircUci

namespace VampircUci

/-! ## Round trip: id, bestmove, setoption, register -/

/-- The `id name` builder on a canonical capture. -/
theorem parseId_name (N : List (List Char)) (hN : tokListOK N = true) :
    parseId ("name".data :: N) = .msg (.id (some ⟨joinTok N⟩) none) := by
  obtain ⟨a, as, rfl⟩ : ∃ a as, N = a :: as := by
    cases N with
    | nil => simp [tokListOK] at hN
    | cons a as => exact ⟨a, as, rfl⟩
  simp only [parseId, List.isEmpty_cons, Bool.false_eq_true, if_false]
  rw [if_pos (by decide : lower "name".data = "name".data)]

/-- The `id author` builder on a canonical capture. -/
theorem parseId_author (A : List (List Char)) (hA : tokListOK A = true) :
    parseId ("author".data :: A) = .msg (.id none (some ⟨joinTok A⟩)) := by
  obtain ⟨a, as, rfl⟩ : ∃ a as, A = a :: as := by
    cases A with
    | nil => simp [tokListOK] at hA
    | cons a as => exact ⟨a, as, rfl⟩
  simp only [parseId, List.isEmpty_cons, Bool.false_eq_true, if_false]
  rw [if_neg (by decide : ¬ lower "author".data = "name".data),
    if_pos (by decide : lower "author".data = "author".data)]

/-- Round trip of an `id` message with exactly one populated field. -/
theorem roundtrip_id (name author : Option String)
    (h : (match name, author with
          | some n, none => canonicalStr n
          | none, some a => canonicalStr a
          | _, _ => false) = true) :
    parse_one (serialize (.id name author)) = some (.id name author) := by
  match name, author, h with
  | some n, none, h =>
    obtain ⟨ht, hj⟩ := canonicalStr_iff h
    have hdata : (serialize (.id (some n) none)).data =
        "id".data ++ leadTok ("name".data :: words n.data) := by
      rw [show serialize (.id (some n) none) = "id " ++ ("name " ++ n) from rfl,
        data_append, data_append, leadTok_cons, leadTok_words h]
      rfl
    have hT : ("name".data :: words n.data).all tokOK = true := by
      simp only [List.all_cons, Bool.and_eq_true]
      exact ⟨by decide, canonicalStr_all_tokOK h⟩
    refine parse_one_words _ _ _ _ hdata (by decide) hT ?_
    rw [parseLine_id (words_of_lead hdata (by decide) hT), parseId_name _ ht, hj, mk_data]
  | none, some a, h =>
    obtain ⟨ht, hj⟩ := canonicalStr_iff h
    have hdata : (serialize (.id none (some a))).data =
        "id".data ++ leadTok ("author".data :: words a.data) := by
      rw [show serialize (.id none (some a)) = "id " ++ ("author " ++ a) from rfl,
        data_append, data_append, leadTok_cons, leadTok_words h]
      rfl
    have hT : ("author".data :: words a.data).all tokOK = true := by
      simp only [List.all_cons, Bool.and_eq_true]
      exact ⟨by decide, canonicalStr_all_tokOK h⟩
    refine parse_one_words _ _ _ _ hdata (by decide) hT ?_
    rw [parseLine_id (words_of_lead hdata (by decide) hT), parseId_author _ ht, hj, mk_data]

/-- Round trip of a `bestmove` message over re-readable moves. -/
theorem roundtrip_bestmove (best : UciMove) (ponder : Option UciMove)
    (hb : moveOK best = true)
    (hp : (match ponder with
           | some p => moveOK p
           | none => true) = true) :
    parse_one (serialize (.bestMove best ponder)) = some (.bestMove best ponder) := by
  cases ponder with
  | none =>
    have hdata : (serialize (.bestMove best none)).data =
        "bestmove".data ++ leadTok [(serializeMove best).data] := by
      rw [show serialize (.bestMove best none) = "bestmove " ++ serializeMove best ++ "" from rfl,
        data_append, data_append, leadTok_cons]
      simp [leadTok]
    have hT : [(serializeMove best).data].all tokOK = true := by
      simp [serializeMove_tokOK best hb]
    refine parse_one_words _ _ _ _ hdata (by decide) hT ?_
    rw [parseLine_bestmove (words_of_lead hdata (by decide) hT)]
    simp only [parseBestMove, parseMoveTok_serializeMove best hb]
  | some p =>
    have hdata : (serialize (.bestMove best (some p))).data =
        "bestmove".data ++
          leadTok [(serializeMove best).data, "ponder".data, (serializeMove p).data] := by
      rw [show serialize (.bestMove best (some p)) =
        "bestmove " ++ serializeMove best ++ (" ponder " ++ serializeMove p) from rfl,
        data_append, data_append, data_append, leadTok_cons, leadTok_cons, leadTok_cons]
      simp [leadTok]
    have hT : [(serializeMove best).data, "ponder".data, (serializeMove p).data].all tokOK
        = true := by
      simp only [List.all_cons, Bool.and_eq_true]
      exact ⟨serializeMove_tokOK best hb, by decide, serializeMove_tokOK p hp, by decide⟩
    refine parse_one_words _ _ _ _ hdata (by decide) hT ?_
    rw [parseLine_bestmove (words_of_lead hdata (by decide) hT)]
    simp only [parseBestMove, parseMoveTok_serializeMove best hb]
    rw [if_pos (by decide : lower "ponder".data = "ponder".data),
      parseMoveTok_serializeMove p hp]

/-- Round trip of a `setoption` message with a canonical name and value. -/
theorem roundtrip_setoption (n v : String)
    (hn : canonicalStr n = true) (hkw : strAvoids n ["value".data] = true)
    (hv : canonicalStr v = true) :
    parse_one (serialize (.setOption n (some v))) = some (.setOption n (some v)) := by
  obtain ⟨hnt, hnj⟩ := canonicalStr_iff hn
  obtain ⟨hvt, hvj⟩ := canonicalStr_iff hv
  have hvne : ¬ (v.length = 0) := by
    have hlen : v.length = v.data.length := rfl
    rw [hlen]
    simp only [List.length_eq_zero]
    exact canonicalStr_data_ne_nil hv
  have hdata : (serialize (.setOption n (some v))).data =
      "setoption".data ++
        leadTok ("name".data :: (words n.data ++ "value".data :: words v.data)) := by
    rw [show serialize (.setOption n (some v)) =
      "setoption name " ++ n ++ (if v.length = 0 then " value <empty>" else " value " ++ v)
      from rfl, if_neg hvne, data_append, data_append, data_append,
      leadTok_cons, leadTok_append, leadTok_words hn, leadTok_cons, leadTok_words hv]
    rfl
  have hT : ("name".data :: (words n.data ++ "value".data :: words v.data)).all tokOK = true := by
    simp only [List.all_cons, List.all_append, Bool.and_eq_true]
    exact ⟨by decide, canonicalStr_all_tokOK hn, by decide, canonicalStr_all_tokOK hv⟩
  have hNol : ∀ t ∈ words n.data, ¬ (lower t = "value".data) := by
    intro t ht hcontra
    have := strAvoids_iff hkw t ht
    simp [hcontra] at this
  refine parse_one_words _ _ _ _ hdata (by decide) hT ?_
  rw [parseLine_setoption (words_of_lead hdata (by decide) hT),
    parseSetOption_name_value _ _ hnt hNol (by
      obtain ⟨vt, vts, hvw⟩ := canonicalStr_words_cons hv
      rw [hvw]
      simp),
    trimBoth_joinTok _ hnt, hnj, hvj, mk_data, mk_data]

/-- Round trip of a fully populated `register` message. -/
theorem roundtrip_register (n c : String)
    (hn : canonicalStr n = true) (hnkw : strAvoids n ["code".data] = true)
    (hc : canonicalStr c = true) :
    parse_one (serialize (.register false (some n) (some c))) =
      some (.register false (some n) (some c)) := by
  obtain ⟨hnt, hnj⟩ := canonicalStr_iff hn
  obtain ⟨hct, hcj⟩ := canonicalStr_iff hc
  have hdata : (serialize (.register false (some n) (some c))).data =
      "register".data ++
        leadTok ("name".data :: (words n.data ++ "code".data :: words c.data)) := by
    rw [show serialize (.register false (some n) (some c)) =
      "register " ++ ("name " ++ n ++ " ") ++ ("code " ++ c) from rfl,
      data_append, data_append, data_append, data_append, data_append,
      leadTok_cons, leadTok_append, leadTok_words hn, leadTok_cons, leadTok_words hc]
    simp
  have hT : ("name".data :: (words n.data ++ "code".data :: words c.data)).all tokOK = true := by
    simp only [List.all_cons, List.all_append, Bool.and_eq_true]
    exact ⟨by decide, canonicalStr_all_tokOK hn, by decide, canonicalStr_all_tokOK hc⟩
  have hNol : ∀ t ∈ words n.data, ¬ (lower t = "code".data) := by
    intro t ht hcontra
    have := strAvoids_iff hnkw t ht
    simp [hcontra] at this
  refine parse_one_words _ _ _ _ hdata (by decide) hT ?_
  rw [parseLine_register (words_of_lead hdata (by decide) hT),
    parseRegister_name_code _ _ hnt hNol hct]
  rw [registerCode, hnj, hcj, mk_data, mk_data]

end VampircUci

namespace VampircUci

/-! ## Round trip: position -/

/-- The `position startpos moves ...` builder on re-readable moves. -/
theorem parsePosition_startpos_moves (ms : List UciMove) (h : ms.all moveOK = true) :
    parsePosition ("startpos".data :: "moves".data :: moveToks ms) =
      .msg (.position true none ms) := by
  simp only [parsePosition]
  rw [if_pos (by decide : lower "startpos".data = "startpos".data),
    if_pos (by decide : lower "moves".data = "moves".data),
    takeMoves_moveToks ms h]
  simp

/-- The `position fen ...` builder without moves. -/
theorem parsePosition_fen (F : List (List Char)) (hF : tokListOK F = true)
    (havoid : ∀ t ∈ F, ¬ (lower t = "moves".data)) (hfen : fenOK F = true) :
    parsePosition ("fen".data :: F) = .msg (.position false (some ⟨⟨joinTok F⟩⟩) []) := by
  have hx : ∀ t ∈ F, (fun t => decide ¬(lower t = "moves".data)) t = true :=
    fun t ht => decide_eq_true (havoid t ht)
  obtain ⟨a, as, rfl⟩ : ∃ a as, F = a :: as := by
    cases F with
    | nil => simp [tokListOK] at hF
    | cons a as => exact ⟨a, as, rfl⟩
  simp only [parsePosition]
  rw [if_neg (by decide : ¬ lower "fen".data = "startpos".data),
    if_pos (by decide : lower "fen".data = "fen".data),
    List.takeWhile_eq_self_iff.mpr hx, List.dropWhile_eq_nil_iff.mpr hx, if_pos hfen]

/-- The `position fen ... moves ...` builder. -/
theorem parsePosition_fen_moves (F : List (List Char)) (ms : List UciMove)
    (hF : tokListOK F = true) (havoid : ∀ t ∈ F, ¬ (lower t = "moves".data))
    (hfen : fenOK F = true) (hms : ms.all moveOK = true) :
    parsePosition ("fen".data :: (F ++ "moves".data :: moveToks ms)) =
      .msg (.position false (some ⟨⟨joinTok F⟩⟩) ms) := by
  have hx : ∀ t ∈ F, (fun t => decide ¬(lower t = "moves".data)) t = true :=
    fun t ht => decide_eq_true (havoid t ht)
  have hy : (fun t => decide ¬(lower t = "moves".data)) "moves".data = false := by decide
  obtain ⟨a, as, rfl⟩ : ∃ a as, F = a :: as := by
    cases F with
    | nil => simp [tokListOK] at hF
    | cons a as => exact ⟨a, as, rfl⟩
  have htw : List.takeWhile (fun t => decide ¬(lower t = "moves".data))
      (a :: (as ++ "moves".data :: moveToks ms)) = a :: as := by
    have := takeWhile_append_stop (a :: as) "moves".data (moveToks ms) hx hy
    simpa using this
  have hdw : List.dropWhile (fun t => decide ¬(lower t = "moves".data))
      (a :: (as ++ "moves".data :: moveToks ms)) = "moves".data :: moveToks ms := by
    have := dropWhile_append_stop (a :: as) "moves".data (moveToks ms) hx hy
    simpa using this
  simp only [List.cons_append, parsePosition]
  rw [if_neg (by decide : ¬ lower "fen".data = "startpos".data),
    if_pos (by decide : lower "fen".data = "fen".data), htw, hdw, if_pos hfen]
  simp [takeMoves_moveToks ms hms]

/-- Round trip of a `position` message. -/
theorem roundtrip_position (startpos : Bool) (fen : Option UciFen) (moves : List UciMove)
    (h : (moves.all moveOK &&
      (if startpos then fen.isNone
       else
         match fen with
         | some f =>
           canonicalStr f.fen && strAvoids f.fen ["moves".data] && fenOK (words f.fen.data)
         | none => false)) = true) :
    parse_one (serialize (.position startpos fen moves)) =
      some (.position startpos fen moves) := by
  simp only [Bool.and_eq_true] at h
  obtain ⟨hmv, hrest⟩ := h
  cases startpos with
  | true =>
    have hfen : fen = none := by
      cases fen with
      | none => rfl
      | some f => simp at hrest
    subst hfen
    cases moves with
    | nil => decide
    | cons m rest =>
      have hdata : (serialize (.position true none (m :: rest))).data =
          "position".data ++
            leadTok ("startpos".data :: "moves".data :: moveToks (m :: rest)) := by
        rw [show serialize (.position true none (m :: rest)) =
          "position " ++ "startpos" ++
            (if (m :: rest).length > 0 then
              " moves" ++ String.join ((m :: rest).map (fun mv => " " ++ serializeMove mv))
             else "") from rfl,
          if_pos (by simp : (m :: rest).length > 0),
          data_append, data_append, data_append, movesLead_data,
          leadTok_cons, leadTok_cons]
        rfl
      have hT : ("startpos".data :: "moves".data :: moveToks (m :: rest)).all tokOK = true := by
        simp only [List.all_cons, Bool.and_eq_true]
        exact ⟨by decide, by decide, moveToks_all_tokOK _ hmv⟩
      refine parse_one_words _ _ _ _ hdata (by decide) hT ?_
      rw [parseLine_position (words_of_lead hdata (by decide) hT),
        parsePosition_startpos_moves _ hmv]
  | false =>
    cases fen with
    | none => simp at hrest
    | some f =>
    obtain ⟨ffen⟩ := f
    have hr2 : (canonicalStr ffen && strAvoids ffen ["moves".data] &&
        fenOK (words ffen.data)) = true := hrest
    simp only [Bool.and_eq_true] at hr2
    obtain ⟨⟨hcan, havstr⟩, hfenok⟩ := hr2
    obtain ⟨hft, hfj⟩ := canonicalStr_iff hcan
    have havoid : ∀ t ∈ words ffen.data, ¬ (lower t = "moves".data) := by
      intro t ht hcontra
      have := strAvoids_iff havstr t ht
      simp [hcontra] at this
    cases moves with
    | nil =>
      have hdata : (serialize (.position false (some ⟨ffen⟩) [])).data =
          "position".data ++ leadTok ("fen".data :: words ffen.data) := by
        rw [show serialize (.position false (some ⟨ffen⟩) []) =
          "position " ++ ("fen " ++ ffen) ++ "" from rfl,
          data_append, data_append, leadTok_cons, leadTok_words hcan]
        simp
      have hT : ("fen".data :: words ffen.data).all tokOK = true := by
        simp only [List.all_cons, Bool.and_eq_true]
        exact ⟨by decide, canonicalStr_all_tokOK hcan⟩
      refine parse_one_words _ _ _ _ hdata (by decide) hT ?_
      rw [parseLine_position (words_of_lead hdata (by decide) hT),
        parsePosition_fen _ hft havoid hfenok, hfj]
    | cons m rest =>
      have hdata : (serialize (.position false (some ⟨ffen⟩) (m :: rest))).data =
          "position".data ++
            leadTok ("fen".data ::
              (words ffen.data ++ "moves".data :: moveToks (m :: rest))) := by
        rw [show serialize (.position false (some ⟨ffen⟩) (m :: rest)) =
          "position " ++ ("fen " ++ ffen) ++
            (if (m :: rest).length > 0 then
              " moves" ++ String.join ((m :: rest).map (fun mv => " " ++ serializeMove mv))
             else "") from rfl,
          if_pos (by simp : (m :: rest).length > 0),
          data_append, data_append, data_append, data_append, movesLead_data,
          leadTok_cons, leadTok_append, leadTok_words hcan, leadTok_cons]
        simp
      have hT : ("fen".data ::
          (words ffen.data ++ "moves".data :: moveToks (m :: rest))).all tokOK = true := by
        simp only [List.all_cons, List.all_append, Bool.and_eq_true]
        exact ⟨by decide, canonicalStr_all_tokOK hcan, by decide, moveToks_all_tokOK _ hmv⟩
      refine parse_one_words _ _ _ _ hdata (by decide) hT ?_
      rw [parseLine_position (words_of_lead hdata (by decide) hT),
        parsePosition_fen_moves _ _ hft havoid hfenok hmv, hfj]

end VampircUci

namespace VampircUci

/-! ## Round trip: go (token shape of the serialized line) -/

/-- The serializer's `go` arm in terms of its two parts. -/
theorem serialize_go (tc : Option UciTimeControl) (sc : Option UciSearchControl) :
    serialize (.go tc sc) = "go " ++ tcStr tc ++ scStr sc := by
  rcases tc with _ | t
  · rcases sc with _ | s <;> rfl
  · cases t <;> rcases sc with _ | s <;> rfl

/-- Characters of one optional numeric clause. -/
theorem optClauseStr_data (kw : List Char) (kwsp : String) (hk : kwsp.data = kw ++ [' '])
    (o : Option Nat) :
    (optClauseStr kwsp o).data = trailTok (optClauseToks kw o) := by
  cases o with
  | none => rfl
  | some t =>
    simp [optClauseStr, optClauseToks, trailTok, data_append, hk, showNat]

/-- Characters of the serialized time-control part. -/
theorem tcStr_data (tc : Option UciTimeControl) :
    (tcStr tc).data = trailTok (timeControlToks tc) := by
  rcases tc with _ | t
  · rfl
  · cases t with
    | ponder => rfl
    | infinite => rfl
    | moveTime v =>
      simp [tcStr, timeControlToks, trailTok, data_append, showNat]
    | timeLeft wt bt wi bi mtg =>
      rw [show tcStr (some (.timeLeft wt bt wi bi mtg)) =
        optClauseStr "wtime " wt ++ optClauseStr "bt " bt ++ optClauseStr "winc " wi ++
          optClauseStr "binc " bi ++ optClauseStr "movestogo " mtg from rfl,
        data_append, data_append, data_append, data_append,
        optClauseStr_data "wtime".data "wtime " rfl wt,
        optClauseStr_data "bt".data "bt " rfl bt,
        optClauseStr_data "winc".data "winc " rfl wi,
        optClauseStr_data "binc".data "binc " rfl bi,
        optClauseStr_data "movestogo".data "movestogo " rfl mtg]
      simp [timeControlToks, trailTok_append]

/-- Characters of the serialized search-control part. -/
theorem scStr_data (sc : Option UciSearchControl) :
    (scStr sc).data = trailTok (searchControlToks sc) ++ searchMovesData sc := by
  rcases sc with _ | s
  · rfl
  · rw [show scStr (some s) =
      optClauseStr "depth " s.depth ++ optClauseStr "nodes " s.nodes ++
        optClauseStr "mate " s.mate ++
        (if s.searchMoves.isEmpty then ""
         else " searchmoves " ++
           String.join (s.searchMoves.map (fun m => serializeMove m ++ " "))) from rfl,
      data_append, data_append, data_append,
      optClauseStr_data "depth".data "depth " rfl s.depth,
      optClauseStr_data "nodes".data "nodes " rfl s.nodes,
      optClauseStr_data "mate".data "mate " rfl s.mate]
    cases hsm : s.searchMoves.isEmpty with
    | true =>
      simp [hsm, searchMovesData, searchControlToks, trailTok_append]
    | false =>
      rw [if_neg (by simp [hsm])]
      simp only [searchMovesData, searchControlToks, hsm, Bool.false_eq_true, if_false]
      rw [data_append, movesTrail_data]
      simp [trailTok_append]

/-- Characters of the whole serialized `go` line. -/
theorem serialize_go_data (tc : Option UciTimeControl) (sc : Option UciSearchControl) :
    (serialize (.go tc sc)).data =
      "go".data ++ ' ' ::
        (trailTok (timeControlToks tc ++ searchControlToks sc) ++ searchMovesData sc) := by
  rw [serialize_go, data_append, data_append, tcStr_data, scStr_data, trailTok_append]
  simp

end VampircUci

namespace VampircUci

/-! ## Round trip: go (replaying the clause walk) -/

/-- `go ponder` clause step. -/
theorem goStep_ponder (st : GoState) (rest : List (List Char)) :
    goLoop st false ("ponder".data :: rest) =
      goLoop { st with tc := some .ponder } false rest := by
  rw [goLoop.eq_def]
  rfl

/-- `go infinite` clause step. -/
theorem goStep_infinite (st : GoState) (rest : List (List Char)) :
    goLoop st false ("infinite".data :: rest) =
      goLoop { st with tc := some .infinite } false rest := by
  rw [goLoop.eq_def]
  rfl

/-- `go searchmoves` clause entry. -/
theorem goStep_searchmoves (st : GoState) (rest : List (List Char)) :
    goLoop st false ("searchmoves".data :: rest) = goLoop st true rest := by
  rw [goLoop.eq_def]
  rfl

/-- `go movetime` clause step. -/
theorem goStep_movetime (st : GoState) (v : Nat) (hv : v < 10 ^ 12)
    (rest : List (List Char)) :
    goLoop st false ("movetime".data :: showNatChars v :: rest) =
      goLoop { st with tc := some (.moveTime v) } false rest := by
  have h1 : digitsTok 12 (showNatChars v) = some v :=
    digitsTok_showNatChars 12 v (by omega) hv
  have h2 : goNumArg 3 (showNatChars v) = POut.done v := by simp [goNumArg, h1]
  rw [goLoop.eq_def]
  show (match goNumArg 3 (showNatChars v) with
    | POut.done v2 => goLoop (goApplyNum st 3 v2) false rest
    | POut.panicked => POut.panicked
    | POut.noMatch => POut.noMatch) = _
  rw [h2]
  rfl

/-- `go wtime` clause step. -/
theorem goStep_wtime (st : GoState) (v : Nat) (hv : v < 10 ^ 12)
    (rest : List (List Char)) :
    goLoop st false ("wtime".data :: showNatChars v :: rest) =
      goLoop { st with tl := true, wtime := some v } false rest := by
  have h1 : digitsTok 12 (showNatChars v) = some v :=
    digitsTok_showNatChars 12 v (by omega) hv
  have h2 : goNumArg 4 (showNatChars v) = POut.done v := by simp [goNumArg, h1]
  rw [goLoop.eq_def]
  show (match goNumArg 4 (showNatChars v) with
    | POut.done v2 => goLoop (goApplyNum st 4 v2) false rest
    | POut.panicked => POut.panicked
    | POut.noMatch => POut.noMatch) = _
  rw [h2]
  rfl

/-- `go winc` clause step. -/
theorem goStep_winc (st : GoState) (v : Nat) (hv : v < 10 ^ 12)
    (rest : List (List Char)) :
    goLoop st false ("winc".data :: showNatChars v :: rest) =
      goLoop { st with tl := true, winc := some v } false rest := by
  have h1 : digitsTok 12 (showNatChars v) = some v :=
    digitsTok_showNatChars 12 v (by omega) hv
  have h2 : goNumArg 6 (showNatChars v) = POut.done v := by simp [goNumArg, h1]
  rw [goLoop.eq_def]
  show (match goNumArg 6 (showNatChars v) with
    | POut.done v2 => goLoop (goApplyNum st 6 v2) false rest
    | POut.panicked => POut.panicked
    | POut.noMatch => POut.noMatch) = _
  rw [h2]
  rfl

/-- `go binc` clause step. -/
theorem goStep_binc (st : GoState) (v : Nat) (hv : v < 10 ^ 12)
    (rest : List (List Char)) :
    goLoop st false ("binc".data :: showNatChars v :: rest) =
      goLoop { st with tl := true, binc := some v } false rest := by
  have h1 : digitsTok 12 (showNatChars v) = some v :=
    digitsTok_showNatChars 12 v (by omega) hv
  have h2 : goNumArg 7 (showNatChars v) = POut.done v := by simp [goNumArg, h1]
  rw [goLoop.eq_def]
  show (match goNumArg 7 (showNatChars v) with
    | POut.done v2 => goLoop (goApplyNum st 7 v2) false rest
    | POut.panicked => POut.panicked
    | POut.noMatch => POut.noMatch) = _
  rw [h2]
  rfl

/-- `go movestogo` clause step. -/
theorem goStep_movestogo (st : GoState) (v : Nat) (hv : v ≤ 255)
    (rest : List (List Char)) :
    goLoop st false ("movestogo".data :: showNatChars v :: rest) =
      goLoop { st with tl := true, mtg := some v } false rest := by
  have h1 : digitsTok 3 (showNatChars v) = some v :=
    digitsTok_showNatChars 3 v (by omega) (by omega)
  have h2 : goNumArg 8 (showNatChars v) = POut.done v := by simp [goNumArg, h1, hv]
  rw [goLoop.eq_def]
  show (match goNumArg 8 (showNatChars v) with
    | POut.done v2 => goLoop (goApplyNum st 8 v2) false rest
    | POut.panicked => POut.panicked
    | POut.noMatch => POut.noMatch) = _
  rw [h2]
  rfl

/-- `go depth` clause step. -/
theorem goStep_depth (st : GoState) (v : Nat) (hv : v ≤ 255)
    (rest : List (List Char)) :
    goLoop st false ("depth".data :: showNatChars v :: rest) =
      goLoop { st with depth := some v } false rest := by
  have h1 : digitsTok 3 (showNatChars v) = some v :=
    digitsTok_showNatChars 3 v (by omega) (by omega)
  have h2 : goNumArg 9 (showNatChars v) = POut.done v := by simp [goNumArg, h1, hv]
  rw [goLoop.eq_def]
  show (match goNumArg 9 (showNatChars v) with
    | POut.done v2 => goLoop (goApplyNum st 9 v2) false rest
    | POut.panicked => POut.panicked
    | POut.noMatch => POut.noMatch) = _
  rw [h2]
  rfl

/-- `go mate` clause step. -/
theorem goStep_mate (st : GoState) (v : Nat) (hv : v ≤ 255)
    (rest : List (List Char)) :
    goLoop st false ("mate".data :: showNatChars v :: rest) =
      goLoop { st with mate := some v } false rest := by
  have h1 : digitsTok 3 (showNatChars v) = some v :=
    digitsTok_showNatChars 3 v (by omega) (by omega)
  have h2 : goNumArg 10 (showNatChars v) = POut.done v := by simp [goNumArg, h1, hv]
  rw [goLoop.eq_def]
  show (match goNumArg 10 (showNatChars v) with
    | POut.done v2 => goLoop (goApplyNum st 10 v2) false rest
    | POut.panicked => POut.panicked
    | POut.noMatch => POut.noMatch) = _
  rw [h2]
  rfl

/-- `go nodes` clause step. -/
theorem goStep_nodes (st : GoState) (v : Nat) (hv : v < 10 ^ 12)
    (rest : List (List Char)) :
    goLoop st false ("nodes".data :: showNatChars v :: rest) =
      goLoop { st with nodes := some v } false rest := by
  have h1 : digitsTok 12 (showNatChars v) = some v :=
    digitsTok_showNatChars 12 v (by omega) hv
  have h2 : goNumArg 11 (showNatChars v) = POut.done v := by simp [goNumArg, h1]
  rw [goLoop.eq_def]
  show (match goNumArg 11 (showNatChars v) with
    | POut.done v2 => goLoop (goApplyNum st 11 v2) false rest
    | POut.panicked => POut.panicked
    | POut.noMatch => POut.noMatch) = _
  rw [h2]
  rfl

/-- The `searchmoves` walk consumes a whole serialized move list. -/
theorem goLoop_sm_moves (ms : List UciMove) (h : ms.all moveOK = true) :
    ∀ st : GoState, goLoop st true (moveToks ms) = .done { st with sms := st.sms ++ ms } := by
  induction ms with
  | nil =>
    intro st
    rw [List.append_nil, goLoop.eq_def]
    rfl
  | cons m rest ih =>
    intro st
    simp only [List.all_cons, Bool.and_eq_true] at h
    have hm := parseMoveTok_serializeMove m h.1
    have hstep : goLoop st true ((serializeMove m).data :: moveToks rest) =
        goLoop { st with sms := st.sms ++ [m] } true (moveToks rest) :=
      goLoop.eq_2 st (serializeMove m).data (moveToks rest) m hm
    simp only [moveToks, List.map_cons] at hstep ⊢
    rw [hstep]
    simp only [moveToks] at ih
    rw [ih h.2]
    simp

end VampircUci

namespace VampircUci

/-! ## Round trip: go (clause composition and final state) -/

/-- An optional `wtime` clause replayed from its tokens. -/
theorem goOpt_wtime (wt : Option Nat) (h : optNatLt wt (10 ^ 12) = true) :
    ∀ (st : GoState) (rest : List (List Char)),
      goLoop st false (optClauseToks "wtime".data wt ++ rest) =
        goLoop (wtimeUpd wt st) false rest := by
  intro st rest
  cases wt with
  | none => simp [optClauseToks, wtimeUpd]
  | some v =>
    simp only [optNatLt, decide_eq_true_eq] at h
    simp only [optClauseToks, List.cons_append, List.nil_append]
    rw [goStep_wtime st v h rest]
    rfl

/-- An optional `winc` clause replayed from its tokens. -/
theorem goOpt_winc (wi : Option Nat) (h : optNatLt wi (10 ^ 12) = true) :
    ∀ (st : GoState) (rest : List (List Char)),
      goLoop st false (optClauseToks "winc".data wi ++ rest) =
        goLoop (wincUpd wi st) false rest := by
  intro st rest
  cases wi with
  | none => simp [optClauseToks, wincUpd]
  | some v =>
    simp only [optNatLt, decide_eq_true_eq] at h
    simp only [optClauseToks, List.cons_append, List.nil_append]
    rw [goStep_winc st v h rest]
    rfl

/-- An optional `binc` clause replayed from its tokens. -/
theorem goOpt_binc (bi : Option Nat) (h : optNatLt bi (10 ^ 12) = true) :
    ∀ (st : GoState) (rest : List (List Char)),
      goLoop st false (optClauseToks "binc".data bi ++ rest) =
        goLoop (bincUpd bi st) false rest := by
  intro st rest
  cases bi with
  | none => simp [optClauseToks, bincUpd]
  | some v =>
    simp only [optNatLt, decide_eq_true_eq] at h
    simp only [optClauseToks, List.cons_append, List.nil_append]
    rw [goStep_binc st v h rest]
    rfl

/-- An optional `movestogo` clause replayed from its tokens. -/
theorem goOpt_mtg (mtg : Option Nat) (h : optNatLe mtg 255 = true) :
    ∀ (st : GoState) (rest : List (List Char)),
      goLoop st false (optClauseToks "movestogo".data mtg ++ rest) =
        goLoop (mtgUpd mtg st) false rest := by
  intro st rest
  cases mtg with
  | none => simp [optClauseToks, mtgUpd]
  | some v =>
    simp only [optNatLe, decide_eq_true_eq] at h
    simp only [optClauseToks, List.cons_append, List.nil_append]
    rw [goStep_movestogo st v h rest]
    rfl

/-- An optional `depth` clause replayed from its tokens. -/
theorem goOpt_depth (d : Option Nat) (h : optNatLe d 255 = true) :
    ∀ (st : GoState) (rest : List (List Char)),
      goLoop st false (optClauseToks "depth".data d ++ rest) =
        goLoop (depthUpd d st) false rest := by
  intro st rest
  cases d with
  | none => simp [optClauseToks, depthUpd]
  | some v =>
    simp only [optNatLe, decide_eq_true_eq] at h
    simp only [optClauseToks, List.cons_append, List.nil_append]
    rw [goStep_depth st v h rest]
    rfl

/-- An optional `nodes` clause replayed from its tokens. -/
theorem goOpt_nodes (nd : Option Nat) (h : optNatLt nd (10 ^ 12) = true) :
    ∀ (st : GoState) (rest : List (List Char)),
      goLoop st false (optClauseToks "nodes".data nd ++ rest) =
        goLoop (nodesUpd nd st) false rest := by
  intro st rest
  cases nd with
  | none => simp [optClauseToks, nodesUpd]
  | some v =>
    simp only [optNatLt, decide_eq_true_eq] at h
    simp only [optClauseToks, List.cons_append, List.nil_append]
    rw [goStep_nodes st v h rest]
    rfl

/-- An optional `mate` clause replayed from its tokens. -/
theorem goOpt_mate (mt : Option Nat) (h : optNatLe mt 255 = true) :
    ∀ (st : GoState) (rest : List (List Char)),
      goLoop st false (optClauseToks "mate".data mt ++ rest) =
        goLoop (mateUpd mt st) false rest := by
  intro st rest
  cases mt with
  | none => simp [optClauseToks, mateUpd]
  | some v =>
    simp only [optNatLe, decide_eq_true_eq] at h
    simp only [optClauseToks, List.cons_append, List.nil_append]
    rw [goStep_mate st v h rest]
    rfl

/-- The time-control clauses of a well-formed `go` replay to `tcStApply`. -/
theorem goLoop_tcToks (tc : Option UciTimeControl)
    (h : tc.all timeControlOK = true) :
    ∀ (st : GoState) (rest : List (List Char)),
      goLoop st false (timeControlToks tc ++ rest) =
        goLoop (tcStApply tc st) false rest := by
  intro st rest
  rcases tc with _ | t
  · simp [timeControlToks, tcStApply]
  · cases t with
    | ponder =>
      simp only [timeControlToks, List.cons_append, List.nil_append]
      rw [goStep_ponder]
      rfl
    | infinite =>
      simp only [timeControlToks, List.cons_append, List.nil_append]
      rw [goStep_infinite]
      rfl
    | moveTime v =>
      have hv : v < 10 ^ 12 := by
        simpa [timeControlOK] using h
      simp only [timeControlToks, List.cons_append, List.nil_append]
      rw [goStep_movetime st v hv rest]
      rfl
    | timeLeft wt bt wi bi mtg =>
      have h2 : (bt.isNone && (wt.isSome || wi.isSome || bi.isSome || mtg.isSome) &&
          optNatLt wt (10 ^ 12) && optNatLt wi (10 ^ 12) && optNatLt bi (10 ^ 12) &&
          optNatLe mtg 255) = true := h
      simp only [Bool.and_eq_true] at h2
      obtain ⟨⟨⟨⟨⟨hbt, _⟩, hwt⟩, hwi⟩, hbi⟩, hmtg⟩ := h2
      obtain rfl : bt = none := by
        cases bt with
        | none => rfl
        | some v => simp at hbt
      rw [show timeControlToks (some (.timeLeft wt none wi bi mtg)) =
        optClauseToks "wtime".data wt ++ (optClauseToks "bt".data none ++
          (optClauseToks "winc".data wi ++ (optClauseToks "binc".data bi ++
            optClauseToks "movestogo".data mtg))) from by
          simp [timeControlToks, List.append_assoc]]
      rw [List.append_assoc, List.append_assoc, List.append_assoc, List.append_assoc]
      rw [goOpt_wtime wt hwt]
      rw [show (optClauseToks "bt".data none : List (List Char)) ++
        (optClauseToks "winc".data wi ++ (optClauseToks "binc".data bi ++
          (optClauseToks "movestogo".data mtg ++ rest))) =
        optClauseToks "winc".data wi ++ (optClauseToks "binc".data bi ++
          (optClauseToks "movestogo".data mtg ++ rest)) from rfl]
      rw [goOpt_winc wi hwi, goOpt_binc bi hbi, goOpt_mtg mtg hmtg]
      rfl

/-- The search-control clauses and `searchmoves` tail of a well-formed `go`
replay to `scStApply`. -/
theorem goLoop_scToks (sc : Option UciSearchControl)
    (h : sc.all searchControlOK = true) :
    ∀ st : GoState,
      goLoop st false (searchControlToks sc ++ searchMovesToks sc) =
        .done (scStApply sc st) := by
  intro st
  rcases sc with _ | s
  · simp only [searchControlToks, searchMovesToks, List.nil_append]
    rw [goLoop.eq_def]
    rfl
  · obtain ⟨sms, mate, depth, nodes⟩ := s
    have h2 : (!(UciSearchControl.isEmpty ⟨sms, mate, depth, nodes⟩) &&
        sms.all moveOK && optNatLe depth 255 && optNatLe mate 255 &&
        optNatLt nodes (10 ^ 12)) = true := h
    simp only [Bool.and_eq_true] at h2
    obtain ⟨⟨⟨⟨_, hmv⟩, hd⟩, hmt⟩, hnd⟩ := h2
    rw [show searchControlToks (some ⟨sms, mate, depth, nodes⟩) =
      optClauseToks "depth".data depth ++ (optClauseToks "nodes".data nodes ++
        optClauseToks "mate".data mate) from by
        simp [searchControlToks, List.append_assoc]]
    rw [List.append_assoc, List.append_assoc]
    rw [goOpt_depth depth hd, goOpt_nodes nodes hnd, goOpt_mate mate hmt]
    cases hsm : sms.isEmpty with
    | true =>
      obtain rfl : sms = [] := by
        cases sms with
        | nil => rfl
        | cons a as => simp at hsm
      simp only [searchMovesToks, moveToks, List.isEmpty_nil, if_true]
      rw [goLoop.eq_def]
      simp [scStApply]
    | false =>
      rw [show searchMovesToks (some ⟨sms, mate, depth, nodes⟩) =
        "searchmoves".data :: moveToks sms from by
          simp [searchMovesToks, hsm]]
      rw [goStep_searchmoves, goLoop_sm_moves sms hmv]
      simp only [scStApply]
      rw [if_neg (by simp [hsm])]

end VampircUci

namespace VampircUci

/-! ## Round trip: go (assembling the built message) -/

/-- The search-control replay leaves the time-control fields alone. -/
theorem scStApply_tcFields (sc : Option UciSearchControl) (st : GoState) :
    (scStApply sc st).tc = st.tc ∧ (scStApply sc st).tl = st.tl ∧
    (scStApply sc st).wtime = st.wtime ∧ (scStApply sc st).btime = st.btime ∧
    (scStApply sc st).winc = st.winc ∧ (scStApply sc st).binc = st.binc ∧
    (scStApply sc st).mtg = st.mtg := by
  rcases sc with _ | s
  · exact ⟨rfl, rfl, rfl, rfl, rfl, rfl, rfl⟩
  · obtain ⟨sms, mate, depth, nodes⟩ := s
    simp only [scStApply]
    split <;>
      rcases depth with _ | d <;> rcases nodes with _ | n <;> rcases mate with _ | m <;>
        simp [depthUpd, nodesUpd, mateUpd]

/-- The time-control replay leaves the search-control fields alone. -/
theorem tcStApply_scFields (tc : Option UciTimeControl) (st : GoState) :
    (tcStApply tc st).sms = st.sms ∧ (tcStApply tc st).mate = st.mate ∧
    (tcStApply tc st).depth = st.depth ∧ (tcStApply tc st).nodes = st.nodes := by
  rcases tc with _ | t
  · exact ⟨rfl, rfl, rfl, rfl⟩
  · cases t with
    | ponder => exact ⟨rfl, rfl, rfl, rfl⟩
    | infinite => exact ⟨rfl, rfl, rfl, rfl⟩
    | moveTime v => exact ⟨rfl, rfl, rfl, rfl⟩
    | timeLeft wt bt wi bi mtg =>
      rcases wt with _ | a <;> rcases wi with _ | b <;> rcases bi with _ | c <;>
        rcases mtg with _ | d <;>
        simp [tcStApply, wtimeUpd, wincUpd, bincUpd, mtgUpd]

/-- The replayed time-control state rebuilds exactly the serialized
time control. -/
theorem tcStApply_result (tc : Option UciTimeControl)
    (h : tc.all timeControlOK = true) :
    (if (tcStApply tc GoState.init).tl then
       some (UciTimeControl.timeLeft (tcStApply tc GoState.init).wtime
         (tcStApply tc GoState.init).btime (tcStApply tc GoState.init).winc
         (tcStApply tc GoState.init).binc (tcStApply tc GoState.init).mtg)
     else (tcStApply tc GoState.init).tc) = tc := by
  rcases tc with _ | t
  · rfl
  · cases t with
    | ponder => rfl
    | infinite => rfl
    | moveTime v => rfl
    | timeLeft wt bt wi bi mtg =>
      have h2 : (bt.isNone && (wt.isSome || wi.isSome || bi.isSome || mtg.isSome) &&
          optNatLt wt (10 ^ 12) && optNatLt wi (10 ^ 12) && optNatLt bi (10 ^ 12) &&
          optNatLe mtg 255) = true := h
      simp only [Bool.and_eq_true] at h2
      obtain ⟨⟨⟨⟨⟨hbt, hsome⟩, _⟩, _⟩, _⟩, _⟩ := h2
      obtain rfl : bt = none := by
        cases bt with
        | none => rfl
        | some v => simp at hbt
      rcases wt with _ | a <;> rcases wi with _ | b <;> rcases bi with _ | c <;>
        rcases mtg with _ | d <;>
        simp_all [tcStApply, wtimeUpd, wincUpd, bincUpd, mtgUpd, GoState.init]

/-- The replayed search-control state rebuilds exactly the serialized
search control. -/
theorem scStApply_result (sc : Option UciSearchControl) (st : GoState)
    (h : sc.all searchControlOK = true)
    (hsms : st.sms = []) (hmate : st.mate = none) (hdepth : st.depth = none)
    (hnodes : st.nodes = none) :
    (if (UciSearchControl.mk (scStApply sc st).sms (scStApply sc st).mate
       (scStApply sc st).depth (scStApply sc st).nodes).isEmpty then none
     else some (UciSearchControl.mk (scStApply sc st).sms (scStApply sc st).mate
       (scStApply sc st).depth (scStApply sc st).nodes)) = sc := by
  rcases sc with _ | s
  · simp [scStApply, hsms, hmate, hdepth, hnodes, UciSearchControl.isEmpty]
  · obtain ⟨sms, mate, depth, nodes⟩ := s
    have h2 : (!(UciSearchControl.isEmpty ⟨sms, mate, depth, nodes⟩) &&
        sms.all moveOK && optNatLe depth 255 && optNatLe mate 255 &&
        optNatLt nodes (10 ^ 12)) = true := h
    simp only [Bool.and_eq_true] at h2
    obtain ⟨⟨⟨⟨hne, _⟩, _⟩, _⟩, _⟩ := h2
    rcases depth with _ | d <;> rcases nodes with _ | n <;> rcases mate with _ | m <;>
      cases sms <;>
      simp_all [scStApply, depthUpd, nodesUpd, mateUpd, UciSearchControl.isEmpty,
        hsms, hmate, hdepth, hnodes]

/-- The built message of the fully replayed `go` state. -/
theorem buildGo_final (tc : Option UciTimeControl) (sc : Option UciSearchControl)
    (htc : tc.all timeControlOK = true)
    (hsc : sc.all searchControlOK = true) :
    buildGo (scStApply sc (tcStApply tc GoState.init)) = .go tc sc := by
  obtain ⟨h1, h2, h3, h4, h5, h6, h7⟩ := scStApply_tcFields sc (tcStApply tc GoState.init)
  obtain ⟨g1, g2, g3, g4⟩ := tcStApply_scFields tc GoState.init
  simp only [buildGo]
  rw [h1, h2, h3, h4, h5, h6, h7]
  rw [tcStApply_result tc htc]
  rw [scStApply_result sc (tcStApply tc GoState.init) hsc (g1.trans rfl) (g2.trans rfl)
    (g3.trans rfl) (g4.trans rfl)]

end VampircUci

namespace VampircUci

/-! ## Round trip: go (the whole line) -/

/-- Clause tokens are clean. -/
theorem optClauseToks_all_tokOK (kw : List Char) (hkw : tokOK kw = true) (o : Option Nat) :
    (optClauseToks kw o).all tokOK = true := by
  cases o <;> simp [optClauseToks, hkw, tokOK_showNatChars]

/-- Time-control tokens are clean. -/
theorem timeControlToks_all_tokOK (tc : Option UciTimeControl) :
    (timeControlToks tc).all tokOK = true := by
  rcases tc with _ | t
  · simp [timeControlToks]
  · cases t with
    | ponder => decide
    | infinite => decide
    | moveTime v => simp [timeControlToks, tokOK_showNatChars]; decide
    | timeLeft wt bt wi bi mtg =>
      simp only [timeControlToks, List.all_append, Bool.and_eq_true]
      exact ⟨⟨⟨⟨optClauseToks_all_tokOK _ (by decide) wt,
        optClauseToks_all_tokOK _ (by decide) bt⟩,
        optClauseToks_all_tokOK _ (by decide) wi⟩,
        optClauseToks_all_tokOK _ (by decide) bi⟩,
        optClauseToks_all_tokOK _ (by decide) mtg⟩

/-- Search-control tokens are clean. -/
theorem searchControlToks_all_tokOK (sc : Option UciSearchControl) :
    (searchControlToks sc).all tokOK = true := by
  rcases sc with _ | s
  · simp [searchControlToks]
  · simp only [searchControlToks, List.all_append, Bool.and_eq_true]
    exact ⟨⟨optClauseToks_all_tokOK _ (by decide) s.depth,
      optClauseToks_all_tokOK _ (by decide) s.nodes⟩,
      optClauseToks_all_tokOK _ (by decide) s.mate⟩

/-- Words of the `searchmoves` tail. -/
theorem searchMovesData_words (sc : Option UciSearchControl)
    (h : sc.all (fun s => s.searchMoves.all moveOK) = true) :
    words (searchMovesData sc) = searchMovesToks sc := by
  rcases sc with _ | s
  · rfl
  · cases hsm : s.searchMoves.isEmpty with
    | true =>
      simp [searchMovesData, searchMovesToks, hsm]
      rfl
    | false =>
      have hmv : (s.searchMoves).all moveOK = true := h
      have ht : (moveToks s.searchMoves).all tokOK = true := moveToks_all_tokOK _ hmv
      simp only [searchMovesData, searchMovesToks, hsm, Bool.false_eq_true, if_false]
      rw [show (' ' :: "searchmoves".data ++ ' ' :: trailTok (moveToks s.searchMoves)) =
        ' ' :: ("searchmoves".data ++ ' ' :: trailTok (moveToks s.searchMoves)) from by simp]
      rw [words_space_cons, words_token_space _ _ (by decide)]
      have h5 := words_trailTok (moveToks s.searchMoves) [] ht
      rw [List.append_nil] at h5
      rw [h5, show (words ([] : List Char)) = [] from rfl, List.append_nil]

/-- Line characters of the `searchmoves` tail. -/
theorem searchMovesData_lineChar (sc : Option UciSearchControl)
    (h : sc.all (fun s => s.searchMoves.all moveOK) = true) :
    (searchMovesData sc).all lineChar = true := by
  rcases sc with _ | s
  · rfl
  · cases hsm : s.searchMoves.isEmpty with
    | true => simp [searchMovesData, hsm]
    | false =>
      have hmv : (s.searchMoves).all moveOK = true := h
      simp only [searchMovesData, hsm, Bool.false_eq_true, if_false]
      have hta := trailTok_all_lineChar (moveToks s.searchMoves) (moveToks_all_tokOK _ hmv)
      have hsh : (' ' :: "searchmoves".data ++ ' ' :: trailTok (moveToks s.searchMoves)) =
          " searchmoves ".data ++ trailTok (moveToks s.searchMoves) := rfl
      rw [hsh, List.all_append]
      exact Bool.and_eq_true_iff.mpr ⟨by decide, hta⟩

/-- Round trip of a well-formed `go` message. -/
theorem roundtrip_go (tc : Option UciTimeControl) (sc : Option UciSearchControl)
    (htc : tc.all timeControlOK = true)
    (hsc : sc.all searchControlOK = true) :
    parse_one (serialize (.go tc sc)) = some (.go tc sc) := by
  have hmv : sc.all (fun s => s.searchMoves.all moveOK) = true := by
    rcases sc with _ | s
    · rfl
    · have h2 : (!(UciSearchControl.isEmpty s) && s.searchMoves.all moveOK &&
          optNatLe s.depth 255 && optNatLe s.mate 255 &&
          optNatLt s.nodes (10 ^ 12)) = true := hsc
      simp only [Bool.and_eq_true] at h2
      exact h2.1.1.1.2
  have hT : (timeControlToks tc ++ searchControlToks sc).all tokOK = true := by
    rw [List.all_append]
    simp [timeControlToks_all_tokOK tc, searchControlToks_all_tokOK sc]
  have hdata := serialize_go_data tc sc
  have hwords : words (serialize (.go tc sc)).data =
      "go".data :: ((timeControlToks tc ++ searchControlToks sc) ++ searchMovesToks sc) := by
    rw [hdata, words_token_space _ _ (by decide), words_trailTok _ _ hT,
      searchMovesData_words sc hmv]
  have hchars : (serialize (.go tc sc)).data.all lineChar = true := by
    rw [hdata]
    simp only [List.all_append, List.all_cons, Bool.and_eq_true]
    refine ⟨by decide, by decide, ?_⟩
    exact ⟨trailTok_all_lineChar _ hT, searchMovesData_lineChar sc hmv⟩
  have hne : (serialize (.go tc sc)).data ≠ [] := by
    rw [hdata]
    simp
  refine parse_one_of_parseLine _ _ hchars hne ?_
  rw [parseLine_go hwords, List.append_assoc, goLoop_tcToks tc htc, goLoop_scToks sc hsc]
  show LineOut.msg (buildGo (scStApply sc (tcStApply tc GoState.init))) =
    LineOut.msg (UciMessage.go tc sc)
  rw [buildGo_final tc sc htc hsc]

end VampircUci

namespace VampircUci

/-! ## Round trip: option (clause walk) -/

/-- Lowercasing keeps a digit character. -/
theorem lowerChar_digit {c : Char} (h : isDigitChar c = true) : lowerChar c = c := by
  simp only [isDigitChar, decide_eq_true_eq] at h
  unfold lowerChar
  rw [if_neg]
  rintro ⟨h1, _⟩
  have := le_trans h1 h.2
  exact absurd this (by decide)

/-- A rendered integer never opens an `option` clause. -/
theorem isOptClauseKw_showIntChars (i : Int) : isOptClauseKw (showIntChars i) = false := by
  obtain ⟨c, cs, hcons⟩ := List.exists_cons_of_ne_nil (showNatChars_ne_nil i.natAbs)
  have hd : isDigitChar c = true :=
    showNatChars_all_digits i.natAbs c (by rw [hcons]; simp)
  have hc9 : c ≤ '9' := by
    simp only [isDigitChar, decide_eq_true_eq] at hd
    exact hd.2
  have key : ∀ ds : List Char, isOptClauseKw (c :: ds) = false := by
    intro ds
    simp only [isOptClauseKw, decide_eq_false_iff_not]
    rintro (h1 | h1 | h1 | h1) <;>
      · simp only [lower, List.map_cons] at h1
        injection h1 with h2 _
        rw [lowerChar_digit hd] at h2
        subst h2
        exact absurd hc9 (by decide)
  have keyM : ∀ ds : List Char, isOptClauseKw ('-' :: ds) = false := by
    intro ds
    simp only [isOptClauseKw, decide_eq_false_iff_not]
    rintro (h1 | h1 | h1 | h1) <;>
      · simp only [lower, List.map_cons] at h1
        injection h1 with h2 _
        exact absurd h2 (by decide)
  unfold showIntChars
  split
  · rw [hcons]
    exact keyM _
  · rw [hcons]
    exact key _

/-- A clean token list that avoids the clause keywords is what an `option`
value collects over. -/
theorem optTokensOK_iff {s : String} (h : optTokensOK s = true) :
    canonicalStr s = true ∧ (words s.data).all (fun t => !(isOptClauseKw t)) = true := by
  simp only [optTokensOK, Bool.and_eq_true] at h
  exact h

/-- Exit of the clause walk: flushing and restarting in plain mode. -/
theorem optLoop_exit (st : OptState) (mode : OptMode) (st2 : OptState)
    (rest : List (List Char)) (hflush : optFlush st mode = some st2)
    (hexit : optExit rest = true) :
    optLoop st mode rest = optLoop st2 .plain rest := by
  cases rest with
  | nil =>
    rw [optLoop.eq_1, optLoop.eq_1, hflush]
    rfl
  | cons w r2 =>
    have hkw : isOptClauseKw w = true := hexit
    cases mode with
    | plain =>
      have : st = st2 := by
        simp only [optFlush] at hflush
        exact Option.some.inj hflush
      rw [this]
    | defaultM toks =>
      rw [optLoop.eq_3, optLoop.eq_2, hkw, hflush]
      rfl
    | varM toks =>
      rw [optLoop.eq_4, optLoop.eq_2, hkw, hflush]
      rfl

/-- A non-keyword token run extends a collecting `default` clause. -/
theorem optLoop_collect_default (D : List (List Char))
    (hD : D.all (fun t => !(isOptClauseKw t)) = true) :
    ∀ (st : OptState) (acc : List (List Char)) (rest : List (List Char)),
      optLoop st (.defaultM acc) (D ++ rest) = optLoop st (.defaultM (acc ++ D)) rest := by
  induction D with
  | nil => intro st acc rest; simp
  | cons t ts ih =>
    intro st acc rest
    simp only [List.all_cons, Bool.and_eq_true, Bool.not_eq_eq_eq_not, Bool.not_true] at hD
    simp only [List.cons_append]
    rw [optLoop.eq_3, hD.1]
    show optLoop st (.defaultM (acc ++ [t])) (ts ++ rest) = _
    rw [ih (by simpa using hD.2) st (acc ++ [t]) rest,
      show (acc ++ [t]) ++ ts = acc ++ t :: ts by simp]

/-- A non-keyword token run extends a collecting `var` clause. -/
theorem optLoop_collect_var (D : List (List Char))
    (hD : D.all (fun t => !(isOptClauseKw t)) = true) :
    ∀ (st : OptState) (acc : List (List Char)) (rest : List (List Char)),
      optLoop st (.varM acc) (D ++ rest) = optLoop st (.varM (acc ++ D)) rest := by
  induction D with
  | nil => intro st acc rest; simp
  | cons t ts ih =>
    intro st acc rest
    simp only [List.all_cons, Bool.and_eq_true, Bool.not_eq_eq_eq_not, Bool.not_true] at hD
    simp only [List.cons_append]
    rw [optLoop.eq_4, hD.1]
    show optLoop st (.varM (acc ++ [t])) (ts ++ rest) = _
    rw [ih (by simpa using hD.2) st (acc ++ [t]) rest,
      show (acc ++ [t]) ++ ts = acc ++ t :: ts by simp]

/-- A `min` clause with a rendered integer. -/
theorem optStep_min (st : OptState) (i : Int) (h : i.natAbs < 10 ^ 18)
    (rest : List (List Char)) :
    optLoop st .plain ("min".data :: showIntChars i :: rest) =
      optLoop { st with min := some i } .plain rest := by
  have h1 : i64Tok (showIntChars i) = some i := i64Tok_showIntChars i h
  have h2 : optNumStep st (lower "min".data) (showIntChars i) =
      some { st with min := some i } := by
    rw [show optNumStep st (lower "min".data) (showIntChars i) =
      (match i64Tok (showIntChars i) with
       | some i2 =>
         if (lower "min".data) = "min".data then some { st with min := some i2 }
         else some { st with max := some i2 }
       | none => none) from rfl, h1]
    show (if (lower "min".data) = "min".data then some { st with min := some i }
      else some { st with max := some i }) = _
    rw [if_pos (by decide)]
  rw [optLoop.eq_2]
  show (match optNumStep st (lower "min".data) (showIntChars i) with
    | some st3 => optLoop st3 .plain rest
    | none => none) = _
  rw [h2]

/-- A `max` clause with a rendered integer. -/
theorem optStep_max (st : OptState) (i : Int) (h : i.natAbs < 10 ^ 18)
    (rest : List (List Char)) :
    optLoop st .plain ("max".data :: showIntChars i :: rest) =
      optLoop { st with max := some i } .plain rest := by
  have h1 : i64Tok (showIntChars i) = some i := i64Tok_showIntChars i h
  have h2 : optNumStep st (lower "max".data) (showIntChars i) =
      some { st with max := some i } := by
    rw [show optNumStep st (lower "max".data) (showIntChars i) =
      (match i64Tok (showIntChars i) with
       | some i2 =>
         if (lower "max".data) = "min".data then some { st with min := some i2 }
         else some { st with max := some i2 }
       | none => none) from rfl, h1]
    show (if (lower "max".data) = "min".data then some { st with min := some i }
      else some { st with max := some i }) = _
    rw [if_neg (by decide)]
  rw [optLoop.eq_2]
  show (match optNumStep st (lower "max".data) (showIntChars i) with
    | some st3 => optLoop st3 .plain rest
    | none => none) = _
  rw [h2]

/-- A `default` clause collecting a nonempty clean token run. -/
theorem optClause_default (D : List (List Char)) (hne : D ≠ [])
    (hD : D.all (fun t => !(isOptClauseKw t)) = true)
    (st : OptState) (rest : List (List Char)) (hexit : optExit rest = true) :
    optLoop st .plain ("default".data :: (D ++ rest)) =
      optLoop { st with default := some D } .plain rest := by
  rw [optLoop.eq_2]
  show optLoop st (.defaultM []) (D ++ rest) = _
  rw [optLoop_collect_default D hD st [] rest]
  refine optLoop_exit _ _ _ _ ?_ hexit
  simp only [optFlush, List.nil_append]
  rw [if_neg (by simpa using hne)]

/-- A `var` clause collecting a nonempty clean token run. -/
theorem optClause_var (D : List (List Char)) (hne : D ≠ [])
    (hD : D.all (fun t => !(isOptClauseKw t)) = true)
    (st : OptState) (rest : List (List Char)) (hexit : optExit rest = true) :
    optLoop st .plain ("var".data :: (D ++ rest)) =
      optLoop { st with var := st.var ++ [joinTok D] } .plain rest := by
  rw [optLoop.eq_2]
  show optLoop st (.varM []) (D ++ rest) = _
  rw [optLoop_collect_var D hD st [] rest]
  refine optLoop_exit _ _ _ _ ?_ hexit
  simp only [optFlush, List.nil_append]
  rw [if_neg (by simpa using hne)]

end VampircUci

namespace VampircUci

/-! ## Round trip: option (whole clause lists) -/

/-- A signed clause keeps the exit property of its continuation. -/
theorem optExit_optIntToks (kw : List Char) (hkw : isOptClauseKw kw = true)
    (o : Option Int) (rest : List (List Char)) (h : optExit rest = true) :
    optExit (optIntToks kw o ++ rest) = true := by
  cases o with
  | none => simpa using h
  | some i => exact hkw

/-- A lone signed clause has the exit property. -/
theorem optExit_optIntToks0 (kw : List Char) (hkw : isOptClauseKw kw = true)
    (o : Option Int) : optExit (optIntToks kw o) = true := by
  cases o with
  | none => rfl
  | some i => exact hkw

/-- A serialized `var` token run has the exit property. -/
theorem optExit_vars (var : List String) :
    optExit ((var.map (fun v => "var".data :: words v.data)).flatten) = true := by
  cases var with
  | nil => rfl
  | cons v vs => exact (by decide : isOptClauseKw "var".data = true)

/-- An optional spin `default` clause replayed from its tokens. -/
theorem optSpinDefaultStep (d : Option Int) (hd : optIntOK d = true)
    (st : OptState) (rest : List (List Char)) (hexit : optExit rest = true) :
    optLoop st .plain (optIntToks "default".data d ++ rest) =
      optLoop (match d with
               | some i => { st with default := some [showIntChars i] }
               | none => st) .plain rest := by
  cases d with
  | none => simp [optIntToks]
  | some i =>
    show optLoop st .plain ("default".data :: ([showIntChars i] ++ rest)) = _
    rw [optClause_default [showIntChars i] (by simp)
      (by simp [isOptClauseKw_showIntChars]) st rest hexit]

/-- An optional `min` clause replayed from its tokens. -/
theorem optMinStep (mn : Option Int) (h : optIntOK mn = true)
    (st : OptState) (rest : List (List Char)) :
    optLoop st .plain (optIntToks "min".data mn ++ rest) =
      optLoop (match mn with
               | some i => { st with min := some i }
               | none => st) .plain rest := by
  cases mn with
  | none => simp [optIntToks]
  | some i =>
    simp only [optIntOK, decide_eq_true_eq] at h
    simp only [optIntToks, List.cons_append, List.singleton_append]
    exact optStep_min st i h rest

/-- An optional `max` clause replayed from its tokens. -/
theorem optMaxStep (mx : Option Int) (h : optIntOK mx = true)
    (st : OptState) (rest : List (List Char)) :
    optLoop st .plain (optIntToks "max".data mx ++ rest) =
      optLoop (match mx with
               | some i => { st with max := some i }
               | none => st) .plain rest := by
  cases mx with
  | none => simp [optIntToks]
  | some i =>
    simp only [optIntOK, decide_eq_true_eq] at h
    simp only [optIntToks, List.cons_append, List.singleton_append]
    exact optStep_max st i h rest

/-- Serialized `var` clauses replayed from their tokens. -/
theorem optVarsSteps (var : List String) (hv : var.all (fun v => optTokensOK v) = true) :
    ∀ st : OptState,
      optLoop st .plain ((var.map (fun v => "var".data :: words v.data)).flatten) =
        some { st with var := st.var ++ var.map (fun v => v.data) } := by
  induction var with
  | nil =>
    intro st
    simp only [List.map_nil, List.flatten_nil]
    rw [optLoop.eq_1]
    simp [optFlush]
  | cons v vs ih =>
    intro st
    simp only [List.all_cons, Bool.and_eq_true] at hv
    obtain ⟨hcan, hjoin⟩ := canonicalStr_iff (optTokensOK_iff hv.1).1
    have hwne : words v.data ≠ [] := by
      simp only [tokListOK, Bool.and_eq_true] at hcan
      simpa using hcan.1
    simp only [List.map_cons, List.flatten_cons]
    show optLoop st .plain ("var".data :: (words v.data ++
      (List.map (fun v => "var".data :: words v.data) vs).flatten)) = _
    rw [optClause_var (words v.data) hwne (optTokensOK_iff hv.1).2 st _ (optExit_vars vs)]
    rw [ih hv.2]
    rw [hjoin]
    simp [List.append_assoc]

/-- An optional textual `default` clause replayed from its tokens. -/
theorem optStrDefaultStep (dv : String) (hdv : optTokensOK dv = true)
    (st : OptState) (rest : List (List Char)) (hexit : optExit rest = true) :
    optLoop st .plain ("default".data :: (words dv.data ++ rest)) =
      optLoop { st with default := some (words dv.data) } .plain rest := by
  obtain ⟨hcan, _⟩ := optTokensOK_iff hdv
  have hwne : words dv.data ≠ [] := by
    obtain ⟨hc, _⟩ := canonicalStr_iff hcan
    simp only [tokListOK, Bool.and_eq_true] at hc
    simpa using hc.1
  exact optClause_default (words dv.data) hwne (optTokensOK_iff hdv).2 st rest hexit

/-- The whole clause list of a well-formed option declaration replays to its
collected state. -/
theorem optLoop_cfg (cfg : UciOptionConfig) (h : optionConfigOK cfg = true) :
    optLoop ⟨none, none, none, []⟩ .plain (optCfgToks cfg) = some (optStFor cfg) := by
  cases cfg with
  | button n =>
    rw [show optCfgToks (.button n) = [] from rfl, optLoop.eq_1]
    rfl
  | check n d =>
    cases d with
    | none =>
      rw [show optCfgToks (.check n none) = [] from rfl, optLoop.eq_1]
      rfl
    | some b =>
      rw [show optCfgToks (.check n (some b)) =
        "default".data :: ([(if b then "true" else "false").data] ++ []) from by
          cases b <;> rfl]
      rw [optClause_default [(if b then "true" else "false").data] (by simp)
        (by cases b <;> decide) _ [] rfl, optLoop.eq_1]
      rfl
  | spin n d mn mx =>
    have h2 : (canonicalStr n && strAvoids n ["type".data] && optIntOK d && optIntOK mn &&
        optIntOK mx) = true := h
    simp only [Bool.and_eq_true] at h2
    obtain ⟨⟨⟨_, hd⟩, hmn⟩, hmx⟩ := h2
    rw [show optCfgToks (.spin n d mn mx) =
      optIntToks "default".data d ++ (optIntToks "min".data mn ++ (optIntToks "max".data mx ++ []))
      from by simp [optCfgToks, List.append_assoc]]
    rw [optSpinDefaultStep d hd _ _
      (optExit_optIntToks "min".data (by decide) mn _
        (optExit_optIntToks "max".data (by decide) mx [] rfl))]
    rw [optMinStep mn hmn, optMaxStep mx hmx, optLoop.eq_1]
    rcases d with _ | i <;> rcases mn with _ | a <;> rcases mx with _ | b <;> rfl
  | combo n dv var =>
    have h2 : (canonicalStr n && strAvoids n ["type".data] && optValOK dv &&
        var.all (fun v => optTokensOK v)) = true := h
    simp only [Bool.and_eq_true] at h2
    obtain ⟨⟨_, hdv⟩, hvar⟩ := h2
    cases dv with
    | none =>
      rw [show optCfgToks (.combo n none var) =
        (var.map (fun v => "var".data :: words v.data)).flatten from by simp [optCfgToks]]
      rw [optVarsSteps var hvar]
      rfl
    | some dv =>
      have hdv2 : optTokensOK dv = true := by
        simp only [optValOK, Bool.and_eq_true] at hdv
        exact hdv.1
      rw [show optCfgToks (.combo n (some dv) var) =
        "default".data :: (words dv.data ++
          (var.map (fun v => "var".data :: words v.data)).flatten) from by simp [optCfgToks]]
      rw [optStrDefaultStep dv hdv2 _ _ (optExit_vars var), optVarsSteps var hvar]
      rfl
  | str n dv =>
    have h2 : (canonicalStr n && strAvoids n ["type".data] && optValOK dv) = true := h
    simp only [Bool.and_eq_true] at h2
    obtain ⟨_, hdv⟩ := h2
    cases dv with
    | none =>
      rw [show optCfgToks (.str n none) = [] from rfl, optLoop.eq_1]
      rfl
    | some dv =>
      have hdv2 : optTokensOK dv = true := by
        simp only [optValOK, Bool.and_eq_true] at hdv
        exact hdv.1
      rw [show optCfgToks (.str n (some dv)) =
        "default".data :: (words dv.data ++ []) from by simp [optCfgToks]]
      rw [optStrDefaultStep dv hdv2 _ [] rfl, optLoop.eq_1]
      rfl

end VampircUci

namespace VampircUci

/-! ## Round trip: option (serializer shape and builder) -/

/-- Characters of the serializer's optional spin `default` clause. -/
theorem optIntClauseStr_default_data (o : Option Int) :
    (optIntClauseStr " default " o).data = leadTok (optIntToks "default".data o) := by
  cases o with
  | none => rfl
  | some i => simp [optIntClauseStr, optIntToks, leadTok, data_append, showInt, mk_data]

/-- Characters of the serializer's optional `min` clause. -/
theorem optIntClauseStr_min_data (o : Option Int) :
    (optIntClauseStr " min " o).data = leadTok (optIntToks "min".data o) := by
  cases o with
  | none => rfl
  | some i => simp [optIntClauseStr, optIntToks, leadTok, data_append, showInt, mk_data]

/-- Characters of the serializer's optional `max` clause. -/
theorem optIntClauseStr_max_data (o : Option Int) :
    (optIntClauseStr " max " o).data = leadTok (optIntToks "max".data o) := by
  cases o with
  | none => rfl
  | some i => simp [optIntClauseStr, optIntToks, leadTok, data_append, showInt, mk_data]

/-- Characters of the serializer's optional boolean default clause, as the
space-led check clause tokens. -/
theorem optCheckClauseStr_data (n : String) (d : Option Bool) :
    (optCheckClauseStr d).data = leadTok (optCfgToks (.check n d)) := by
  rcases d with _ | b
  · rfl
  · cases b <;> rfl

/-- Characters of the serializer's `var` clause run. -/
theorem varsJoin_data (var : List String) (h : var.all (fun v => optTokensOK v) = true) :
    (String.join (var.map (fun v => " var " ++ v))).data =
      leadTok ((var.map (fun v => "var".data :: words v.data)).flatten) := by
  induction var with
  | nil => rfl
  | cons v vs ih =>
    simp only [List.all_cons, Bool.and_eq_true] at h
    have hc : canonicalStr v = true := by
      have h2 : (canonicalStr v && (words v.data).all (fun t => !(isOptClauseKw t))) = true := h.1
      simp only [Bool.and_eq_true] at h2
      exact h2.1
    simp only [List.map_cons, List.flatten_cons]
    rw [join_data, List.map_cons, List.flatten_cons, ← join_data, ih h.2,
      leadTok_append, leadTok_cons, leadTok_words hc, data_append]
    rfl

/-- Re-wrapping characters into strings is the identity on a mapped list. -/
theorem map_data_mk (l : List String) :
    (l.map (fun v => v.data)).map (fun v => (⟨v⟩ : String)) = l := by
  induction l with
  | nil => rfl
  | cons a as ih => simp [ih]

/-- The check serializer arm, restated through the clause helper. -/
theorem serOpt_check (n : String) (d : Option Bool) :
    serializeOptionConfig (.check n d) =
      ("option name " ++ n ++ " type " ++ "check") ++ optCheckClauseStr d := by
  cases d <;> rfl

/-- The spin serializer arm, restated through the clause helpers. -/
theorem serOpt_spin (n : String) (d mn mx : Option Int) :
    serializeOptionConfig (.spin n d mn mx) =
      ("option name " ++ n ++ " type " ++ "spin") ++ optIntClauseStr " default " d ++
        optIntClauseStr " min " mn ++ optIntClauseStr " max " mx := by
  rcases d with _ | _ <;> rcases mn with _ | _ <;> rcases mx with _ | _ <;> rfl

/-- The combo serializer arm, restated through the clause helpers. -/
theorem serOpt_combo (n : String) (d : Option String) (var : List String) :
    serializeOptionConfig (.combo n d var) =
      ("option name " ++ n ++ " type " ++ "combo") ++ optStrClauseStr d ++
        String.join (var.map (fun v => " var " ++ v)) := by
  cases d <;> rfl

/-- The string serializer arm, restated through the clause helper. -/
theorem serOpt_str (n : String) (d : Option String) :
    serializeOptionConfig (.str n d) =
      ("option name " ++ n ++ " type " ++ "string") ++ optStrClauseStr d := by
  cases d <;> rfl

/-- The name and `type`-avoidance conjuncts of a well-formed option. -/
theorem optionConfigOK_name (cfg : UciOptionConfig) (h : optionConfigOK cfg = true) :
    canonicalStr cfg.getName = true ∧ strAvoids cfg.getName ["type".data] = true := by
  cases cfg with
  | button n =>
    have h2 : (canonicalStr n && strAvoids n ["type".data]) = true := h
    simp only [Bool.and_eq_true] at h2
    exact h2
  | check n d =>
    have h2 : (canonicalStr n && strAvoids n ["type".data]) = true := h
    simp only [Bool.and_eq_true] at h2
    exact h2
  | spin n d mn mx =>
    have h2 : (canonicalStr n && strAvoids n ["type".data] && optIntOK d && optIntOK mn &&
        optIntOK mx) = true := h
    simp only [Bool.and_eq_true] at h2
    exact h2.1.1.1
  | combo n d var =>
    have h2 : (canonicalStr n && strAvoids n ["type".data] && optValOK d &&
        var.all (fun v => optTokensOK v)) = true := h
    simp only [Bool.and_eq_true] at h2
    exact h2.1.1
  | str n d =>
    have h2 : (canonicalStr n && strAvoids n ["type".data] && optValOK d) = true := h
    simp only [Bool.and_eq_true] at h2
    exact h2.1

/-- The type keyword of every option is a well-formed token. -/
theorem tokOK_getTypeStr (cfg : UciOptionConfig) : tokOK cfg.getTypeStr.data = true := by
  cases cfg <;> rfl

/-- The tokens of an optional signed clause are well formed. -/
theorem optIntToks_all_tokOK (kw : List Char) (hkw : tokOK kw = true) (o : Option Int) :
    (optIntToks kw o).all tokOK = true := by
  cases o with
  | none => rfl
  | some i => simp [optIntToks, hkw, tokOK_showIntChars]

/-- The tokens of a serialized `var` clause run are well formed. -/
theorem varsToks_all_tokOK (var : List String) (h : var.all (fun v => optTokensOK v) = true) :
    ((var.map (fun v => "var".data :: words v.data)).flatten).all tokOK = true := by
  induction var with
  | nil => rfl
  | cons v vs ih =>
    simp only [List.all_cons, Bool.and_eq_true] at h
    have hc : canonicalStr v = true := by
      have h2 : (canonicalStr v && (words v.data).all (fun t => !(isOptClauseKw t))) = true := h.1
      simp only [Bool.and_eq_true] at h2
      exact h2.1
    simp only [List.map_cons, List.flatten_cons, List.all_append, List.all_cons,
      Bool.and_eq_true]
    exact ⟨⟨by decide, canonicalStr_all_tokOK hc⟩, ih h.2⟩

/-- Every clause token of a well-formed option declaration is well formed. -/
theorem optCfgToks_all_tokOK (cfg : UciOptionConfig) (h : optionConfigOK cfg = true) :
    (optCfgToks cfg).all tokOK = true := by
  cases cfg with
  | button n => rfl
  | check n d =>
    rcases d with _ | b
    · rfl
    · cases b <;> rfl
  | spin n d mn mx =>
    show ((optIntToks "default".data d ++ optIntToks "min".data mn ++
      optIntToks "max".data mx).all tokOK) = true
    simp only [List.all_append, Bool.and_eq_true]
    exact ⟨⟨optIntToks_all_tokOK _ (by decide) d, optIntToks_all_tokOK _ (by decide) mn⟩,
      optIntToks_all_tokOK _ (by decide) mx⟩
  | combo n d var =>
    have h2 : (canonicalStr n && strAvoids n ["type".data] && optValOK d &&
        var.all (fun v => optTokensOK v)) = true := h
    simp only [Bool.and_eq_true] at h2
    obtain ⟨⟨_, hd⟩, hvar⟩ := h2
    rcases d with _ | dv
    · show (([] ++ (var.map (fun v : String => "var".data :: words v.data)).flatten).all
        tokOK) = true
      rw [List.nil_append]
      exact varsToks_all_tokOK var hvar
    · have hdc : canonicalStr dv = true := by
        have h3 : (optTokensOK dv && !(decide (lower dv.data = "<empty>".data))) = true := hd
        simp only [Bool.and_eq_true] at h3
        have h4 : (canonicalStr dv &&
            (words dv.data).all (fun t => !(isOptClauseKw t))) = true := h3.1
        simp only [Bool.and_eq_true] at h4
        exact h4.1
      show ((("default".data :: words dv.data) ++
        (var.map (fun v : String => "var".data :: words v.data)).flatten).all tokOK) = true
      simp only [List.cons_append, List.all_cons, List.all_append, Bool.and_eq_true]
      exact ⟨by decide, canonicalStr_all_tokOK hdc, varsToks_all_tokOK var hvar⟩
  | str n d =>
    have h2 : (canonicalStr n && strAvoids n ["type".data] && optValOK d) = true := h
    simp only [Bool.and_eq_true] at h2
    obtain ⟨_, hd⟩ := h2
    rcases d with _ | dv
    · rfl
    · have hdc : canonicalStr dv = true := by
        have h3 : (optTokensOK dv && !(decide (lower dv.data = "<empty>".data))) = true := hd
        simp only [Bool.and_eq_true] at h3
        have h4 : (canonicalStr dv &&
            (words dv.data).all (fun t => !(isOptClauseKw t))) = true := h3.1
        simp only [Bool.and_eq_true] at h4
        exact h4.1
      show (("default".data :: words dv.data).all tokOK) = true
      simp only [List.all_cons, Bool.and_eq_true]
      exact ⟨by decide, canonicalStr_all_tokOK hdc⟩

end VampircUci

namespace VampircUci

/-- Characters of a serialized option declaration: the `option name ... type
...` skeleton followed by the space-led clause tokens. -/
theorem serializeOption_data (cfg : UciOptionConfig) (h : optionConfigOK cfg = true) :
    (serialize (.option cfg)).data =
      "option".data ++ leadTok ("name".data ::
        (words cfg.getName.data ++ "type".data :: cfg.getTypeStr.data :: optCfgToks cfg)) := by
  obtain ⟨hn, _⟩ := optionConfigOK_name cfg h
  cases cfg with
  | button n =>
    have hn' : canonicalStr n = true := hn
    simp only [UciOptionConfig.getName, UciOptionConfig.getTypeStr]
    show ("option name " ++ n ++ " type " ++ "button").data = _
    rw [leadTok_cons, leadTok_append, leadTok_words hn', leadTok_cons, leadTok_cons]
    simp only [data_append, List.append_assoc]
    rfl
  | check n d =>
    have hn' : canonicalStr n = true := hn
    simp only [UciOptionConfig.getName, UciOptionConfig.getTypeStr]
    rw [show serialize (.option (.check n d)) = serializeOptionConfig (.check n d) from rfl,
      serOpt_check, data_append, optCheckClauseStr_data n d,
      leadTok_cons, leadTok_append, leadTok_words hn', leadTok_cons, leadTok_cons]
    simp only [data_append, List.append_assoc]
    rfl
  | spin n d mn mx =>
    have hn' : canonicalStr n = true := hn
    simp only [UciOptionConfig.getName, UciOptionConfig.getTypeStr]
    rw [show serialize (.option (.spin n d mn mx)) =
        serializeOptionConfig (.spin n d mn mx) from rfl,
      serOpt_spin, data_append, data_append, data_append,
      optIntClauseStr_default_data d, optIntClauseStr_min_data mn, optIntClauseStr_max_data mx,
      show optCfgToks (.spin n d mn mx) =
        optIntToks "default".data d ++ optIntToks "min".data mn ++ optIntToks "max".data mx
        from rfl,
      leadTok_cons, leadTok_append, leadTok_words hn', leadTok_cons, leadTok_cons,
      leadTok_append, leadTok_append]
    simp only [data_append, List.append_assoc]
    rfl
  | combo n d var =>
    have hn' : canonicalStr n = true := hn
    simp only [UciOptionConfig.getName, UciOptionConfig.getTypeStr]
    have h2 : (canonicalStr n && strAvoids n ["type".data] && optValOK d &&
        var.all (fun v => optTokensOK v)) = true := h
    simp only [Bool.and_eq_true] at h2
    obtain ⟨⟨_, hd⟩, hvar⟩ := h2
    rcases d with _ | dv
    · rw [show serialize (.option (.combo n none var)) =
          serializeOptionConfig (.combo n none var) from rfl,
        serOpt_combo, data_append, data_append, varsJoin_data var hvar,
        show optCfgToks (.combo n none var) =
          (var.map (fun v : String => "var".data :: words v.data)).flatten from rfl,
        leadTok_cons, leadTok_append, leadTok_words hn', leadTok_cons, leadTok_cons]
      simp only [data_append, List.append_assoc]
      rfl
    · have hdc : canonicalStr dv = true := by
        have h3 : (optTokensOK dv && !(decide (lower dv.data = "<empty>".data))) = true := hd
        simp only [Bool.and_eq_true] at h3
        have h4 : (canonicalStr dv &&
            (words dv.data).all (fun t => !(isOptClauseKw t))) = true := h3.1
        simp only [Bool.and_eq_true] at h4
        exact h4.1
      rw [show serialize (.option (.combo n (some dv) var)) =
          serializeOptionConfig (.combo n (some dv) var) from rfl,
        serOpt_combo, data_append, data_append, varsJoin_data var hvar,
        show optStrClauseStr (some dv) = " default " ++ dv from rfl,
        show optCfgToks (.combo n (some dv) var) =
          ("default".data :: words dv.data) ++
            (var.map (fun v : String => "var".data :: words v.data)).flatten from rfl,
        leadTok_cons, leadTok_append, leadTok_words hn', leadTok_cons, leadTok_cons,
        leadTok_append, leadTok_cons, leadTok_words hdc]
      simp only [data_append, List.append_assoc]
      rfl
  | str n d =>
    have hn' : canonicalStr n = true := hn
    simp only [UciOptionConfig.getName, UciOptionConfig.getTypeStr]
    have h2 : (canonicalStr n && strAvoids n ["type".data] && optValOK d) = true := h
    simp only [Bool.and_eq_true] at h2
    obtain ⟨_, hd⟩ := h2
    rcases d with _ | dv
    · rw [show serialize (.option (.str n none)) =
          serializeOptionConfig (.str n none) from rfl,
        serOpt_str, data_append,
        show (optStrClauseStr none).data = ([] : List Char) from rfl, List.append_nil,
        show optCfgToks (.str n none) = ([] : List (List Char)) from rfl,
        leadTok_cons, leadTok_append, leadTok_words hn', leadTok_cons, leadTok_cons]
      simp only [data_append, List.append_assoc]
      rfl
    · have hdc : canonicalStr dv = true := by
        have h3 : (optTokensOK dv && !(decide (lower dv.data = "<empty>".data))) = true := hd
        simp only [Bool.and_eq_true] at h3
        have h4 : (canonicalStr dv &&
            (words dv.data).all (fun t => !(isOptClauseKw t))) = true := h3.1
        simp only [Bool.and_eq_true] at h4
        exact h4.1
      rw [show serialize (.option (.str n (some dv))) =
          serializeOptionConfig (.str n (some dv)) from rfl,
        serOpt_str, data_append,
        show optStrClauseStr (some dv) = " default " ++ dv from rfl,
        show optCfgToks (.str n (some dv)) = "default".data :: words dv.data from rfl,
        leadTok_cons, leadTok_append, leadTok_words hn', leadTok_cons, leadTok_cons,
        leadTok_cons, leadTok_words hdc]
      simp only [data_append, List.append_assoc]
      rfl

end VampircUci

namespace VampircUci

/-- The `option` command parser on a name capture followed by the `type`
separator: the name tokens collect up to `type`, and the clause walk feeds
the builder. -/
theorem parseOptionCmd_name_type (n : String) (hnt : tokListOK (words n.data) = true)
    (hNol : ∀ t ∈ words n.data, ¬ (lower t = "type".data))
    (tkw : List Char) (clauses : List (List Char)) :
    parseOptionCmd ("name".data :: (words n.data ++ "type".data :: tkw :: clauses)) =
      (match optLoop ⟨none, none, none, []⟩ .plain clauses with
       | some st =>
         (match buildOption ⟨joinTok (words n.data)⟩ tkw st with
          | some m => LineOut.msg m
          | none => LineOut.noMatch)
       | none => LineOut.noMatch) := by
  have hx : ∀ t ∈ words n.data, (fun t => decide ¬(lower t = "type".data)) t = true :=
    fun t ht => decide_eq_true (hNol t ht)
  have hy : (fun t => decide ¬(lower t = "type".data)) "type".data = false := by decide
  have hnN : words n.data ≠ [] := by
    cases hw : words n.data with
    | nil => rw [hw] at hnt; simp [tokListOK] at hnt
    | cons a as => simp
  simp only [parseOptionCmd]
  rw [if_pos (by decide : lower "name".data = "name".data)]
  rw [takeWhile_append_stop _ _ _ hx hy, dropWhile_append_stop _ _ _ hx hy]
  have hnem : (words n.data).isEmpty = false := by simpa using hnN
  simp only [hnem, Bool.false_eq_true, if_false]

/-- The builder reproduces a well-formed option declaration from its replayed
clause state. -/
theorem buildOption_cfg (cfg : UciOptionConfig) (h : optionConfigOK cfg = true) :
    buildOption cfg.getName cfg.getTypeStr.data (optStFor cfg) = some (.option cfg) := by
  cases cfg with
  | button n => rfl
  | check n d =>
    rcases d with _ | b
    · rfl
    · cases b <;> rfl
  | spin n d mn mx =>
    have h2 : (canonicalStr n && strAvoids n ["type".data] && optIntOK d && optIntOK mn &&
        optIntOK mx) = true := h
    simp only [Bool.and_eq_true] at h2
    obtain ⟨⟨⟨_, hd⟩, _⟩, _⟩ := h2
    rcases d with _ | i
    · rfl
    · have hb : i.natAbs < 1000000000000000000 := by
        have h3 : decide (i.natAbs < 10 ^ 18) = true := hd
        simpa using h3
      have h63 : (2 : Int) ^ 63 = 9223372036854775808 := by norm_num
      have hlo : -(2 ^ 63) ≤ i := by rw [h63]; omega
      have hhi : i ≤ 2 ^ 63 - 1 := by rw [h63]; omega
      show some (UciMessage.option (.spin n (rustParseI64 (joinTok [showIntChars i])) mn mx)) =
        some (UciMessage.option (.spin n (some i) mn mx))
      rw [show joinTok [showIntChars i] = showIntChars i from rfl,
        rustParseI64_showIntChars i hlo hhi]
  | combo n d var =>
    have h2 : (canonicalStr n && strAvoids n ["type".data] && optValOK d &&
        var.all (fun v => optTokensOK v)) = true := h
    simp only [Bool.and_eq_true] at h2
    obtain ⟨⟨_, hd⟩, _⟩ := h2
    rcases d with _ | dv
    · show some (UciMessage.option (.combo n none
        ((var.map (fun v => v.data)).map (fun v => (⟨v⟩ : String))))) = _
      rw [map_data_mk]
    · have h3 : (optTokensOK dv && !(decide (lower dv.data = "<empty>".data))) = true := hd
      simp only [Bool.and_eq_true] at h3
      have hdc : canonicalStr dv = true := by
        have h4 : (canonicalStr dv &&
            (words dv.data).all (fun t => !(isOptClauseKw t))) = true := h3.1
        simp only [Bool.and_eq_true] at h4
        exact h4.1
      have hmk : isEmptyMarker dv.data = false := by
        have h5 : (!(decide (lower dv.data = "<empty>".data))) = true := h3.2
        simp only [Bool.not_eq_eq_eq_not, Bool.not_true] at h5
        exact h5
      obtain ⟨_, hj⟩ := canonicalStr_iff hdc
      show some (UciMessage.option (.combo n
        (if isEmptyMarker (joinTok (words dv.data)) then some ""
         else some ⟨joinTok (words dv.data)⟩)
        ((var.map (fun v => v.data)).map (fun v => (⟨v⟩ : String))))) = _
      rw [hj, map_data_mk, if_neg (by rw [hmk]; simp), mk_data]
  | str n d =>
    have h2 : (canonicalStr n && strAvoids n ["type".data] && optValOK d) = true := h
    simp only [Bool.and_eq_true] at h2
    obtain ⟨_, hd⟩ := h2
    rcases d with _ | dv
    · rfl
    · have h3 : (optTokensOK dv && !(decide (lower dv.data = "<empty>".data))) = true := hd
      simp only [Bool.and_eq_true] at h3
      have hdc : canonicalStr dv = true := by
        have h4 : (canonicalStr dv &&
            (words dv.data).all (fun t => !(isOptClauseKw t))) = true := h3.1
        simp only [Bool.and_eq_true] at h4
        exact h4.1
      have hmk : isEmptyMarker dv.data = false := by
        have h5 : (!(decide (lower dv.data = "<empty>".data))) = true := h3.2
        simp only [Bool.not_eq_eq_eq_not, Bool.not_true] at h5
        exact h5
      obtain ⟨_, hj⟩ := canonicalStr_iff hdc
      show some (UciMessage.option (.str n
        (if isEmptyMarker (joinTok (words dv.data)) then some ""
         else some ⟨joinTok (words dv.data)⟩))) = _
      rw [hj, if_neg (by rw [hmk]; simp), mk_data]

/-- Round trip of a well-formed `option` declaration. -/
theorem roundtrip_option (cfg : UciOptionConfig) (h : optionConfigOK cfg = true) :
    parse_one (serialize (.option cfg)) = some (.option cfg) := by
  obtain ⟨hn, hna⟩ := optionConfigOK_name cfg h
  obtain ⟨hnt, hnj⟩ := canonicalStr_iff hn
  have hdata := serializeOption_data cfg h
  have hT : ("name".data :: (words cfg.getName.data ++
      "type".data :: cfg.getTypeStr.data :: optCfgToks cfg)).all tokOK = true := by
    simp only [List.all_cons, List.all_append, Bool.and_eq_true]
    exact ⟨by decide, canonicalStr_all_tokOK hn, by decide, tokOK_getTypeStr cfg,
      optCfgToks_all_tokOK cfg h⟩
  have hNol : ∀ t ∈ words cfg.getName.data, ¬ (lower t = "type".data) := by
    intro t ht hcontra
    have := strAvoids_iff hna t ht
    simp [hcontra] at this
  refine parse_one_words _ _ _ _ hdata (by decide) hT ?_
  rw [parseLine_option (words_of_lead hdata (by decide) hT),
    parseOptionCmd_name_type cfg.getName hnt hNol cfg.getTypeStr.data (optCfgToks cfg),
    optLoop_cfg cfg h]
  show (match buildOption ⟨joinTok (words cfg.getName.data)⟩ cfg.getTypeStr.data (optStFor cfg)
    with
    | some m => LineOut.msg m
    | none => LineOut.noMatch) = LineOut.msg (.option cfg)
  rw [hnj, mk_data, buildOption_cfg cfg h]

end VampircUci

namespace VampircUci

/-! ## Round trip: info (clause walk) -/

/-- A group-exit token is not a move token. -/
theorem exitTok_move_none {w : List Char} (h : exitTok w = true) : parseMoveTok w = none := by
  simp only [exitTok, Bool.and_eq_true] at h
  have h1 := h.1.1
  cases hp : parseMoveTok w with
  | none => rfl
  | some m => rw [hp] at h1; simp [Option.isNone] at h1

/-- A group-exit token is not a 3-digit number. -/
theorem exitTok_digits_none {w : List Char} (h : exitTok w = true) : digitsTok 3 w = none := by
  simp only [exitTok, Bool.and_eq_true] at h
  have h1 := h.1.2
  cases hp : digitsTok 3 w with
  | none => rfl
  | some v => rw [hp] at h1; simp [Option.isNone] at h1

/-- A group-exit token matches no `score` sub-clause keyword. -/
theorem exitTok_not_scoreKw {w : List Char} (h : exitTok w = true) :
    ¬ (lower w = "cp".data) ∧ ¬ (lower w = "mate".data) ∧
    ¬ (lower w = "lowerbound".data) ∧ ¬ (lower w = "upperbound".data) := by
  simp only [exitTok, Bool.and_eq_true] at h
  have h2 := h.2
  refine ⟨fun hc => ?_, fun hc => ?_, fun hc => ?_, fun hc => ?_⟩ <;>
    (rw [hc] at h2; exact absurd h2 (by decide))

/-- The exit token ends every collecting mode that can stand at a clause
seam. -/
theorem stepInfo_exit_pv {ms : List UciMove} {w : List Char} (h : exitTok w = true) :
    stepInfo (.pvM ms) w = none := by
  simp [stepInfo, exitTok_move_none h]

/-- The exit token ends a `refutation` group. -/
theorem stepInfo_exit_refut {ms : List UciMove} {w : List Char} (h : exitTok w = true) :
    stepInfo (.refutM ms) w = none := by
  simp [stepInfo, exitTok_move_none h]

/-- The exit token ends an empty `currline` group. -/
theorem stepInfo_exit_clineStart {w : List Char} (h : exitTok w = true) :
    stepInfo .clineStart w = none := by
  simp [stepInfo, exitTok_digits_none h, exitTok_move_none h]

/-- The exit token ends a collecting `currline` group. -/
theorem stepInfo_exit_cline {cpu : Option Nat} {ms : List UciMove} {w : List Char}
    (h : exitTok w = true) : stepInfo (.clineM cpu ms) w = none := by
  simp [stepInfo, exitTok_move_none h]

/-- The exit token ends a settled `score` group. -/
theorem stepInfo_exit_score {cp mate : Option Int} {lb ub : Option Bool} {w : List Char}
    (h : exitTok w = true) : stepInfo (.scoreM cp mate lb ub none) w = none := by
  obtain ⟨h1, h2, h3, h4⟩ := exitTok_not_scoreKw h
  simp [stepInfo, h1, h2, h3, h4]

/-- A flushable group at the end of the line closes to its attribute list. -/
theorem infoLoop_nil (acc : List UciInfoAttribute) (mode : InfoMode)
    (acc2 : List UciInfoAttribute) (hflush : flushInfo acc mode = some acc2) :
    infoLoop acc mode [] = .done acc2 := by
  rw [infoLoop.eq_def]
  show (match flushInfo acc mode with
        | some a => POut.done a
        | none => POut.noMatch) = _
  rw [hflush]

/-- The cons equation of the `info` clause walk. -/
theorem infoLoop_cons (acc : List UciInfoAttribute) (mode : InfoMode) (w : List Char)
    (rest : List (List Char)) :
    infoLoop acc mode (w :: rest) =
      match stepInfo mode w with
      | some mode2 => infoLoop acc mode2 rest
      | none =>
        match flushInfo acc mode with
        | none => .noMatch
        | some acc2 =>
          let c := infoKwCode w
          if c = 12 then infoLoop acc2 (.scoreM none none none none none) rest
          else if c = 14 then infoLoop acc2 (.pvM []) rest
          else if c = 15 then infoLoop acc2 (.refutM []) rest
          else if c = 16 then infoLoop acc2 .clineStart rest
          else
            match rest with
            | [] => infoEndNil c acc2
            | n :: rest2 =>
              match infoArgStep acc2 c w n rest2 with
              | .inl out => out
              | .inr acc3 => infoLoop acc3 .plain rest2 :=
  infoLoop.eq_2 acc mode w rest

/-- At a clause seam, a flushable group closes and the walk continues in
plain mode on the same token. -/
theorem infoLoop_exit (acc : List UciInfoAttribute) (mode : InfoMode)
    (acc2 : List UciInfoAttribute) (hflush : flushInfo acc mode = some acc2)
    (w : List Char) (rest : List (List Char)) (hstep : stepInfo mode w = none) :
    infoLoop acc mode (w :: rest) = infoLoop acc2 .plain (w :: rest) := by
  conv_rhs => rw [infoLoop_cons]
  rw [infoLoop_cons, hstep, hflush]
  rfl

end VampircUci

namespace VampircUci

/-- The 3-digit numeric argument of `depth`/`seldepth` re-reads its rendered
value (the builder's `parse_u8` does not panic below 256). -/
theorem infoNumArg_small (c : Nat) (hc : c = 1 ∨ c = 2) (n : Nat) (hn : n ≤ 255) :
    infoNumArg c (showNatChars n) = POut.done n := by
  unfold infoNumArg
  rw [if_pos hc, digitsTok_showNatChars 3 n (by omega) (by omega)]
  show (if n <= 255 then POut.done n else POut.panicked) = POut.done n
  rw [if_pos hn]

/-- The 12-digit numeric argument of the other counters re-reads its rendered
value. -/
theorem infoNumArg_large (c : Nat) (hc : ¬ (c = 1 ∨ c = 2)) (n : Nat) (hn : n < 10 ^ 12) :
    infoNumArg c (showNatChars n) = POut.done n := by
  unfold infoNumArg
  rw [if_neg hc, digitsTok_showNatChars 12 n (by omega) hn]

/-- A numeric `info` clause extends the attribute list and continues. -/
theorem infoArgStep_num (acc : List UciInfoAttribute) (c : Nat) (w n : List Char)
    (rest2 : List (List Char)) (hc : 1 ≤ c ∧ c ≤ 11) (v : Nat)
    (harg : infoNumArg c n = POut.done v) :
    infoArgStep acc c w n rest2 = .inr (acc ++ [infoNumAttr c v]) := by
  unfold infoArgStep
  rw [if_pos hc, harg]

/-- A serialized move is never a digit token (its first character is a
file letter). -/
theorem digitsTok_serializeMove (m : UciMove) (h : moveOK m = true) (k : Nat) :
    digitsTok k (serializeMove m).data = none := by
  obtain ⟨⟨f1, r1⟩, ⟨f2, r2⟩, promo⟩ := m
  simp only [moveOK, squareOK, Bool.and_eq_true, decide_eq_true_eq] at h
  obtain ⟨⟨⟨⟨hf1, _⟩, _⟩, _⟩, _⟩ := h
  simp only [isFileChar, Bool.and_eq_true, decide_eq_true_eq] at hf1
  obtain ⟨t, ht⟩ : ∃ t, (serializeMove ⟨⟨f1, r1⟩, ⟨f2, r2⟩, promo⟩).data = f1 :: t :=
    ⟨_, rfl⟩
  rw [ht]
  unfold digitsTok
  rw [if_neg]
  rintro ⟨hd, _⟩
  have hd' := of_decide_eq_true hd
  have hall := hd'.2
  simp only [List.all_cons, Bool.and_eq_true] at hall
  have hdig := hall.1
  simp only [isDigitChar, decide_eq_true_eq] at hdig
  exact absurd (le_trans hf1.1 hdig.2) (by decide)

/-- `info depth <n>` steps through the clause walk. -/
theorem infoStep_depth (acc : List UciInfoAttribute) (n : Nat) (hn : n ≤ 255)
    (rest : List (List Char)) :
    infoLoop acc .plain ("depth".data :: showNatChars n :: rest) =
      infoLoop (acc ++ [.depth n]) .plain rest := by
  rw [infoLoop_cons]
  show (match infoArgStep acc 1 "depth".data (showNatChars n) rest with
        | .inl out => out
        | .inr acc3 => infoLoop acc3 .plain rest) = _
  rw [infoArgStep_num acc 1 "depth".data (showNatChars n) rest (by decide) n
    (infoNumArg_small 1 (by decide) n hn)]
  rfl

/-- `info seldepth <n>` steps through the clause walk. -/
theorem infoStep_seldepth (acc : List UciInfoAttribute) (n : Nat) (hn : n ≤ 255)
    (rest : List (List Char)) :
    infoLoop acc .plain ("seldepth".data :: showNatChars n :: rest) =
      infoLoop (acc ++ [.selDepth n]) .plain rest := by
  rw [infoLoop_cons]
  show (match infoArgStep acc 2 "seldepth".data (showNatChars n) rest with
        | .inl out => out
        | .inr acc3 => infoLoop acc3 .plain rest) = _
  rw [infoArgStep_num acc 2 "seldepth".data (showNatChars n) rest (by decide) n
    (infoNumArg_small 2 (by decide) n hn)]
  rfl

/-- `info time <n>` steps through the clause walk. -/
theorem infoStep_time (acc : List UciInfoAttribute) (n : Nat) (hn : n < 10 ^ 12)
    (rest : List (List Char)) :
    infoLoop acc .plain ("time".data :: showNatChars n :: rest) =
      infoLoop (acc ++ [.time n]) .plain rest := by
  rw [infoLoop_cons]
  show (match infoArgStep acc 3 "time".data (showNatChars n) rest with
        | .inl out => out
        | .inr acc3 => infoLoop acc3 .plain rest) = _
  rw [infoArgStep_num acc 3 "time".data (showNatChars n) rest (by decide) n
    (infoNumArg_large 3 (by decide) n hn)]
  rfl

/-- `info nodes <n>` steps through the clause walk. -/
theorem infoStep_nodes (acc : List UciInfoAttribute) (n : Nat) (hn : n < 10 ^ 12)
    (rest : List (List Char)) :
    infoLoop acc .plain ("nodes".data :: showNatChars n :: rest) =
      infoLoop (acc ++ [.nodes n]) .plain rest := by
  rw [infoLoop_cons]
  show (match infoArgStep acc 4 "nodes".data (showNatChars n) rest with
        | .inl out => out
        | .inr acc3 => infoLoop acc3 .plain rest) = _
  rw [infoArgStep_num acc 4 "nodes".data (showNatChars n) rest (by decide) n
    (infoNumArg_large 4 (by decide) n hn)]
  rfl

/-- `info multipv <n>` steps through the clause walk (no `u16` truncation
below 65536). -/
theorem infoStep_multipv (acc : List UciInfoAttribute) (n : Nat) (hn : n < 65536)
    (rest : List (List Char)) :
    infoLoop acc .plain ("multipv".data :: showNatChars n :: rest) =
      infoLoop (acc ++ [.multiPv n]) .plain rest := by
  rw [infoLoop_cons]
  show (match infoArgStep acc 5 "multipv".data (showNatChars n) rest with
        | .inl out => out
        | .inr acc3 => infoLoop acc3 .plain rest) = _
  rw [infoArgStep_num acc 5 "multipv".data (showNatChars n) rest (by decide) n
    (infoNumArg_large 5 (by decide) n (by omega)),
    show infoNumAttr 5 n = .multiPv (asU16 n) from rfl,
    show asU16 n = n from Nat.mod_eq_of_lt hn]

/-- `info currmovenum <n>` steps through the clause walk. -/
theorem infoStep_currmovenum (acc : List UciInfoAttribute) (n : Nat) (hn : n < 65536)
    (rest : List (List Char)) :
    infoLoop acc .plain ("currmovenum".data :: showNatChars n :: rest) =
      infoLoop (acc ++ [.currMoveNum n]) .plain rest := by
  rw [infoLoop_cons]
  show (match infoArgStep acc 6 "currmovenum".data (showNatChars n) rest with
        | .inl out => out
        | .inr acc3 => infoLoop acc3 .plain rest) = _
  rw [infoArgStep_num acc 6 "currmovenum".data (showNatChars n) rest (by decide) n
    (infoNumArg_large 6 (by decide) n (by omega)),
    show infoNumAttr 6 n = .currMoveNum (asU16 n) from rfl,
    show asU16 n = n from Nat.mod_eq_of_lt hn]

/-- `info hashfull <n>` steps through the clause walk. -/
theorem infoStep_hashfull (acc : List UciInfoAttribute) (n : Nat) (hn : n < 65536)
    (rest : List (List Char)) :
    infoLoop acc .plain ("hashfull".data :: showNatChars n :: rest) =
      infoLoop (acc ++ [.hashFull n]) .plain rest := by
  rw [infoLoop_cons]
  show (match infoArgStep acc 7 "hashfull".data (showNatChars n) rest with
        | .inl out => out
        | .inr acc3 => infoLoop acc3 .plain rest) = _
  rw [infoArgStep_num acc 7 "hashfull".data (showNatChars n) rest (by decide) n
    (infoNumArg_large 7 (by decide) n (by omega)),
    show infoNumAttr 7 n = .hashFull (asU16 n) from rfl,
    show asU16 n = n from Nat.mod_eq_of_lt hn]

/-- `info nps <n>` steps through the clause walk. -/
theorem infoStep_nps (acc : List UciInfoAttribute) (n : Nat) (hn : n < 10 ^ 12)
    (rest : List (List Char)) :
    infoLoop acc .plain ("nps".data :: showNatChars n :: rest) =
      infoLoop (acc ++ [.nps n]) .plain rest := by
  rw [infoLoop_cons]
  show (match infoArgStep acc 8 "nps".data (showNatChars n) rest with
        | .inl out => out
        | .inr acc3 => infoLoop acc3 .plain rest) = _
  rw [infoArgStep_num acc 8 "nps".data (showNatChars n) rest (by decide) n
    (infoNumArg_large 8 (by decide) n hn)]
  rfl

/-- `info tbhits <n>` steps through the clause walk. -/
theorem infoStep_tbhits (acc : List UciInfoAttribute) (n : Nat) (hn : n < 10 ^ 12)
    (rest : List (List Char)) :
    infoLoop acc .plain ("tbhits".data :: showNatChars n :: rest) =
      infoLoop (acc ++ [.tbHits n]) .plain rest := by
  rw [infoLoop_cons]
  show (match infoArgStep acc 9 "tbhits".data (showNatChars n) rest with
        | .inl out => out
        | .inr acc3 => infoLoop acc3 .plain rest) = _
  rw [infoArgStep_num acc 9 "tbhits".data (showNatChars n) rest (by decide) n
    (infoNumArg_large 9 (by decide) n hn)]
  rfl

/-- `info sbhits <n>` steps through the clause walk. -/
theorem infoStep_sbhits (acc : List UciInfoAttribute) (n : Nat) (hn : n < 10 ^ 12)
    (rest : List (List Char)) :
    infoLoop acc .plain ("sbhits".data :: showNatChars n :: rest) =
      infoLoop (acc ++ [.sbHits n]) .plain rest := by
  rw [infoLoop_cons]
  show (match infoArgStep acc 10 "sbhits".data (showNatChars n) rest with
        | .inl out => out
        | .inr acc3 => infoLoop acc3 .plain rest) = _
  rw [infoArgStep_num acc 10 "sbhits".data (showNatChars n) rest (by decide) n
    (infoNumArg_large 10 (by decide) n hn)]
  rfl

/-- `info cpuload <n>` steps through the clause walk. -/
theorem infoStep_cpuload (acc : List UciInfoAttribute) (n : Nat) (hn : n < 65536)
    (rest : List (List Char)) :
    infoLoop acc .plain ("cpuload".data :: showNatChars n :: rest) =
      infoLoop (acc ++ [.cpuLoad n]) .plain rest := by
  rw [infoLoop_cons]
  show (match infoArgStep acc 11 "cpuload".data (showNatChars n) rest with
        | .inl out => out
        | .inr acc3 => infoLoop acc3 .plain rest) = _
  rw [infoArgStep_num acc 11 "cpuload".data (showNatChars n) rest (by decide) n
    (infoNumArg_large 11 (by decide) n (by omega)),
    show infoNumAttr 11 n = .cpuLoad (asU16 n) from rfl,
    show asU16 n = n from Nat.mod_eq_of_lt hn]

/-- `info currmove <m>` steps through the clause walk. -/
theorem infoStep_currmove (acc : List UciInfoAttribute) (m : UciMove) (hm : moveOK m = true)
    (rest : List (List Char)) :
    infoLoop acc .plain ("currmove".data :: (serializeMove m).data :: rest) =
      infoLoop (acc ++ [.currMove m]) .plain rest := by
  rw [infoLoop_cons]
  show (match infoArgStep acc 13 "currmove".data (serializeMove m).data rest with
        | .inl out => out
        | .inr acc3 => infoLoop acc3 .plain rest) = _
  rw [show infoArgStep acc 13 "currmove".data (serializeMove m).data rest =
    .inr (acc ++ [.currMove m]) from by
      unfold infoArgStep
      rw [if_neg (by decide), if_pos rfl, parseMoveTok_serializeMove m hm]]

end VampircUci

namespace VampircUci

/-- A token that matches none of the attribute keywords has code 0. -/
theorem infoKwCode_zero {w : List Char} (h : infoKws.contains (lower w) = false) :
    infoKwCode w = 0 := by
  have hm : ¬ (lower w ∈ infoKws) := by simpa [List.contains] using h
  simp only [infoKws, List.mem_cons, List.mem_singleton, not_or] at hm
  obtain ⟨h1, h2, h3, h4, h5, h6, h7, h8, h9, h10, h11, h12, h13, h14, h15, h16, h17, -⟩ := hm
  simp only [infoKwCode]
  rw [if_neg h1, if_neg h2, if_neg h3, if_neg h4, if_neg h6, if_neg h9, if_neg h10,
    if_neg h11, if_neg h12, if_neg h13, if_neg h14, if_neg h7, if_neg h8, if_neg h5,
    if_neg h16, if_neg h17, if_neg h15]

/-- A `pv` group swallows each serialized move of its list. -/
theorem infoLoop_pvM (acc : List UciInfoAttribute) (ms : List UciMove) :
    ms.all moveOK = true → ∀ (done : List UciMove) (rest : List (List Char)),
      infoLoop acc (.pvM done) (moveToks ms ++ rest) =
        infoLoop acc (.pvM (done ++ ms)) rest := by
  induction ms with
  | nil => intro _ done rest; simp [moveToks]
  | cons m ms' ih =>
    intro hms done rest
    simp only [List.all_cons, Bool.and_eq_true] at hms
    show infoLoop acc (.pvM done) ((serializeMove m).data :: (moveToks ms' ++ rest)) = _
    rw [infoLoop_cons,
      show stepInfo (.pvM done) (serializeMove m).data = some (.pvM (done ++ [m])) from by
        simp [stepInfo, parseMoveTok_serializeMove m hms.1]]
    show infoLoop acc (.pvM (done ++ [m])) (moveToks ms' ++ rest) = _
    rw [ih hms.2 (done ++ [m]) rest]
    simp

/-- A `refutation` group swallows each serialized move of its list. -/
theorem infoLoop_refutM (acc : List UciInfoAttribute) (ms : List UciMove) :
    ms.all moveOK = true → ∀ (done : List UciMove) (rest : List (List Char)),
      infoLoop acc (.refutM done) (moveToks ms ++ rest) =
        infoLoop acc (.refutM (done ++ ms)) rest := by
  induction ms with
  | nil => intro _ done rest; simp [moveToks]
  | cons m ms' ih =>
    intro hms done rest
    simp only [List.all_cons, Bool.and_eq_true] at hms
    show infoLoop acc (.refutM done) ((serializeMove m).data :: (moveToks ms' ++ rest)) = _
    rw [infoLoop_cons,
      show stepInfo (.refutM done) (serializeMove m).data = some (.refutM (done ++ [m])) from by
        simp [stepInfo, parseMoveTok_serializeMove m hms.1]]
    show infoLoop acc (.refutM (done ++ [m])) (moveToks ms' ++ rest) = _
    rw [ih hms.2 (done ++ [m]) rest]
    simp

/-- A `currline` group swallows each serialized move of its list. -/
theorem infoLoop_clineM (acc : List UciInfoAttribute) (cpu : Option Nat) (ms : List UciMove) :
    ms.all moveOK = true → ∀ (done : List UciMove) (rest : List (List Char)),
      infoLoop acc (.clineM cpu done) (moveToks ms ++ rest) =
        infoLoop acc (.clineM cpu (done ++ ms)) rest := by
  induction ms with
  | nil => intro _ done rest; simp [moveToks]
  | cons m ms' ih =>
    intro hms done rest
    simp only [List.all_cons, Bool.and_eq_true] at hms
    show infoLoop acc (.clineM cpu done) ((serializeMove m).data :: (moveToks ms' ++ rest)) = _
    rw [infoLoop_cons,
      show stepInfo (.clineM cpu done) (serializeMove m).data =
        some (.clineM cpu (done ++ [m])) from by
          simp [stepInfo, parseMoveTok_serializeMove m hms.1]]
    show infoLoop acc (.clineM cpu (done ++ [m])) (moveToks ms' ++ rest) = _
    rw [ih hms.2 (done ++ [m]) rest]
    simp

/-- `info pv <moves>` steps through the clause walk. -/
theorem infoStep_pv (acc : List UciInfoAttribute) (ms : List UciMove)
    (hms : ms.all moveOK = true) (rest : List (List Char))
    (hexit : headExitTok rest = true) :
    infoLoop acc .plain ("pv".data :: (moveToks ms ++ rest)) =
      infoLoop (acc ++ [.pv ms]) .plain rest := by
  rw [infoLoop_cons]
  show infoLoop acc (.pvM []) (moveToks ms ++ rest) = _
  rw [infoLoop_pvM acc ms hms [] rest, show ([] : List UciMove) ++ ms = ms from rfl]
  cases rest with
  | nil => rw [infoLoop_nil acc (.pvM ms) _ rfl, infoLoop_nil _ .plain _ rfl]
  | cons w rest' =>
    have hw : exitTok w = true := hexit
    exact infoLoop_exit acc (.pvM ms) (acc ++ [UciInfoAttribute.pv ms]) rfl w rest'
      (stepInfo_exit_pv hw)

/-- `info refutation <moves>` steps through the clause walk. -/
theorem infoStep_refutation (acc : List UciInfoAttribute) (ms : List UciMove)
    (hms : ms.all moveOK = true) (rest : List (List Char))
    (hexit : headExitTok rest = true) :
    infoLoop acc .plain ("refutation".data :: (moveToks ms ++ rest)) =
      infoLoop (acc ++ [.refutation ms]) .plain rest := by
  rw [infoLoop_cons]
  show infoLoop acc (.refutM []) (moveToks ms ++ rest) = _
  rw [infoLoop_refutM acc ms hms [] rest, show ([] : List UciMove) ++ ms = ms from rfl]
  cases rest with
  | nil => rw [infoLoop_nil acc (.refutM ms) _ rfl, infoLoop_nil _ .plain _ rfl]
  | cons w rest' =>
    have hw : exitTok w = true := hexit
    exact infoLoop_exit acc (.refutM ms) (acc ++ [UciInfoAttribute.refutation ms]) rfl w rest'
      (stepInfo_exit_refut hw)

/-- `info currline <moves>` (no CPU number) steps through the clause walk. -/
theorem infoStep_currline (acc : List UciInfoAttribute) (ms : List UciMove)
    (hms : ms.all moveOK = true) (rest : List (List Char))
    (hexit : headExitTok rest = true) :
    infoLoop acc .plain ("currline".data :: (moveToks ms ++ rest)) =
      infoLoop (acc ++ [.currLine none ms]) .plain rest := by
  rw [infoLoop_cons]
  show infoLoop acc .clineStart (moveToks ms ++ rest) = _
  cases ms with
  | nil =>
    rw [show moveToks ([] : List UciMove) ++ rest = rest from by simp [moveToks]]
    cases rest with
    | nil => rw [infoLoop_nil acc .clineStart _ rfl, infoLoop_nil _ .plain _ rfl]
    | cons w rest' =>
      have hw : exitTok w = true := hexit
      exact infoLoop_exit acc .clineStart (acc ++ [UciInfoAttribute.currLine none []]) rfl
        w rest' (stepInfo_exit_clineStart hw)
  | cons m ms' =>
    simp only [List.all_cons, Bool.and_eq_true] at hms
    show infoLoop acc .clineStart ((serializeMove m).data :: (moveToks ms' ++ rest)) = _
    rw [infoLoop_cons,
      show stepInfo .clineStart (serializeMove m).data = some (.clineM none [m]) from by
        simp [stepInfo, digitsTok_serializeMove m hms.1 3, parseMoveTok_serializeMove m hms.1]]
    show infoLoop acc (.clineM none [m]) (moveToks ms' ++ rest) = _
    rw [infoLoop_clineM acc none ms' hms.2 [m] rest,
      show ([m] : List UciMove) ++ ms' = m :: ms' from rfl]
    cases rest with
    | nil => rw [infoLoop_nil acc (.clineM none (m :: ms')) _ rfl, infoLoop_nil _ .plain _ rfl]
    | cons w rest' =>
      have hw : exitTok w = true := hexit
      exact infoLoop_exit acc (.clineM none (m :: ms'))
        (acc ++ [UciInfoAttribute.currLine none (m :: ms')]) rfl w rest'
        (stepInfo_exit_cline hw)

end VampircUci

namespace VampircUci

/-- A `cp` sub-clause of a `score` group binds its value (no `as i32`
truncation inside `i32` range). -/
theorem scoreStep_cp (acc : List UciInfoAttribute) (c : Int)
    (hc : -(2 ^ 31) ≤ c ∧ c < 2 ^ 31) (cp0 mate : Option Int) (lb ub : Option Bool)
    (rest : List (List Char)) :
    infoLoop acc (.scoreM cp0 mate lb ub none) ("cp".data :: showIntChars c :: rest) =
      infoLoop acc (.scoreM (some c) mate lb ub none) rest := by
  obtain ⟨h1, h2⟩ := hc
  have h31 : (2 : Int) ^ 31 = 2147483648 := by norm_num
  rw [h31] at h1 h2
  have hab : c.natAbs < 10 ^ 18 := by
    have h18 : (10 : Nat) ^ 18 = 1000000000000000000 := by norm_num
    rw [h18]
    omega
  rw [infoLoop_cons,
    show stepInfo (.scoreM cp0 mate lb ub none) "cp".data =
      some (.scoreM cp0 mate lb ub (some true)) from rfl]
  show infoLoop acc (.scoreM cp0 mate lb ub (some true)) (showIntChars c :: rest) = _
  rw [infoLoop_cons,
    show stepInfo (.scoreM cp0 mate lb ub (some true)) (showIntChars c) =
      (i64Tok (showIntChars c)).map (fun i =>
        if true = true then .scoreM (some (asI32 i)) mate lb ub none
        else .scoreM cp0 (some (asI8 i)) lb ub none) from rfl,
    i64Tok_showIntChars c hab]
  show infoLoop acc (.scoreM (some (asI32 c)) mate lb ub none) rest = _
  rw [asI32_id c (by rw [h31]; omega) (by rw [h31]; omega)]

/-- A `mate` sub-clause of a `score` group binds its value (no `as i8`
truncation inside `i8` range). -/
theorem scoreStep_mate (acc : List UciInfoAttribute) (c : Int)
    (hc : -(2 ^ 7) ≤ c ∧ c < 2 ^ 7) (cp0 mate0 : Option Int) (lb ub : Option Bool)
    (rest : List (List Char)) :
    infoLoop acc (.scoreM cp0 mate0 lb ub none) ("mate".data :: showIntChars c :: rest) =
      infoLoop acc (.scoreM cp0 (some c) lb ub none) rest := by
  obtain ⟨h1, h2⟩ := hc
  have h7 : (2 : Int) ^ 7 = 128 := by norm_num
  rw [h7] at h1 h2
  have hab : c.natAbs < 10 ^ 18 := by
    have h18 : (10 : Nat) ^ 18 = 1000000000000000000 := by norm_num
    rw [h18]
    omega
  rw [infoLoop_cons,
    show stepInfo (.scoreM cp0 mate0 lb ub none) "mate".data =
      some (.scoreM cp0 mate0 lb ub (some false)) from rfl]
  show infoLoop acc (.scoreM cp0 mate0 lb ub (some false)) (showIntChars c :: rest) = _
  rw [infoLoop_cons,
    show stepInfo (.scoreM cp0 mate0 lb ub (some false)) (showIntChars c) =
      (i64Tok (showIntChars c)).map (fun i =>
        if false = true then .scoreM (some (asI32 i)) mate0 lb ub none
        else .scoreM cp0 (some (asI8 i)) lb ub none) from rfl,
    i64Tok_showIntChars c hab]
  show infoLoop acc (.scoreM cp0 (some (asI8 c)) lb ub none) rest = _
  rw [asI8_id c (by rw [h7]; omega) (by rw [h7]; omega)]

/-- A `lowerbound` marker sets the lower-bound flag. -/
theorem scoreStep_lb (acc : List UciInfoAttribute) (cp mate : Option Int)
    (lb ub : Option Bool) (rest : List (List Char)) :
    infoLoop acc (.scoreM cp mate lb ub none) ("lowerbound".data :: rest) =
      infoLoop acc (.scoreM cp mate (some true) ub none) rest := by
  rw [infoLoop_cons,
    show stepInfo (.scoreM cp mate lb ub none) "lowerbound".data =
      some (.scoreM cp mate (some true) ub none) from rfl]

/-- An `upperbound` marker sets the upper-bound flag. -/
theorem scoreStep_ub (acc : List UciInfoAttribute) (cp mate : Option Int)
    (lb ub : Option Bool) (rest : List (List Char)) :
    infoLoop acc (.scoreM cp mate lb ub none) ("upperbound".data :: rest) =
      infoLoop acc (.scoreM cp mate lb (some true) none) rest := by
  rw [infoLoop_cons,
    show stepInfo (.scoreM cp mate lb ub none) "upperbound".data =
      some (.scoreM cp mate lb (some true) none) from rfl]

/-- A settled `score` group closes at the clause seam. -/
theorem scoreExit (acc : List UciInfoAttribute) (cp mate : Option Int) (lb ub : Option Bool)
    (hflush : flushInfo acc (.scoreM cp mate lb ub none) =
      some (acc ++ [.score cp mate lb ub]))
    (rest : List (List Char)) (hexit : headExitTok rest = true) :
    infoLoop acc (.scoreM cp mate lb ub none) rest =
      infoLoop (acc ++ [.score cp mate lb ub]) .plain rest := by
  cases rest with
  | nil => rw [infoLoop_nil _ _ _ hflush, infoLoop_nil _ .plain _ rfl]
  | cons w rest' =>
    have hw : exitTok w = true := hexit
    exact infoLoop_exit _ _ _ hflush w rest' (stepInfo_exit_score hw)

end VampircUci

namespace VampircUci

/-- Components of a well-formed `score` attribute. -/
theorem scoreOK_iff (cp mate : Option Int) (lb ub : Option Bool)
    (h : infoAttrOK (.score cp mate lb ub) = true) :
    (cp.isSome || mate.isSome) = true ∧
    cp.all (fun c => decide (-(2 ^ 31) ≤ c ∧ c < 2 ^ 31)) = true ∧
    mate.all (fun m => decide (-(2 ^ 7) ≤ m ∧ m < 2 ^ 7)) = true ∧
    lb.all (fun b => b) = true ∧ ub.all (fun b => b) = true ∧
    (!(lb.isSome && ub.isSome)) = true := by
  rcases cp with _ | c <;> rcases mate with _ | mt <;> rcases lb with _ | b1 <;>
    rcases ub with _ | b2 <;> simp_all [infoAttrOK]

/-- The numeric sub-clauses of a serialized `score` group replay into the
collected state. -/
theorem scoreNums (acc : List UciInfoAttribute) (cp mate : Option Int)
    (hcp : cp.all (fun c => decide (-(2 ^ 31) ≤ c ∧ c < 2 ^ 31)) = true)
    (hmt : mate.all (fun m => decide (-(2 ^ 7) ≤ m ∧ m < 2 ^ 7)) = true)
    (lb ub : Option Bool) (tail : List (List Char)) :
    infoLoop acc (.scoreM none none lb ub none)
      ((optIntToks "cp".data cp ++ optIntToks "mate".data mate) ++ tail) =
      infoLoop acc (.scoreM cp mate lb ub none) tail := by
  rcases cp with _ | c <;> rcases mate with _ | mt
  · rfl
  · show infoLoop acc (.scoreM none none lb ub none)
      ("mate".data :: showIntChars mt :: tail) = _
    rw [scoreStep_mate acc mt (by simpa using hmt) none none lb ub tail]
  · show infoLoop acc (.scoreM none none lb ub none)
      ("cp".data :: showIntChars c :: tail) = _
    rw [scoreStep_cp acc c (by simpa using hcp) none none lb ub tail]
  · show infoLoop acc (.scoreM none none lb ub none)
      ("cp".data :: showIntChars c :: "mate".data :: showIntChars mt :: tail) = _
    rw [scoreStep_cp acc c (by simpa using hcp) none none lb ub _,
      scoreStep_mate acc mt (by simpa using hmt) (some c) none lb ub tail]

/-- The bound marker of a serialized `score` group replays and the group
closes at the seam. -/
theorem scoreBounds (acc : List UciInfoAttribute) (cp mate : Option Int)
    (hsome : (cp.isSome || mate.isSome) = true) (lb ub : Option Bool)
    (hlb : lb.all (fun b => b) = true) (hub : ub.all (fun b => b) = true)
    (hnot : (!(lb.isSome && ub.isSome)) = true)
    (rest : List (List Char)) (hexit : headExitTok rest = true) :
    infoLoop acc (.scoreM cp mate none none none)
      ((if lb.isSome then ["lowerbound".data]
        else if ub.isSome then ["upperbound".data] else []) ++ rest) =
      infoLoop (acc ++ [.score cp mate lb ub]) .plain rest := by
  have hflush : flushInfo acc (.scoreM cp mate lb ub none) =
      some (acc ++ [.score cp mate lb ub]) := by
    rcases cp with _ | c <;> rcases mate with _ | mt
    · simp at hsome
    · rfl
    · rfl
    · rfl
  rcases lb with _ | b1
  · rcases ub with _ | b2
    · show infoLoop acc (.scoreM cp mate none none none) rest = _
      exact scoreExit acc cp mate none none hflush rest hexit
    · have hb2 : b2 = true := by simpa using hub
      subst hb2
      show infoLoop acc (.scoreM cp mate none none none) ("upperbound".data :: rest) = _
      rw [scoreStep_ub acc cp mate none none rest]
      exact scoreExit acc cp mate none (some true) hflush rest hexit
  · have hb1 : b1 = true := by simpa using hlb
    subst hb1
    rcases ub with _ | b2
    · show infoLoop acc (.scoreM cp mate none none none) ("lowerbound".data :: rest) = _
      rw [scoreStep_lb acc cp mate none none rest]
      exact scoreExit acc cp mate (some true) none hflush rest hexit
    · simp at hnot

/-- `info score ...` steps through the clause walk. -/
theorem infoStep_score (acc : List UciInfoAttribute) (cp mate : Option Int)
    (lb ub : Option Bool) (ha : infoAttrOK (.score cp mate lb ub) = true)
    (rest : List (List Char)) (hexit : headExitTok rest = true) :
    infoLoop acc .plain (attrToks (.score cp mate lb ub) ++ rest) =
      infoLoop (acc ++ [.score cp mate lb ub]) .plain rest := by
  obtain ⟨hsome, hcp, hmt, hlb, hub, hnot⟩ := scoreOK_iff cp mate lb ub ha
  rw [show attrToks (.score cp mate lb ub) ++ rest =
    "score".data :: ((optIntToks "cp".data cp ++ optIntToks "mate".data mate) ++
      ((if lb.isSome then ["lowerbound".data]
        else if ub.isSome then ["upperbound".data] else []) ++ rest))
    from by simp [attrToks, List.append_assoc]]
  rw [infoLoop_cons]
  show infoLoop acc (.scoreM none none none none none)
    ((optIntToks "cp".data cp ++ optIntToks "mate".data mate) ++
      ((if lb.isSome then ["lowerbound".data]
        else if ub.isSome then ["upperbound".data] else []) ++ rest)) = _
  rw [scoreNums acc cp mate hcp hmt none none _]
  exact scoreBounds acc cp mate hsome lb ub hlb hub hnot rest hexit

end VampircUci

namespace VampircUci

/-- `info string <text>` swallows the rest of the line into one attribute. -/
theorem infoStep_string (acc : List UciInfoAttribute) (s : String)
    (hs : canonicalStr s = true) :
    infoLoop acc .plain ("string".data :: words s.data) = .done (acc ++ [.str s]) := by
  obtain ⟨t, ts, hw⟩ := canonicalStr_words_cons hs
  obtain ⟨_, hj⟩ := canonicalStr_iff hs
  rw [hw, infoLoop_cons]
  show (match infoArgStep acc 17 "string".data t ts with
        | .inl out => out
        | .inr acc3 => infoLoop acc3 .plain ts) = _
  rw [show infoArgStep acc 17 "string".data t ts =
    .inl (.done (acc ++ [.str ⟨joinTok (t :: ts)⟩])) from by
      unfold infoArgStep
      rw [if_neg (by decide), if_neg (by decide), if_pos rfl]]
  rw [← hw, hj, mk_data]

/-- An unrecognized attribute name swallows the rest of the line into an
`Any` attribute. -/
theorem infoStep_any (acc : List UciInfoAttribute) (nm v : String)
    (ha : infoAttrOK (.any nm v) = true) :
    infoLoop acc .plain (nm.data :: words v.data) = .done (acc ++ [.any nm v]) := by
  have h2 : (tokOK nm.data && exitTok nm.data && !(infoKws.contains (lower nm.data)) &&
      canonicalStr v) = true := ha
  simp only [Bool.and_eq_true, Bool.not_eq_eq_eq_not, Bool.not_true] at h2
  obtain ⟨⟨⟨_, _⟩, hkw⟩, hv⟩ := h2
  obtain ⟨t, ts, hw⟩ := canonicalStr_words_cons hv
  obtain ⟨_, hj⟩ := canonicalStr_iff hv
  rw [hw, infoLoop_cons, infoKwCode_zero hkw]
  show (match infoArgStep acc 0 nm.data t ts with
        | .inl out => out
        | .inr acc3 => infoLoop acc3 .plain ts) = _
  rw [show infoArgStep acc 0 nm.data t ts =
    .inl (.done (acc ++ [.any ⟨nm.data⟩ ⟨joinTok (t :: ts)⟩])) from by
      unfold infoArgStep
      rw [if_neg (by decide), if_neg (by decide), if_neg (by decide)]]
  rw [← hw, hj, mk_data, mk_data]

end VampircUci

namespace VampircUci

/-- The first serialized token of a well-formed attribute exits any
collecting group. -/
theorem headExit_attr (a : UciInfoAttribute) (ha : infoAttrOK a = true)
    (tail : List (List Char)) : headExitTok (attrToks a ++ tail) = true := by
  cases a with
  | depth n => exact (by decide : exitTok "depth".data = true)
  | selDepth n => exact (by decide : exitTok "seldepth".data = true)
  | time n => exact (by decide : exitTok "time".data = true)
  | nodes n => exact (by decide : exitTok "nodes".data = true)
  | pv ms => exact (by decide : exitTok "pv".data = true)
  | multiPv n => exact (by decide : exitTok "multipv".data = true)
  | score cp mate lb ub => exact (by decide : exitTok "score".data = true)
  | currMove m => exact (by decide : exitTok "currmove".data = true)
  | currMoveNum n => exact (by decide : exitTok "currmovenum".data = true)
  | hashFull n => exact (by decide : exitTok "hashfull".data = true)
  | nps n => exact (by decide : exitTok "nps".data = true)
  | tbHits n => exact (by decide : exitTok "tbhits".data = true)
  | sbHits n => exact (by decide : exitTok "sbhits".data = true)
  | cpuLoad n => exact (by decide : exitTok "cpuload".data = true)
  | str s => exact (by decide : exitTok "string".data = true)
  | refutation ms => exact (by decide : exitTok "refutation".data = true)
  | currLine cpu ms => exact (by decide : exitTok "currline".data = true)
  | any nm v =>
    have h2 : (tokOK nm.data && exitTok nm.data && !(infoKws.contains (lower nm.data)) &&
        canonicalStr v) = true := ha
    simp only [Bool.and_eq_true] at h2
    exact h2.1.1.2

/-- One well-formed non-terminal attribute replays from its tokens and the
walk continues at the seam. -/
theorem infoLoop_attr (a : UciInfoAttribute) (ha : infoAttrOK a = true)
    (hterm : infoTerminal a = false) (acc : List UciInfoAttribute)
    (rest : List (List Char)) (hexit : headExitTok rest = true) :
    infoLoop acc .plain (attrToks a ++ rest) = infoLoop (acc ++ [a]) .plain rest := by
  cases a with
  | depth n =>
    show infoLoop acc .plain ("depth".data :: showNatChars n :: rest) = _
    exact infoStep_depth acc n (by simpa [infoAttrOK] using ha) rest
  | selDepth n =>
    show infoLoop acc .plain ("seldepth".data :: showNatChars n :: rest) = _
    exact infoStep_seldepth acc n (by simpa [infoAttrOK] using ha) rest
  | time n =>
    show infoLoop acc .plain ("time".data :: showNatChars n :: rest) = _
    exact infoStep_time acc n (by simpa [infoAttrOK] using ha) rest
  | nodes n =>
    show infoLoop acc .plain ("nodes".data :: showNatChars n :: rest) = _
    exact infoStep_nodes acc n (by simpa [infoAttrOK] using ha) rest
  | pv ms =>
    show infoLoop acc .plain ("pv".data :: (moveToks ms ++ rest)) = _
    exact infoStep_pv acc ms (by simpa [infoAttrOK] using ha) rest hexit
  | multiPv n =>
    show infoLoop acc .plain ("multipv".data :: showNatChars n :: rest) = _
    exact infoStep_multipv acc n (by simpa [infoAttrOK] using ha) rest
  | score cp mate lb ub =>
    exact infoStep_score acc cp mate lb ub ha rest hexit
  | currMove m =>
    show infoLoop acc .plain ("currmove".data :: (serializeMove m).data :: rest) = _
    exact infoStep_currmove acc m (by simpa [infoAttrOK] using ha) rest
  | currMoveNum n =>
    show infoLoop acc .plain ("currmovenum".data :: showNatChars n :: rest) = _
    exact infoStep_currmovenum acc n (by simpa [infoAttrOK] using ha) rest
  | hashFull n =>
    show infoLoop acc .plain ("hashfull".data :: showNatChars n :: rest) = _
    exact infoStep_hashfull acc n (by simpa [infoAttrOK] using ha) rest
  | nps n =>
    show infoLoop acc .plain ("nps".data :: showNatChars n :: rest) = _
    exact infoStep_nps acc n (by simpa [infoAttrOK] using ha) rest
  | tbHits n =>
    show infoLoop acc .plain ("tbhits".data :: showNatChars n :: rest) = _
    exact infoStep_tbhits acc n (by simpa [infoAttrOK] using ha) rest
  | sbHits n =>
    show infoLoop acc .plain ("sbhits".data :: showNatChars n :: rest) = _
    exact infoStep_sbhits acc n (by simpa [infoAttrOK] using ha) rest
  | cpuLoad n =>
    show infoLoop acc .plain ("cpuload".data :: showNatChars n :: rest) = _
    exact infoStep_cpuload acc n (by simpa [infoAttrOK] using ha) rest
  | str s => simp [infoTerminal] at hterm
  | refutation ms =>
    show infoLoop acc .plain ("refutation".data :: (moveToks ms ++ rest)) = _
    exact infoStep_refutation acc ms (by simpa [infoAttrOK] using ha) rest hexit
  | currLine cpu ms =>
    have h2 : (cpu.isNone && ms.all moveOK) = true := ha
    simp only [Bool.and_eq_true] at h2
    rcases cpu with _ | c
    · show infoLoop acc .plain ("currline".data :: (moveToks ms ++ rest)) = _
      exact infoStep_currline acc ms h2.2 rest hexit
    · simp [Option.isNone] at h2
  | any nm v => simp [infoTerminal] at hterm

/-- A well-formed final attribute replays from its tokens and closes the
line. -/
theorem infoLoop_attr_last (a : UciInfoAttribute) (ha : infoAttrOK a = true)
    (acc : List UciInfoAttribute) :
    infoLoop acc .plain (attrToks a) = .done (acc ++ [a]) := by
  have gen : infoTerminal a = false → infoLoop acc .plain (attrToks a) = .done (acc ++ [a]) := by
    intro hterm
    have hstep := infoLoop_attr a ha hterm acc [] rfl
    rw [List.append_nil] at hstep
    rw [hstep]
    exact infoLoop_nil _ .plain _ rfl
  cases a with
  | str s =>
    show infoLoop acc .plain ("string".data :: words s.data) = _
    exact infoStep_string acc s ha
  | any nm v =>
    show infoLoop acc .plain (nm.data :: words v.data) = _
    exact infoStep_any acc nm v ha
  | depth n => exact gen rfl
  | selDepth n => exact gen rfl
  | time n => exact gen rfl
  | nodes n => exact gen rfl
  | pv ms => exact gen rfl
  | multiPv n => exact gen rfl
  | score cp mate lb ub => exact gen rfl
  | currMove m => exact gen rfl
  | currMoveNum n => exact gen rfl
  | hashFull n => exact gen rfl
  | nps n => exact gen rfl
  | tbHits n => exact gen rfl
  | sbHits n => exact gen rfl
  | cpuLoad n => exact gen rfl
  | refutation ms => exact gen rfl
  | currLine cpu ms => exact gen rfl

/-- A whole well-formed attribute list replays from its serialized tokens. -/
theorem infoLoop_attrs (attrs : List UciInfoAttribute) :
    infoListOK attrs = true → ∀ acc : List UciInfoAttribute,
      infoLoop acc .plain (attrsToks attrs) = .done (acc ++ attrs) := by
  induction attrs with
  | nil =>
    intro _ acc
    rw [List.append_nil]
    exact infoLoop_nil acc .plain acc rfl
  | cons a as ih =>
    intro h acc
    cases as with
    | nil =>
      have ha : infoAttrOK a = true := h
      rw [show attrsToks [a] = attrToks a from by simp [attrsToks]]
      exact infoLoop_attr_last a ha acc
    | cons b bs =>
      have h2 : (infoAttrOK a && !infoTerminal a && infoListOK (b :: bs)) = true := h
      simp only [Bool.and_eq_true, Bool.not_eq_eq_eq_not, Bool.not_true] at h2
      obtain ⟨⟨ha, hterm⟩, hrest⟩ := h2
      have hb : infoAttrOK b = true := by
        cases bs with
        | nil => exact hrest
        | cons c cs =>
          have h3 : (infoAttrOK b && !infoTerminal b && infoListOK (c :: cs)) = true := hrest
          simp only [Bool.and_eq_true] at h3
          exact h3.1.1
      show infoLoop acc .plain (attrToks a ++ attrsToks (b :: bs)) = _
      rw [infoLoop_attr a ha hterm acc _ (by
        rw [show attrsToks (b :: bs) = attrToks b ++ attrsToks bs from by simp [attrsToks]]
        exact headExit_attr b hb _)]
      rw [ih hrest (acc ++ [a])]
      simp

end VampircUci

namespace VampircUci

/-! ## Round trip: info (serializer shape) -/

/-- Characters of the serializer's optional `cp` clause. -/
theorem optIntClauseStr_cp_data (o : Option Int) :
    (optIntClauseStr " cp " o).data = leadTok (optIntToks "cp".data o) := by
  cases o with
  | none => rfl
  | some i => simp [optIntClauseStr, optIntToks, leadTok, data_append, showInt, mk_data]

/-- Characters of the serializer's optional `mate` clause. -/
theorem optIntClauseStr_mate_data (o : Option Int) :
    (optIntClauseStr " mate " o).data = leadTok (optIntToks "mate".data o) := by
  cases o with
  | none => rfl
  | some i => simp [optIntClauseStr, optIntToks, leadTok, data_append, showInt, mk_data]

/-- The score serializer arm, restated through the clause helpers. -/
theorem serInfo_score (cp mate : Option Int) (lb ub : Option Bool) :
    serializeInfoAttr (.score cp mate lb ub) =
      "score" ++ optIntClauseStr " cp " cp ++ optIntClauseStr " mate " mate ++
        (if lb.isSome then " lowerbound"
         else if ub.isSome then " upperbound" else "") := by
  rcases cp with _ | c <;> rcases mate with _ | mt <;> rfl

/-- Characters of one serialized attribute: its canonical token join. -/
theorem attr_data (a : UciInfoAttribute) (ha : infoAttrOK a = true) :
    (serializeInfoAttr a).data = joinTok (attrToks a) := by
  cases a with
  | depth n => rfl
  | selDepth n => rfl
  | time n => rfl
  | nodes n => rfl
  | multiPv n => rfl
  | currMoveNum n => rfl
  | hashFull n => rfl
  | nps n => rfl
  | tbHits n => rfl
  | sbHits n => rfl
  | cpuLoad n => rfl
  | currMove m => rfl
  | pv ms =>
    rw [show serializeInfoAttr (.pv ms) =
      "pv" ++ String.join (ms.map (fun m => " " ++ serializeMove m)) from rfl,
      data_append, movesLead_data,
      show attrToks (.pv ms) = "pv".data :: moveToks ms from rfl, joinTok_cons_leadTok]
  | refutation ms =>
    rw [show serializeInfoAttr (.refutation ms) =
      "refutation" ++ String.join (ms.map (fun m => " " ++ serializeMove m)) from rfl,
      data_append, movesLead_data,
      show attrToks (.refutation ms) = "refutation".data :: moveToks ms from rfl,
      joinTok_cons_leadTok]
  | str s =>
    have hs : canonicalStr s = true := ha
    rw [show serializeInfoAttr (.str s) = "string" ++ (" " ++ s) from rfl,
      data_append, show attrToks (.str s) = "string".data :: words s.data from rfl,
      joinTok_cons_leadTok, leadTok_words hs]
    rfl
  | any nm v =>
    have h2 : (tokOK nm.data && exitTok nm.data && !(infoKws.contains (lower nm.data)) &&
        canonicalStr v) = true := ha
    simp only [Bool.and_eq_true] at h2
    rw [show serializeInfoAttr (.any nm v) = nm ++ (" " ++ v) from rfl,
      data_append, show attrToks (.any nm v) = nm.data :: words v.data from rfl,
      joinTok_cons_leadTok, leadTok_words h2.2]
    rfl
  | currLine cpu ms =>
    have h2 : (cpu.isNone && ms.all moveOK) = true := ha
    rcases cpu with _ | c
    · rw [show serializeInfoAttr (.currLine none ms) =
        "currline" ++ ("" ++ String.join (ms.map (fun m => " " ++ serializeMove m))) from rfl,
        data_append, data_append, movesLead_data,
        show attrToks (.currLine none ms) = "currline".data :: ([] ++ moveToks ms) from rfl,
        List.nil_append, joinTok_cons_leadTok]
      rfl
    · simp [Option.isNone] at h2
  | score cp mate lb ub =>
    rw [serInfo_score, data_append, data_append, data_append,
      optIntClauseStr_cp_data, optIntClauseStr_mate_data,
      show attrToks (.score cp mate lb ub) =
        "score".data ::
          (optIntToks "cp".data cp ++ optIntToks "mate".data mate ++
            (if lb.isSome then ["lowerbound".data]
             else if ub.isSome then ["upperbound".data] else [])) from rfl,
      joinTok_cons_leadTok, leadTok_append, leadTok_append]
    rcases lb with _ | b1 <;> rcases ub with _ | b2 <;>
      (simp only [List.append_assoc]; rfl)

end VampircUci

namespace VampircUci

/-- Every token of a well-formed serialized attribute is well formed. -/
theorem attrToks_all_tokOK (a : UciInfoAttribute) (ha : infoAttrOK a = true) :
    (attrToks a).all tokOK = true := by
  cases a with
  | depth n => (simp [attrToks, tokOK_showNatChars]; decide)
  | selDepth n => (simp [attrToks, tokOK_showNatChars]; decide)
  | time n => (simp [attrToks, tokOK_showNatChars]; decide)
  | nodes n => (simp [attrToks, tokOK_showNatChars]; decide)
  | multiPv n => (simp [attrToks, tokOK_showNatChars]; decide)
  | currMoveNum n => (simp [attrToks, tokOK_showNatChars]; decide)
  | hashFull n => (simp [attrToks, tokOK_showNatChars]; decide)
  | nps n => (simp [attrToks, tokOK_showNatChars]; decide)
  | tbHits n => (simp [attrToks, tokOK_showNatChars]; decide)
  | sbHits n => (simp [attrToks, tokOK_showNatChars]; decide)
  | cpuLoad n => (simp [attrToks, tokOK_showNatChars]; decide)
  | currMove m =>
    have hm : moveOK m = true := ha
    simp [attrToks, serializeMove_tokOK m hm]
    decide
  | pv ms =>
    have hms : ms.all moveOK = true := ha
    show (("pv".data :: moveToks ms).all tokOK) = true
    simp only [List.all_cons, Bool.and_eq_true]
    exact ⟨by decide, moveToks_all_tokOK ms hms⟩
  | refutation ms =>
    have hms : ms.all moveOK = true := ha
    show (("refutation".data :: moveToks ms).all tokOK) = true
    simp only [List.all_cons, Bool.and_eq_true]
    exact ⟨by decide, moveToks_all_tokOK ms hms⟩
  | str s =>
    have hs : canonicalStr s = true := ha
    show (("string".data :: words s.data).all tokOK) = true
    simp only [List.all_cons, Bool.and_eq_true]
    exact ⟨by decide, canonicalStr_all_tokOK hs⟩
  | any nm v =>
    have h2 : (tokOK nm.data && exitTok nm.data && !(infoKws.contains (lower nm.data)) &&
        canonicalStr v) = true := ha
    simp only [Bool.and_eq_true] at h2
    show ((nm.data :: words v.data).all tokOK) = true
    simp only [List.all_cons, Bool.and_eq_true]
    exact ⟨h2.1.1.1, canonicalStr_all_tokOK h2.2⟩
  | currLine cpu ms =>
    have h2 : (cpu.isNone && ms.all moveOK) = true := ha
    simp only [Bool.and_eq_true] at h2
    rcases cpu with _ | c
    · show (("currline".data :: ([] ++ moveToks ms)).all tokOK) = true
      simp only [List.nil_append, List.all_cons, Bool.and_eq_true]
      exact ⟨by decide, moveToks_all_tokOK ms h2.2⟩
    · simp [Option.isNone] at h2
  | score cp mate lb ub =>
    show (("score".data ::
      (optIntToks "cp".data cp ++ optIntToks "mate".data mate ++
        (if lb.isSome then ["lowerbound".data]
         else if ub.isSome then ["upperbound".data] else []))).all tokOK) = true
    simp only [List.all_cons, List.all_append, Bool.and_eq_true]
    refine ⟨by decide, ⟨optIntToks_all_tokOK _ (by decide) cp,
      optIntToks_all_tokOK _ (by decide) mate⟩, ?_⟩
    rcases lb with _ | b1 <;> rcases ub with _ | b2
    · rfl
    · exact (by decide : (["upperbound".data] : List (List Char)).all tokOK = true)
    · exact (by decide : (["lowerbound".data] : List (List Char)).all tokOK = true)
    · exact (by decide : (["lowerbound".data] : List (List Char)).all tokOK = true)

/-- Every attribute of a round-trippable list is itself well formed. -/
theorem infoListOK_all (attrs : List UciInfoAttribute) :
    infoListOK attrs = true → attrs.all infoAttrOK = true := by
  induction attrs with
  | nil => intro _; rfl
  | cons a as ih =>
    intro h
    cases as with
    | nil =>
      have ha : infoAttrOK a = true := h
      simp [ha]
    | cons b bs =>
      have h2 : (infoAttrOK a && !infoTerminal a && infoListOK (b :: bs)) = true := h
      simp only [Bool.and_eq_true] at h2
      have hall := ih h2.2
      simp only [List.all_cons, Bool.and_eq_true] at hall ⊢
      exact ⟨h2.1.1, hall⟩

/-- Every serialized attribute has at least its keyword token. -/
theorem attrToks_shape (a : UciInfoAttribute) : ∃ t ts, attrToks a = t :: ts := by
  cases a <;> exact ⟨_, _, rfl⟩

/-- Characters of the serialized attribute run: the space-led token list. -/
theorem attrs_lead_data (attrs : List UciInfoAttribute)
    (h : attrs.all infoAttrOK = true) :
    (String.join (attrs.map (fun a => " " ++ serializeInfoAttr a))).data =
      leadTok (attrsToks attrs) := by
  induction attrs with
  | nil => rfl
  | cons a as ih =>
    simp only [List.all_cons, Bool.and_eq_true] at h
    simp only [List.map_cons]
    rw [join_data, List.map_cons, List.flatten_cons, ← join_data, ih h.2,
      show attrsToks (a :: as) = attrToks a ++ attrsToks as from by simp [attrsToks],
      leadTok_append, data_append, attr_data a h.1]
    obtain ⟨t, ts, hts⟩ := attrToks_shape a
    rw [hts, leadTok_cons_joinTok]
    rfl

/-- Characters of a serialized `info` line. -/
theorem serialize_info_data (attrs : List UciInfoAttribute)
    (h : attrs.all infoAttrOK = true) :
    (serialize (.info attrs)).data = "info".data ++ leadTok (attrsToks attrs) := by
  rw [show serialize (.info attrs) =
    "info" ++ String.join (attrs.map (fun a => " " ++ serializeInfoAttr a)) from rfl,
    data_append, attrs_lead_data attrs h]

/-- Every token of a serialized well-formed attribute list is well formed. -/
theorem attrsToks_all_tokOK (attrs : List UciInfoAttribute)
    (h : attrs.all infoAttrOK = true) :
    (attrsToks attrs).all tokOK = true := by
  induction attrs with
  | nil => rfl
  | cons a as ih =>
    simp only [List.all_cons, Bool.and_eq_true] at h
    rw [show attrsToks (a :: as) = attrToks a ++ attrsToks as from by simp [attrsToks],
      List.all_append]
    simp [attrToks_all_tokOK a h.1, ih h.2]

/-- Round trip of a well-formed `info` message. -/
theorem roundtrip_info (attrs : List UciInfoAttribute) (h : infoListOK attrs = true) :
    parse_one (serialize (.info attrs)) = some (.info attrs) := by
  have hall := infoListOK_all attrs h
  have hdata := serialize_info_data attrs hall
  have hT := attrsToks_all_tokOK attrs hall
  refine parse_one_words _ _ _ _ hdata (by decide) hT ?_
  rw [parseLine_info (words_of_lead hdata (by decide) hT),
    infoLoop_attrs attrs h [], List.nil_append]

end VampircUci

namespace VampircUci

/-! ## C1: the serialize/parse_one round trip -/

/-- C1 (counterexample): the claimed round trip fails outside the claim's two
exclusions — a `Register` with only a name serializes to `register name
Stefan`, which the grammar rejects (a register line needs `later` or both
name and code), so `parse_one` wraps it as `Unknown` instead of returning the
message. -/
theorem register_name_only_cex :
    parse_one (serialize (.register false (some "Stefan") none)) ≠
      some (.register false (some "Stefan") none) := by decide

/-- C1 (amended): for every well-formed message — no `Unknown`, canonical
whitespace in every free-text capture, grammar digit bounds respected, no
builder truncation or panic, and none of the serializer's asymmetric fields
(`bt`, `cpunr`, partial `register`, absent `setoption` value) — `parse_one`
re-reads the serialized text into exactly the original message. -/
theorem serialize_parse_roundtrip (m : UciMessage) (h : wellFormed m = true) :
    parse_one (serialize m) = some m := by
  cases m with
  | uci => decide
  | debug flag => cases flag <;> decide
  | isReady => decide
  | uciNewGame => decide
  | stop => decide
  | ponderHit => decide
  | quit => decide
  | uciOk => decide
  | readyOk => decide
  | copyProtection st => cases st <;> decide
  | registration st => cases st <;> decide
  | register later name code =>
    cases later with
    | true =>
      have h2 : (name.isNone && code.isNone) = true := h
      simp only [Bool.and_eq_true, Option.isNone_iff_eq_none] at h2
      obtain ⟨rfl, rfl⟩ := h2
      decide
    | false =>
      rcases name with _ | n <;> rcases code with _ | c
      · simp [wellFormed] at h
      · simp [wellFormed] at h
      · simp [wellFormed] at h
      · have h2 : (canonicalStr n && strAvoids n ["code".data] && canonicalStr c) = true := h
        simp only [Bool.and_eq_true] at h2
        exact roundtrip_register n c h2.1.1 h2.1.2 h2.2
  | position s f mv => exact roundtrip_position s f mv h
  | setOption n v =>
    rcases v with _ | v
    · have h2 : (canonicalStr n && strAvoids n ["value".data] && false) = true := h
      simp at h2
    · have h2 : (canonicalStr n && strAvoids n ["value".data] && canonicalStr v) = true := h
      simp only [Bool.and_eq_true] at h2
      exact roundtrip_setoption n v h2.1.1 h2.1.2 h2.2
  | go tc sc =>
    have h2 : (tc.all timeControlOK && sc.all searchControlOK) = true := h
    simp only [Bool.and_eq_true] at h2
    exact roundtrip_go tc sc h2.1 h2.2
  | id name author => exact roundtrip_id name author h
  | bestMove b p =>
    rcases p with _ | q
    · have h2 : (moveOK b && true) = true := h
      simp only [Bool.and_eq_true] at h2
      exact roundtrip_bestmove b none h2.1 rfl
    · have h2 : (moveOK b && moveOK q) = true := h
      simp only [Bool.and_eq_true] at h2
      exact roundtrip_bestmove b (some q) h2.1 h2.2
  | option cfg => exact roundtrip_option cfg h
  | info attrs => exact roundtrip_info attrs h
  | unknown t e => simp [wellFormed] at h

/-- C1 (witness): a populated `go` message is well formed and survives the
round trip. -/
theorem serialize_parse_roundtrip_witness :
    wellFormed (.go (some (.timeLeft (some 300000) none (some 10) none (some 40))) none)
      = true ∧
    parse_one (serialize
      (.go (some (.timeLeft (some 300000) none (some 10) none (some 40))) none)) =
      some (.go (some (.timeLeft (some 300000) none (some 10) none (some 40))) none) :=
  ⟨by decide, serialize_parse_roundtrip
    (.go (some (.timeLeft (some 300000) none (some 10) none (some 40))) none) (by decide)⟩

end VampircUci
